import Mathlib

/-!
# Verification of the hash-set simulation workbench

A shallow embedding of the hash-set engines of the repository
(`meta_map.rs`, `robinhood.rs`, `cuckoo.rs`, `three_ary_cuckoo.rs`,
`blocked_cuckoo.rs`, `triangular_probing.rs`) together with proofs and
refutations of the specification's claims about them.

Modelling conventions:
* `u64` keys and hash values are `Nat`; the hashers (`ahash::RandomState`)
  are opaque keyed hashes and are modelled as explicit function parameters
  carried in each engine's state.
* The `bitvec` sidecar of `MetaMap` is modelled as one `List Bool` per
  bucket (MSB-first, as in the `Msb0` ordering of the source).  Every
  source operation touches only the aligned slice
  `[bucket*bits, bucket*bits+bits)` and the widths in use (0,1,2,4,8) all
  divide the storage-element width, so the per-bucket representation is
  isomorphic to the flat bit-vector.
* Unbounded `loop`s are given an explicit fuel argument and return
  `Option`; `none` means the fuel ran out.  Bounded `for` loops are
  structural recursion.
* `assert!`s of the source are noted in comments; the model simply takes
  the branch the source takes when the assertion passes.
* Out-of-bounds indexing (a Rust panic) is modelled with `getD`/`Option`
  as noted at each site.
-/

set_option maxRecDepth 10000

namespace HashPls

/-- MSB-first view of the top `k` bits of a 64-bit hash, as produced by
`raw_hash.view_bits::<Msb0>()[..k]` in `MetaMap::set_full`. -/
def hashHighBits (h : Nat) (k : Nat) : List Bool :=
  (List.range k).map (fun i => h.testBit (63 - i))

/-- MSB-first view of the low `k` bits of `v`: the last `k` bits of
`v.view_bits::<Msb0>()` used by the `Psl` branch of `set_full`. -/
def natToBitsMsb (v : Nat) : Nat → List Bool
  | 0 => []
  | k + 1 => v.testBit k :: natToBitsMsb v k

/-- MSB-first integer load of a bit slice (`bitvec`'s `load` on an
`Msb0` slice that does not straddle storage elements). -/
def bitsToNat (l : List Bool) : Nat :=
  l.foldl (fun acc b => 2 * acc + (if b then 1 else 0)) 0

/-- `Metadata` from `meta_map.rs`. -/
inductive Metadata where
  | Hash (raw : Nat)
  | Psl (psl : Nat)

/-- `PslHint` from `meta_map.rs`. -/
inductive PslHint where
  | Exact (p : Nat)
  | AtLeast (p : Nat)
  deriving DecidableEq, Repr

/-- `MetaMap` from `meta_map.rs`: `bits` per bucket plus the packed bit
vector, here one MSB-first slice per bucket. -/
structure MetaMap where
  bits : Nat
  vec : List (List Bool)
  deriving DecidableEq, Repr

namespace MetaMap

/-- `MetaMap::new`: all bits zeroed. -/
def new (buckets bitsPerBucket : Nat) : MetaMap :=
  ⟨bitsPerBucket, List.replicate buckets (List.replicate bitsPerBucket false)⟩

/-- The bucket's slice (`self.bitvec[start..end]`).  Out-of-range reads
(a panic in the source) default to the empty slice. -/
def slice (m : MetaMap) (bucket : Nat) : List Bool :=
  m.vec.getD bucket []

/-- `MetaMap::set_full`. -/
def setFull (m : MetaMap) (bucket : Nat) (md : Metadata) : MetaMap :=
  if m.bits = 0 then m
  else if m.bits = 1 then { m with vec := m.vec.set bucket [true] }
  else
    match md with
    | .Hash rawHash =>
        { m with vec := m.vec.set bucket (true :: hashHighBits rawHash (m.bits - 1)) }
    | .Psl psl =>
        let truncated := min psl (2 ^ (m.bits - 1)) - 1
        { m with vec := m.vec.set bucket (true :: natToBitsMsb truncated (m.bits - 1)) }

/-- `MetaMap::set_empty`. -/
def setEmpty (m : MetaMap) (bucket : Nat) : MetaMap :=
  if m.bits = 0 then m
  else if m.bits = 1 then { m with vec := m.vec.set bucket [false] }
  else { m with vec := m.vec.set bucket (false :: List.replicate (m.bits - 1) false) }

/-- `MetaMap::set_tombstone`. -/
def setTombstone (m : MetaMap) (bucket : Nat) : MetaMap :=
  if m.bits = 0 then m
  else if m.bits = 1 then { m with vec := m.vec.set bucket [true] }
  else { m with vec := m.vec.set bucket (false :: List.replicate (m.bits - 1) true) }

/-- `MetaMap::hint_empty`: `true` means definitely empty. -/
def hintEmpty (m : MetaMap) (bucket : Nat) : Bool :=
  if m.bits = 0 then false
  else if m.bits = 1 then !(m.slice bucket).headD false
  else (m.slice bucket).all (fun b => !b)

/-- `MetaMap::hint_tombstone`: `true` means definitely a tombstone. -/
def hintTombstone (m : MetaMap) (bucket : Nat) : Bool :=
  if m.bits ≤ 1 then false
  else !(m.slice bucket).headD true && ((m.slice bucket).drop 1).all id

/-- `MetaMap::hint_psl`. -/
def hintPsl (m : MetaMap) (bucket : Nat) : Option PslHint :=
  if m.bits = 0 then none
  else if m.bits = 1 then
    if (m.slice bucket).headD false then some (.AtLeast 1) else none
  else
    if (m.slice bucket).headD false then
      let pslBits := (m.slice bucket).drop 1
      if pslBits.all id then some (.AtLeast (2 ^ (m.bits - 1)))
      else some (.Exact (bitsToNat pslBits + 1))
    else none

/-- `MetaMap::hint_not_match`: `true` only if definitely not a match. -/
def hintNotMatch (m : MetaMap) (bucket : Nat) (rawHash : Nat) : Bool :=
  if m.bits = 0 then false
  else if m.bits = 1 then !(m.slice bucket).headD false
  else
    !(m.slice bucket).headD false ||
      decide ((m.slice bucket).drop 1 ≠ hashHighBits rawHash (m.bits - 1))

/-- The occupied bit of a bucket: leading bit of its slice (for `B = 1`
the single bit plays this role; at `B = 0` there is no information). -/
def occupied (m : MetaMap) (bucket : Nat) : Bool :=
  m.bits ≠ 0 && (m.slice bucket).headD false

end MetaMap

/-- `Probe` (telemetry of a lookup), shared shape of `main.rs`/`robinhood.rs`
and the crate-level `Probe` consumed via the `Map` trait. -/
structure Probe where
  contained : Bool
  probes : Nat
  deriving DecidableEq, Repr

/-- The crate-level `Update` record (with `completed`) used by the engines
implementing the `Map` trait (`cuckoo.rs`, `three_ary_cuckoo.rs`,
`blocked_cuckoo.rs`, `triangular_probing.rs`). -/
structure Update where
  totalProbes : Nat
  totalWrites : Nat
  completed : Bool
  deriving DecidableEq, Repr

/-- `Update` as defined in `robinhood.rs`: no `completed` field. -/
structure RHUpdate where
  totalProbes : Nat
  totalWrites : Nat
  deriving DecidableEq, Repr

/-- `BucketItem` from `triangular_probing.rs`. -/
inductive BucketItem where
  | Value (k : Nat)
  | Empty
  | Tombstone
  deriving DecidableEq, Repr

/-- `TriaProb` from `triangular_probing.rs`; the keyed hasher is carried
as an explicit function. -/
structure TriaProb where
  hash : Nat → Nat
  buckets : List BucketItem
  meta : MetaMap
  len : Nat

namespace TriaProb

/-- `TriaProb::new`. -/
def new (capacity metaBits : Nat) (hash : Nat → Nat) : TriaProb :=
  ⟨hash, List.replicate capacity .Empty, MetaMap.new capacity metaBits, 0⟩

/-- `TriaProb::capacity`. -/
def capacity (s : TriaProb) : Nat := s.buckets.length

/-- Loop body of `TriaProb::probe_search`: `rem` counts the iterations
left of `for i in 0..len`, `i`/`offset`/`probes` are the loop-carried
variables.  Bucket reads out of range (a Rust panic) default to `Empty`;
the in-loop `assert!`s on `meta.bits()` are comments on reachability and
do not alter control flow. -/
def probeSearchAux (s : TriaProb) (key hash home : Nat) :
    Nat → Nat → Nat → Nat → Option Nat × Nat
  | 0, _, _, _ => (none, s.buckets.length)
  | rem + 1, i, offset, probes =>
    let offset := offset + i
    let bucketIndex := (home + offset) % s.buckets.length
    if s.meta.hintEmpty bucketIndex then (none, probes)
    else if !(s.meta.hintNotMatch bucketIndex hash) then
      let probes := probes + 1
      match s.buckets.getD bucketIndex .Empty with
      | .Value foundKey =>
          if key = foundKey then (some bucketIndex, probes)
          else probeSearchAux s key hash home rem (i + 1) offset probes
      | .Empty => (none, probes)
      | .Tombstone => probeSearchAux s key hash home rem (i + 1) offset probes
    else probeSearchAux s key hash home rem (i + 1) offset probes

/-- `TriaProb::probe_search`. -/
def probeSearch (s : TriaProb) (key : Nat) : Option Nat × Nat :=
  let hash := s.hash key
  probeSearchAux s key hash (hash % s.buckets.length) s.buckets.length 0 0 0

/-- Loop body of `TriaProb::probe_insert` (same conventions as
`probeSearchAux`). -/
def probeInsertAux (s : TriaProb) (key hash home : Nat) :
    Nat → Nat → Nat → Nat → Option Nat × Nat
  | 0, _, _, _ => (none, s.buckets.length)
  | rem + 1, i, offset, probes =>
    let offset := offset + i
    let bucketIndex := (home + offset) % s.buckets.length
    if s.meta.hintEmpty bucketIndex || s.meta.hintTombstone bucketIndex then
      (some bucketIndex, probes)
    else if !(s.meta.hintNotMatch bucketIndex hash) then
      let probes := probes + 1
      match s.buckets.getD bucketIndex .Empty with
      | .Empty => (some bucketIndex, probes)
      | .Tombstone => (some bucketIndex, probes)
      | .Value foundKey =>
          if key = foundKey then (some bucketIndex, probes)
          else probeInsertAux s key hash home rem (i + 1) offset probes
    else probeInsertAux s key hash home rem (i + 1) offset probes

/-- `TriaProb::probe_insert`. -/
def probeInsert (s : TriaProb) (key : Nat) : Option Nat × Nat :=
  let hash := s.hash key
  probeInsertAux s key hash (hash % s.buckets.length) s.buckets.length 0 0 0

/-- `TriaProb::set_bucket` (the `Empty` arm is `unreachable!()` in the
source and is modelled as a no-op on the meta map). -/
def setBucket (s : TriaProb) (bucket : Nat) (item : BucketItem) : TriaProb :=
  let meta :=
    match item with
    | .Value key => s.meta.setFull bucket (.Hash (s.hash key))
    | .Empty => s.meta
    | .Tombstone => s.meta.setTombstone bucket
  { s with buckets := s.buckets.set bucket item, meta := meta }

/-- `<TriaProb as Map>::probe`. -/
def probe (s : TriaProb) (key : Nat) : Probe :=
  let (probeResult, probes) := probeSearch s key
  ⟨probeResult.isSome, probes⟩

/-- `<TriaProb as Map>::insert`.  Note the source initialises
`total_writes` to 1 and never updates it, on the failure path included. -/
def insert (s : TriaProb) (key : Nat) : TriaProb × Update :=
  let (probeResult, totalProbes) := probeInsert s key
  match probeResult with
  | none => (s, ⟨totalProbes, 1, false⟩)
  | some bucketIndex =>
      (setBucket { s with len := s.len + 1 } bucketIndex (.Value key),
        ⟨totalProbes, 1, true⟩)

/-- `<TriaProb as Map>::remove`.  The source sets `total_probes` only on
the not-found path; a successful removal reports `total_probes = 0`. -/
def remove (s : TriaProb) (key : Nat) : TriaProb × Update :=
  let (probeResult, totalProbes) := probeSearch s key
  match probeResult with
  | none => (s, ⟨totalProbes, 1, false⟩)
  | some bucketIndex =>
      (setBucket { s with len := s.len - 1 } bucketIndex .Tombstone,
        ⟨0, 1, true⟩)

end TriaProb

/-- `RobinHood` from `robinhood.rs`; the keyed hasher is carried as an
explicit function.  `META_BITS` is hard-coded to 1 in the source. -/
structure RobinHood where
  hash : Nat → Nat
  buckets : List (Option Nat)
  meta : MetaMap
  len : Nat

namespace RobinHood

/-- `RobinHood::new` (uses `META_BITS = 1`). -/
def new (capacity : Nat) (hash : Nat → Nat) : RobinHood :=
  ⟨hash, List.replicate capacity none, MetaMap.new capacity 1, 0⟩

/-- `RobinHood::bucket_for`. -/
def bucketFor (s : RobinHood) (key : Nat) : Nat :=
  s.hash key % s.buckets.length

/-- `RobinHood::psl_of`. -/
def pslOf (s : RobinHood) (key bucket : Nat) : Nat :=
  let home := s.bucketFor key
  1 + if bucket < home then bucket + s.buckets.length - home else bucket - home

/-- `RobinHood::set_bucket`. -/
def setBucket (s : RobinHood) (bucket key psl : Nat) : RobinHood :=
  { s with
    buckets := s.buckets.set bucket (some key)
    meta := s.meta.setFull bucket (.Psl psl) }

/-- `RobinHood::clear_bucket`. -/
def clearBucket (s : RobinHood) (bucket : Nat) : RobinHood :=
  { s with
    buckets := s.buckets.set bucket none
    meta := s.meta.setEmpty bucket }

/-- The `loop` of `RobinHood::probe`, with fuel.  `hinted` encodes the
hint consultation: `some (some r)` returns `r`, `some none` is the
`continue` branch, `none` falls through to the bucket read. -/
def probeAux (s : RobinHood) (key : Nat) : Nat → Nat → Nat → Nat → Option Probe
  | 0, _, _, _ => none
  | fuel + 1, psl, bucket, probes =>
    let hinted : Option (Option Probe) :=
      match s.meta.hintPsl bucket with
      | none => some (some ⟨false, probes⟩)
      | some (.Exact bucketPsl) =>
          if bucketPsl < psl then some (some ⟨false, probes⟩)
          else if bucketPsl > psl then some none
          else none
      | some (.AtLeast bucketPsl) =>
          if bucketPsl > psl then some none else none
    match hinted with
    | some (some r) => some r
    | some none =>
        probeAux s key fuel (psl + 1) ((bucket + 1) % s.buckets.length) probes
    | none =>
      let probes := probes + 1
      match s.buckets.getD bucket none with
      | none => some ⟨false, probes⟩
      | some k =>
        if k = key then some ⟨true, probes⟩
        else if s.pslOf k bucket < psl then some ⟨false, probes⟩
        else probeAux s key fuel (psl + 1) ((bucket + 1) % s.buckets.length) probes

/-- `RobinHood::probe`, with fuel for the unbounded `loop`. -/
def probe (s : RobinHood) (fuel key : Nat) : Option Probe :=
  probeAux s key fuel 1 (s.bucketFor key) 0

/-- Bucket reads performed by the loop of `RobinHood::probe`
(instrumentation: one read for each `self.buckets[bucket]` access the
control flow reaches; the hint branches perform none). -/
def probeReadsAux (s : RobinHood) (key : Nat) : Nat → Nat → Nat → Nat → Option Nat
  | 0, _, _, _ => none
  | fuel + 1, psl, bucket, reads =>
    let hinted : Option (Option Nat) :=
      match s.meta.hintPsl bucket with
      | none => some (some reads)
      | some (.Exact bucketPsl) =>
          if bucketPsl < psl then some (some reads)
          else if bucketPsl > psl then some none
          else none
      | some (.AtLeast bucketPsl) =>
          if bucketPsl > psl then some none else none
    match hinted with
    | some (some r) => some r
    | some none =>
        probeReadsAux s key fuel (psl + 1) ((bucket + 1) % s.buckets.length) reads
    | none =>
      let reads := reads + 1
      match s.buckets.getD bucket none with
      | none => some reads
      | some k =>
        if k = key then some reads
        else if s.pslOf k bucket < psl then some reads
        else probeReadsAux s key fuel (psl + 1) ((bucket + 1) % s.buckets.length) reads

/-- Bucket reads performed by `RobinHood::probe`. -/
def probeReads (s : RobinHood) (fuel key : Nat) : Option Nat :=
  probeReadsAux s key fuel 1 (s.bucketFor key) 0

/-- The `loop` of `RobinHood::insert`, with fuel. -/
def insertAux (key : Nat) :
    Nat → RobinHood → Nat → Nat → Nat → RHUpdate → Option (RobinHood × RHUpdate)
  | 0, _, _, _, _, _ => none
  | fuel + 1, s, homeBucket, activeKey, psl, update =>
    let bucket := (homeBucket + psl - 1) % s.buckets.length
    match s.meta.hintPsl bucket with
    | none => some (s.setBucket bucket activeKey psl, update)
    | some hint =>
      let skip : Bool :=
        match hint with
        | .Exact bucketPsl => decide (psl ≤ bucketPsl)
        | .AtLeast bucketPsl => decide (psl ≤ bucketPsl)
      if skip then insertAux key fuel s homeBucket activeKey (psl + 1) update
      else
        let update := { update with totalProbes := update.totalProbes + 1 }
        match s.buckets.getD bucket none with
        | none => some (s.setBucket bucket activeKey psl, update)
        | some containedKey =>
          if containedKey = activeKey then
            if activeKey = key then some ({ s with len := s.len - 1 }, update)
            else some (s, update)
          else
            let containedHome := s.bucketFor containedKey
            let containedPsl := s.pslOf containedKey bucket
            if containedPsl < psl then
              insertAux key fuel (s.setBucket bucket activeKey psl) containedHome
                containedKey (containedPsl + 1)
                { update with totalWrites := update.totalWrites + 1 }
            else insertAux key fuel s homeBucket activeKey (psl + 1) update

/-- `RobinHood::insert`, with fuel for the unbounded `loop`. -/
def insert (s : RobinHood) (fuel key : Nat) : Option (RobinHood × RHUpdate) :=
  insertAux key fuel { s with len := s.len + 1 } (s.bucketFor key) key 1 ⟨0, 1⟩

/-- The backward-shift `loop` of `RobinHood::remove`, with fuel. -/
def removeShiftAux : Nat → RobinHood → Nat → RHUpdate → Option (RobinHood × RHUpdate)
  | 0, _, _, _ => none
  | fuel + 1, s, bucket, update =>
    let nextBucket := (bucket + 1) % s.buckets.length
    match s.meta.hintPsl nextBucket with
    | some (.Exact 1) => some (s, update)
    | _ =>
      let update := { update with totalProbes := update.totalProbes + 1 }
      match s.buckets.getD nextBucket none with
      | none => some (s, update)
      | some k =>
        let shiftPsl := s.pslOf k nextBucket
        if shiftPsl = 1 then some (s, update)
        else
          removeShiftAux fuel (s.setBucket bucket k (shiftPsl - 1)) nextBucket
            { update with totalWrites := update.totalWrites + 1 }

/-- `RobinHood::remove`, with fuel for the two unbounded `loop`s. -/
def remove (s : RobinHood) (fuel key : Nat) : Option (RobinHood × RHUpdate) :=
  match probe s fuel key with
  | none => none
  | some pr =>
    if !pr.contained then some (s, ⟨pr.probes, 0⟩)
    else
      let s' := { s with len := s.len - 1 }
      let bucket := (s'.bucketFor key + pr.probes - 1) % s'.buckets.length
      removeShiftAux fuel (s'.clearBucket bucket) bucket ⟨pr.probes, 1⟩

end RobinHood

/-- `Cuckoo` from `cuckoo.rs` (`HASHER_COUNT = 5` hashers in the source;
modelled as an arbitrary list of hash functions). -/
structure Cuckoo where
  hashers : List (Nat → Nat)
  buckets : List (Option Nat)
  meta : MetaMap
  len : Nat

namespace Cuckoo

/-- `Cuckoo::new`. -/
def new (capacity metaBits : Nat) (hashers : List (Nat → Nat)) : Cuckoo :=
  ⟨hashers, List.replicate capacity none, MetaMap.new capacity metaBits, 0⟩

/-- The `while bucket_b == bucket_a` loop of `Cuckoo::buckets`:
`cur_hasher` is incremented and `hashers[cur_hasher]` read each round;
running past the hasher list (a Rust index panic) yields `none`, as does
exhausting the fuel (which is at least the list length at every call). -/
def bucketsForAux (hashers : List (Nat → Nat)) (key n bucketA : Nat) :
    Nat → Nat → Option Nat
  | _, 0 => none
  | curHasher, fuel + 1 =>
    match hashers.get? (curHasher + 1) with
    | none => none
    | some h =>
      let bucketB := h key % n
      if bucketB = bucketA then bucketsForAux hashers key n bucketA (curHasher + 1) fuel
      else some bucketB

/-- `Cuckoo::buckets`: `(hash_a, bucket_a, bucket_b)`. -/
def bucketsFor (s : Cuckoo) (key : Nat) : Option (Nat × Nat × Nat) :=
  match s.hashers.get? 0 with
  | none => none
  | some h0 =>
    let hashA := h0 key
    let bucketA := hashA % s.buckets.length
    (bucketsForAux s.hashers key s.buckets.length bucketA 0 s.hashers.length).map
      (fun bucketB => (hashA, bucketA, bucketB))

/-- `Cuckoo::set_bucket`. -/
def setBucket (s : Cuckoo) (bucket key hash : Nat) : Cuckoo :=
  { s with
    buckets := s.buckets.set bucket (some key)
    meta := s.meta.setFull bucket (.Hash hash) }

/-- `Cuckoo::clear_bucket`. -/
def clearBucket (s : Cuckoo) (bucket : Nat) : Cuckoo :=
  { s with
    buckets := s.buckets.set bucket none
    meta := s.meta.setEmpty bucket }

/-- `<Cuckoo as Map>::probe`. -/
def probe (s : Cuckoo) (key : Nat) : Option Probe :=
  match s.bucketsFor key with
  | none => none
  | some (hash, bucketA, bucketB) =>
    let checkB : Nat → Probe := fun probes =>
      if !(s.meta.hintNotMatch bucketB hash) then
        if s.buckets.getD bucketB none = some key then ⟨true, probes + 1⟩
        else ⟨false, probes + 1⟩
      else ⟨false, probes⟩
    if !(s.meta.hintNotMatch bucketA hash) then
      if s.buckets.getD bucketA none = some key then some ⟨true, 1⟩
      else some (checkB 1)
    else some (checkB 0)

/-- Bucket reads performed by `Cuckoo::probe` (instrumentation: one read
for each `self.buckets[...]` access the probe control flow reaches). -/
def probeReads (s : Cuckoo) (key : Nat) : Option Nat :=
  match s.bucketsFor key with
  | none => none
  | some (hash, bucketA, bucketB) =>
    let readB : Nat := if !(s.meta.hintNotMatch bucketB hash) then 1 else 0
    if !(s.meta.hintNotMatch bucketA hash) then
      if s.buckets.getD bucketA none = some key then some 1
      else some (1 + readB)
    else some readB

/-- The `for _ in 0..MAX_CHAIN` eviction loop of `Cuckoo::insert`.
Fuel exhaustion is the source's normal fall-through to
`completed = false`; `none` models a panic (hasher exhaustion in
`buckets`). -/
def insertChain (key : Nat) :
    Nat → Cuckoo → Nat → Bool → Nat × Nat × Nat → Update → Option (Cuckoo × Update)
  | 0, s, _, _, _, update => some (s, { update with completed := false })
  | fuel + 1, s, activeKey, useBucketA, keyInfo, update =>
    let (hash, bucketA, bucketB) := keyInfo
    let targetBucket := if useBucketA then bucketA else bucketB
    if s.meta.hintEmpty targetBucket then
      let update :=
        if activeKey ≠ key then { update with totalWrites := update.totalWrites + 1 }
        else update
      some (s.setBucket targetBucket activeKey hash, update)
    else
      let update := { update with totalProbes := update.totalProbes + 1 }
      match s.buckets.getD targetBucket none with
      | none =>
        let update :=
          if activeKey ≠ key then { update with totalWrites := update.totalWrites + 1 }
          else update
        some (s.setBucket targetBucket activeKey hash, update)
      | some k =>
        if k = activeKey then
          -- `assert_eq!(active_key, key)` in the source
          some ({ s with len := s.len - 1 }, update)
        else
          let update := { update with totalWrites := update.totalWrites + 1 }
          let s := s.setBucket targetBucket activeKey hash
          match s.bucketsFor k with
          | none => none
          | some keyInfo' =>
            insertChain key fuel s k (keyInfo'.2.2 = targetBucket) keyInfo' update

/-- `<Cuckoo as Map>::insert` (`MAX_CHAIN = 128`).  The presence test
covers only `bucket_b`, as in the source. -/
def insert (s : Cuckoo) (key : Nat) : Option (Cuckoo × Update) :=
  match s.bucketsFor key with
  | none => none
  | some keyInfo =>
    let hash := keyInfo.1
    let bucketB := keyInfo.2.2
    let update : Update := ⟨0, 1, true⟩
    if !(s.meta.hintNotMatch bucketB hash) then
      let update := { update with totalProbes := update.totalProbes + 1 }
      if s.buckets.getD bucketB none = some key then some (s, update)
      else insertChain key 128 { s with len := s.len + 1 } key true keyInfo update
    else insertChain key 128 { s with len := s.len + 1 } key true keyInfo update

/-- `<Cuckoo as Map>::remove`.  (The source never decrements `len`
here.) -/
def remove (s : Cuckoo) (key : Nat) : Option (Cuckoo × Update) :=
  match s.bucketsFor key with
  | none => none
  | some (hash, bucketA, bucketB) =>
    let checkB : Cuckoo → Update → Cuckoo × Update := fun s update =>
      if !(s.meta.hintNotMatch bucketB hash) then
        let update := { update with totalProbes := update.totalProbes + 1 }
        if s.buckets.getD bucketB none = some key then
          (s.clearBucket bucketB, { update with totalWrites := update.totalWrites + 1 })
        else (s, update)
      else (s, update)
    let update : Update := ⟨0, 0, true⟩
    if !(s.meta.hintNotMatch bucketA hash) then
      let update := { update with totalProbes := update.totalProbes + 1 }
      if s.buckets.getD bucketA none = some key then
        some (s.clearBucket bucketA, { update with totalWrites := update.totalWrites + 1 })
      else some (checkB s update)
    else some (checkB s update)

end Cuckoo

/-- `ThreeAryCuckoo` from `three_ary_cuckoo.rs` (`HASHER_COUNT = 6`). -/
structure ThreeAryCuckoo where
  hashers : List (Nat → Nat)
  buckets : List (Option Nat)
  meta : MetaMap
  len : Nat

namespace ThreeAryCuckoo

/-- `ThreeAryCuckoo::new`. -/
def new (capacity metaBits : Nat) (hashers : List (Nat → Nat)) : ThreeAryCuckoo :=
  ⟨hashers, List.replicate capacity none, MetaMap.new capacity metaBits, 0⟩

/-- The collision-resolving `while` loops of `ThreeAryCuckoo::buckets`:
re-hash `b` with `hashers[idx]` while it collides with any entry of
`bad`; returns the resolved bucket and the next hasher index.  `none`
models the Rust index panic past the hasher list. -/
def rehashAux (hashers : List (Nat → Nat)) (key n : Nat) (bad : List Nat) :
    Nat → Nat → Nat → Option (Nat × Nat)
  | b, idx, fuel =>
    if bad.contains b then
      match fuel, hashers.get? idx with
      | 0, _ => none
      | _, none => none
      | fuel' + 1, some h => rehashAux hashers key n bad (h key % n) (idx + 1) fuel'
    else some (b, idx)

/-- `ThreeAryCuckoo::buckets`: `(hash_a, [bucket_a, bucket_b, bucket_c])`. -/
def bucketsFor (s : ThreeAryCuckoo) (key : Nat) : Option (Nat × (Nat × Nat × Nat)) :=
  match s.hashers.get? 0, s.hashers.get? 1, s.hashers.get? 2 with
  | some h0, some h1, some h2 =>
    let n := s.buckets.length
    let hashA := h0 key
    let bucketA := hashA % n
    let fuel := s.hashers.length
    match rehashAux s.hashers key n [bucketA] (h1 key % n) 3 fuel with
    | none => none
    | some (bucketB, idx) =>
      match rehashAux s.hashers key n [bucketA, bucketB] (h2 key % n) idx fuel with
      | none => none
      | some (bucketC, _) => some (hashA, bucketA, bucketB, bucketC)
  | _, _, _ => none

/-- `ThreeAryCuckoo::set_bucket`. -/
def setBucket (s : ThreeAryCuckoo) (bucket key hash : Nat) : ThreeAryCuckoo :=
  { s with
    buckets := s.buckets.set bucket (some key)
    meta := s.meta.setFull bucket (.Hash hash) }

/-- `ThreeAryCuckoo::clear_bucket`. -/
def clearBucket (s : ThreeAryCuckoo) (bucket : Nat) : ThreeAryCuckoo :=
  { s with
    buckets := s.buckets.set bucket none
    meta := s.meta.setEmpty bucket }

/-- One hint-guarded check of `<ThreeAryCuckoo as Map>::probe`: the
early result (if the key matched) and the updated probe count. -/
def probeStep (s : ThreeAryCuckoo) (key hash bucket probes : Nat) :
    Option Probe × Nat :=
  if !(s.meta.hintNotMatch bucket hash) then
    if s.buckets.getD bucket none = some key then (some ⟨true, probes + 1⟩, probes + 1)
    else (none, probes + 1)
  else (none, probes)

/-- `<ThreeAryCuckoo as Map>::probe`: three hint-guarded bucket checks. -/
def probe (s : ThreeAryCuckoo) (key : Nat) : Option Probe :=
  match s.bucketsFor key with
  | none => none
  | some (hash, bucketA, bucketB, bucketC) =>
    match probeStep s key hash bucketA 0 with
    | (some r, _) => some r
    | (none, p1) =>
      match probeStep s key hash bucketB p1 with
      | (some r, _) => some r
      | (none, p2) =>
        match probeStep s key hash bucketC p2 with
        | (some r, _) => some r
        | (none, p3) => some ⟨false, p3⟩

/-- Bucket reads performed by `<ThreeAryCuckoo as Map>::probe`
(instrumentation: a hint-passed check reads one bucket; the scan stops
at the first match). -/
def probeReads (s : ThreeAryCuckoo) (key : Nat) : Option Nat :=
  match s.bucketsFor key with
  | none => none
  | some (hash, bucketA, bucketB, bucketC) =>
    let readsAt : Nat → Nat := fun b => if !(s.meta.hintNotMatch b hash) then 1 else 0
    let foundAt : Nat → Bool := fun b =>
      !(s.meta.hintNotMatch b hash) && decide (s.buckets.getD b none = some key)
    some (readsAt bucketA +
      if foundAt bucketA then 0
      else readsAt bucketB +
        if foundAt bucketB then 0
        else readsAt bucketC)

/-- The `for &bucket_index in &bucket_indices` scan of
`ThreeAryCuckoo::insert`: place the active key in the first usable
bucket that is empty per hint (or per a direct read at `B = 0`);
returns the placed result, or the threaded update when no candidate
was empty. -/
def tryEmpty (s : ThreeAryCuckoo) (key activeKey hash : Nat) :
    List Nat → Update → Option (ThreeAryCuckoo × Update) × Update
  | [], update => (none, update)
  | bucket :: rest, update =>
    if s.meta.hintEmpty bucket then
      let update :=
        if activeKey ≠ key then { update with totalWrites := update.totalWrites + 1 }
        else update
      (some (s.setBucket bucket activeKey hash, update), update)
    else if s.meta.bits = 0 then
      let update := { update with totalProbes := update.totalProbes + 1 }
      if s.buckets.getD bucket none = none then
        let update :=
          if activeKey ≠ key then { update with totalWrites := update.totalWrites + 1 }
          else update
        (some (s.setBucket bucket activeKey hash, update), update)
      else tryEmpty s key activeKey hash rest update
    else tryEmpty s key activeKey hash rest update

/-- The `loop` drawing eviction candidates in `ThreeAryCuckoo::insert`:
draw `gen_range(0..3)` values from the pre-drawn stream `rng` until one
hits a usable slot of the mask; `none` models stream exhaustion. -/
def pickEvict (useA useB useC : Bool) : List Nat → Option (Nat × List Nat)
  | [] => none
  | r :: rest =>
    let i := r % 3
    if (i = 0 && useA) || (i = 1 && useB) || (i = 2 && useC) then some (i, rest)
    else pickEvict useA useB useC rest

/-- The `for _ in 0..MAX_CHAIN` eviction loop of
`ThreeAryCuckoo::insert`.  Fuel exhaustion is the source's fall-through
to `completed = false`; `none` models a panic (the `unwrap` on an empty
slot, hasher exhaustion in `buckets`, or rng-stream exhaustion). -/
def insertChain (key : Nat) :
    Nat → List Nat → ThreeAryCuckoo → Nat → Nat × Nat × Nat × Nat →
    Bool × Bool × Bool → Update → Option (ThreeAryCuckoo × Update)
  | 0, _, s, _, _, _, update => some (s, { update with completed := false })
  | fuel + 1, rng, s, activeKey, keyInfo, mask, update =>
    let (hash, bucketA, bucketB, bucketC) := keyInfo
    let (useA, useB, useC) := mask
    let candidates :=
      (if useA then [bucketA] else []) ++ (if useB then [bucketB] else []) ++
        (if useC then [bucketC] else [])
    match tryEmpty s key activeKey hash candidates update with
    | (some r, _) => some r
    | (none, update) =>
      match pickEvict useA useB useC rng with
      | none => none
      | some (i, rng) =>
        let evictBucket := if i = 0 then bucketA else if i = 1 then bucketB else bucketC
        let update :=
          if 0 < s.meta.bits then { update with totalProbes := update.totalProbes + 1 }
          else update
        match s.buckets.getD evictBucket none with
        | none => none
        | some swapKey =>
          let update := { update with totalWrites := update.totalWrites + 1 }
          let s := s.setBucket evictBucket activeKey hash
          match s.bucketsFor swapKey with
          | none => none
          | some keyInfo' =>
            let mask' :=
              if evictBucket = keyInfo'.2.1 then (false, true, true)
              else if evictBucket = keyInfo'.2.2.1 then (true, false, true)
              else (true, true, false)
            insertChain key fuel rng s swapKey keyInfo' mask' update

/-- `<ThreeAryCuckoo as Map>::insert` (`MAX_CHAIN = 128`).  The first
presence check reads `bucket_b` under `bucket_a`'s hint, as in the
source. -/
def insert (s : ThreeAryCuckoo) (rng : List Nat) (key : Nat) :
    Option (ThreeAryCuckoo × Update) :=
  match s.bucketsFor key with
  | none => none
  | some keyInfo =>
    let hash := keyInfo.1
    let bucketA := keyInfo.2.1
    let bucketB := keyInfo.2.2.1
    let bucketC := keyInfo.2.2.2
    let update : Update := ⟨0, 1, true⟩
    let update :=
      if !(s.meta.hintNotMatch bucketA hash) then
        { update with totalProbes := update.totalProbes + 1 }
      else update
    if !(s.meta.hintNotMatch bucketA hash) && decide (s.buckets.getD bucketB none = some key) then
      some (s, update)
    else
      let update :=
        if !(s.meta.hintNotMatch bucketB hash) then
          { update with totalProbes := update.totalProbes + 1 }
        else update
      if !(s.meta.hintNotMatch bucketB hash) && decide (s.buckets.getD bucketB none = some key) then
        some (s, update)
      else
        let update :=
          if !(s.meta.hintNotMatch bucketC hash) then
            { update with totalProbes := update.totalProbes + 1 }
          else update
        if !(s.meta.hintNotMatch bucketC hash) && decide (s.buckets.getD bucketC none = some key) then
          some (s, update)
        else
          insertChain key 128 rng { s with len := s.len + 1 } key keyInfo
            (true, true, true) update

/-- `<ThreeAryCuckoo as Map>::remove` (the source never decrements `len`
here either). -/
def remove (s : ThreeAryCuckoo) (key : Nat) : Option (ThreeAryCuckoo × Update) :=
  match s.bucketsFor key with
  | none => none
  | some (hash, bucketA, bucketB, bucketC) =>
    let checkAt : Nat → ThreeAryCuckoo → Update → Option (ThreeAryCuckoo × Update) :=
      fun bucket s update =>
        if !(s.meta.hintNotMatch bucket hash) then
          let update := { update with totalProbes := update.totalProbes + 1 }
          if s.buckets.getD bucket none = some key then
            some (s.clearBucket bucket,
              { update with totalWrites := update.totalWrites + 1 })
          else none
        else none
    let update : Update := ⟨0, 0, true⟩
    match checkAt bucketA s update with
    | some r => some r
    | none =>
      let update :=
        if !(s.meta.hintNotMatch bucketA hash) then
          { update with totalProbes := update.totalProbes + 1 }
        else update
      match checkAt bucketB s update with
      | some r => some r
      | none =>
        let update :=
          if !(s.meta.hintNotMatch bucketB hash) then
            { update with totalProbes := update.totalProbes + 1 }
          else update
        match checkAt bucketC s update with
        | some r => some r
        | none =>
          let update :=
            if !(s.meta.hintNotMatch bucketC hash) then
              { update with totalProbes := update.totalProbes + 1 }
            else update
          some (s, update)

end ThreeAryCuckoo

/-- `BUCKET_PER_BLOCK` from `blocked_cuckoo.rs`. -/
def BUCKET_PER_BLOCK : Nat := 107

/-- `BlockedCuckoo` from `blocked_cuckoo.rs` (no meta map). -/
structure BlockedCuckoo where
  hashers : List (Nat → Nat)
  blocks : List (List (Option Nat))
  len : Nat

namespace BlockedCuckoo

/-- `BlockedCuckoo::new`: `capacity / 107` blocks of 107 empty slots. -/
def new (capacity : Nat) (hashers : List (Nat → Nat)) : BlockedCuckoo :=
  ⟨hashers, List.replicate (capacity / BUCKET_PER_BLOCK)
      (List.replicate BUCKET_PER_BLOCK none), 0⟩

/-- `BlockedCuckoo::capacity`. -/
def capacity (s : BlockedCuckoo) : Nat :=
  s.blocks.length * BUCKET_PER_BLOCK

/-- The `while block_b == block_a` loop of `BlockedCuckoo::blocks`
(same conventions as `Cuckoo.bucketsForAux`). -/
def blocksForAux (hashers : List (Nat → Nat)) (key n blockA : Nat) :
    Nat → Nat → Option Nat
  | _, 0 => none
  | curHasher, fuel + 1 =>
    match hashers.get? (curHasher + 1) with
    | none => none
    | some h =>
      let blockB := h key % n
      if blockB = blockA then blocksForAux hashers key n blockA (curHasher + 1) fuel
      else some blockB

/-- `BlockedCuckoo::blocks`: `[block_a, block_b]`. -/
def blocksFor (s : BlockedCuckoo) (key : Nat) : Option (Nat × Nat) :=
  match s.hashers.get? 0 with
  | none => none
  | some h0 =>
    let blockA := h0 key % s.blocks.length
    (blocksForAux s.hashers key s.blocks.length blockA 0 s.hashers.length).map
      (fun blockB => (blockA, blockB))

/-- `BlockedCuckoo::search`: index of the first slot holding `key`. -/
def search (key : Nat) : List (Option Nat) → Option Nat
  | [] => none
  | v :: rest =>
    match v with
    | some k => if k = key then some 0 else (search key rest).map (· + 1)
    | none => (search key rest).map (· + 1)

/-- Bucket (slot) reads performed by the linear scan of
`BlockedCuckoo::search`: every slot visited up to and including the
match, or the whole block when there is no match. -/
def searchReads (key : Nat) : List (Option Nat) → Nat
  | [] => 0
  | v :: rest =>
    match v with
    | some k => if k = key then 1 else 1 + searchReads key rest
    | none => 1 + searchReads key rest

/-- `BlockedCuckoo::try_insert`: write `key` into the first empty slot,
or do nothing if a duplicate is found first; `none` is `Err(())`. -/
def tryInsert (key : Nat) : List (Option Nat) → Option (List (Option Nat))
  | [] => none
  | none :: rest => some (some key :: rest)
  | some x :: rest =>
    if x = key then some (some x :: rest)
    else (tryInsert key rest).map (some x :: ·)

/-- `BlockedCuckoo::try_remove`. -/
def tryRemove (key : Nat) (block : List (Option Nat)) : Option (List (Option Nat)) :=
  (search key block).map (fun pos => block.set pos none)

/-- `<BlockedCuckoo as Map>::probe`: one probe per block scanned. -/
def probe (s : BlockedCuckoo) (key : Nat) : Option Probe :=
  match s.blocksFor key with
  | none => none
  | some (blockA, blockB) =>
    if (search key (s.blocks.getD blockA [])).isSome then some ⟨true, 1⟩
    else if (search key (s.blocks.getD blockB [])).isSome then some ⟨true, 2⟩
    else some ⟨false, 2⟩

/-- The `for _ in 0..MAX_CHAIN` eviction loop of
`BlockedCuckoo::insert`.  `rng` is the pre-drawn stream of
`gen_range(0..107)` values (taken `% 107` to keep the model total);
fuel exhaustion is the fall-through to `completed = false`; `none`
models a panic (the `expect` on an empty slot, or hasher exhaustion). -/
def insertChain (rngKey : Nat) :
    Nat → List Nat → BlockedCuckoo → Nat → Nat → Update → Option (BlockedCuckoo × Update)
  | 0, _, s, _, _, update => some (s, { update with completed := false })
  | fuel + 1, rng, s, activeKey, targetBlock, update =>
    let randomIndex := rng.headD 0 % BUCKET_PER_BLOCK
    let rng := rng.tail
    match (s.blocks.getD targetBlock []).getD randomIndex none with
    | none => none
    | some swapKey =>
      let s := { s with
        blocks := s.blocks.set targetBlock
          ((s.blocks.getD targetBlock []).set randomIndex (some activeKey)) }
      match s.blocksFor swapKey with
      | none => none
      | some (blockA, blockB) =>
        let newTarget := if blockA = targetBlock then blockB else blockA
        let update := { update with
          totalWrites := update.totalWrites + 1
          totalProbes := update.totalProbes + 1 }
        match tryInsert swapKey (s.blocks.getD newTarget []) with
        | some newBlock =>
            some ({ s with blocks := s.blocks.set newTarget newBlock }, update)
        | none => insertChain rngKey fuel rng s swapKey newTarget update

/-- `<BlockedCuckoo as Map>::insert` (`MAX_CHAIN = 128`). -/
def insert (s : BlockedCuckoo) (rng : List Nat) (key : Nat) :
    Option (BlockedCuckoo × Update) :=
  match s.blocksFor key with
  | none => none
  | some (blockA, blockB) =>
    let s := { s with len := s.len + 1 }
    let update : Update := ⟨1, 1, true⟩
    match tryInsert key (s.blocks.getD blockA []) with
    | some newBlock => some ({ s with blocks := s.blocks.set blockA newBlock }, update)
    | none =>
      let update := { update with totalProbes := update.totalProbes + 1 }
      match tryInsert key (s.blocks.getD blockB []) with
      | some newBlock => some ({ s with blocks := s.blocks.set blockB newBlock }, update)
      | none => insertChain key 128 rng s key blockA update

/-- `<BlockedCuckoo as Map>::remove`: `completed = false` when the key
is in neither block. -/
def remove (s : BlockedCuckoo) (key : Nat) : Option (BlockedCuckoo × Update) :=
  match s.blocksFor key with
  | none => none
  | some (blockA, blockB) =>
    let update : Update := ⟨1, 0, true⟩
    match tryRemove key (s.blocks.getD blockA []) with
    | some newBlock =>
        some ({ s with blocks := s.blocks.set blockA newBlock, len := s.len - 1 },
          { update with totalWrites := update.totalWrites + 1 })
    | none =>
      let update := { update with totalProbes := update.totalProbes + 1 }
      match tryRemove key (s.blocks.getD blockB []) with
      | some newBlock =>
          some ({ s with blocks := s.blocks.set blockB newBlock, len := s.len - 1 },
            { update with totalWrites := update.totalWrites + 1 })
      | none => some (s, { update with completed := false })

end BlockedCuckoo

/-- A constant hasher: a legitimate (if degenerate) instantiation of the
opaque keyed hash, used for concrete scenarios. -/
def constHash : Nat → Nat := fun _ => 0

/-- Driver-level operations on a map (`probe` is read-only and reports
no `completed` flag; it is treated as trivially completed). -/
inductive TOp where
  | ins (k : Nat)
  | rem (k : Nat)
  | prb (k : Nat)
  deriving DecidableEq, Repr

/-- One operation's effect on the set of live (inserted, not since
removed) keys. -/
def opStep (live : List Nat) (op : TOp) : List Nat :=
  match op with
  | .ins k => k :: live
  | .rem k => live.filter (fun j => j ≠ k)
  | .prb _ => live

/-- The keys inserted and not subsequently removed after a sequence of
operations (left to right). -/
def opsLive (ops : List TOp) : List Nat :=
  ops.foldl opStep []

namespace TriaProb

/-- One driver step on `TriaProb`, returning the new state and the
`completed` flag of the operation. -/
def runOp (s : TriaProb) (op : TOp) : TriaProb × Bool :=
  match op with
  | .ins k => let r := s.insert k; (r.1, r.2.completed)
  | .rem k => let r := s.remove k; (r.1, r.2.completed)
  | .prb _ => (s, true)

/-- A driver run on `TriaProb`: final state plus the conjunction of all
`completed` flags. -/
def runOps (s : TriaProb) : List TOp → TriaProb × Bool
  | [] => (s, true)
  | op :: rest =>
    let r := runOp s op
    let r' := runOps r.1 rest
    (r'.1, r.2 && r'.2)

end TriaProb

namespace Cuckoo

/-- One driver step on `Cuckoo` (`none` models a hasher-exhaustion
panic inside `buckets`). -/
def runOp (s : Cuckoo) (op : TOp) : Option (Cuckoo × Bool) :=
  match op with
  | .ins k => (s.insert k).map (fun r => (r.1, r.2.completed))
  | .rem k => (s.remove k).map (fun r => (r.1, r.2.completed))
  | .prb _ => some (s, true)

/-- A driver run on `Cuckoo`. -/
def runOps (s : Cuckoo) : List TOp → Option (Cuckoo × Bool)
  | [] => some (s, true)
  | op :: rest =>
    match runOp s op with
    | none => none
    | some (s1, c1) => (runOps s1 rest).map (fun r => (r.1, c1 && r.2))

end Cuckoo

namespace RobinHood

/-- Fuel that covers the unbounded loops of `RobinHood` from any state
of this capacity (`probe` needs at most `capacity + 2` iterations, the
backward-shift loop at most `capacity² + 1` and a non-full insert
`capacity + 1`). -/
def runFuel (s : RobinHood) : Nat :=
  s.buckets.length * s.buckets.length + s.buckets.length + 2

/-- One driver step on `RobinHood` (which has no `completed` flag):
`none` models an operation that does not return within the fuel. -/
def runOp (s : RobinHood) (op : TOp) : Option RobinHood :=
  match op with
  | .ins k => (s.insert (runFuel s) k).map Prod.fst
  | .rem k => (s.remove (runFuel s) k).map Prod.fst
  | .prb _ => some s

/-- A driver run on `RobinHood`. -/
def runOps (s : RobinHood) : List TOp → Option RobinHood
  | [] => some s
  | op :: rest =>
    match runOp s op with
    | none => none
    | some s1 => runOps s1 rest

end RobinHood

namespace ThreeAryCuckoo

/-- One driver step on `ThreeAryCuckoo`; an insert consumes the paired
rng stream. -/
def runOp (s : ThreeAryCuckoo) (op : TOp) (rng : List Nat) :
    Option (ThreeAryCuckoo × Bool) :=
  match op with
  | .ins k => (s.insert rng k).map (fun r => (r.1, r.2.completed))
  | .rem k => (s.remove k).map (fun r => (r.1, r.2.completed))
  | .prb _ => some (s, true)

/-- A driver run on `ThreeAryCuckoo` over rng-paired operations. -/
def runOps (s : ThreeAryCuckoo) :
    List (TOp × List Nat) → Option (ThreeAryCuckoo × Bool)
  | [] => some (s, true)
  | (op, rng) :: rest =>
    match runOp s op rng with
    | none => none
    | some (s1, c1) => (runOps s1 rest).map (fun r => (r.1, c1 && r.2))

end ThreeAryCuckoo

namespace BlockedCuckoo

/-- One driver step on `BlockedCuckoo`; an insert consumes the paired
rng stream. -/
def runOp (s : BlockedCuckoo) (op : TOp) (rng : List Nat) :
    Option (BlockedCuckoo × Bool) :=
  match op with
  | .ins k => (s.insert rng k).map (fun r => (r.1, r.2.completed))
  | .rem k => (s.remove k).map (fun r => (r.1, r.2.completed))
  | .prb _ => some (s, true)

/-- A driver run on `BlockedCuckoo` over rng-paired operations. -/
def runOps (s : BlockedCuckoo) :
    List (TOp × List Nat) → Option (BlockedCuckoo × Bool)
  | [] => some (s, true)
  | (op, rng) :: rest =>
    match runOp s op rng with
    | none => none
    | some (s1, c1) => (runOps s1 rest).map (fun r => (r.1, c1 && r.2))

end BlockedCuckoo

/-- Hashers for concrete `ThreeAryCuckoo` scenarios: the first three
are constant and pairwise distinct mod 4, so the three buckets resolve
without re-hashing. -/
def threeHashers : List (Nat → Nat) :=
  [fun _ => 0, fun _ => 1, fun _ => 2, fun _ => 3, fun _ => 3, fun _ => 3]

/-- Hasher for the C1 counterexample run: keys 0..128 are sent straight
to the buckets of key 129's triangular probe sequence (triangular
numbers are pairwise distinct mod the power-of-two capacity 256), and
key 129 homes at bucket 0, so its probe must scan past all of them. -/
def triaHash : Nat → Nat := fun k => if k < 129 then k * (k + 1) / 2 else 0

/-- C1 counterexample run: 130 completed inserts into
`TriaProb(capacity = 256, meta_bits = 0)` under `triaHash`. -/
def triaC1Run : TriaProb × Bool :=
  TriaProb.runOps (TriaProb.new 256 0 triaHash) ((List.range 130).map .ins)

/-- C3 failing input: RobinHood(capacity 4), constant hasher; insert 10,
insert 11, remove 10, remove 11 (probe/shift fuel 10 ≫ capacity + 2). -/
def rhC3State : Option RobinHood :=
  ((RobinHood.new 4 constHash).insert 10 10).bind fun r1 =>
    (r1.1.insert 10 11).bind fun r2 =>
      (r2.1.remove 10 10).bind fun r3 =>
        (r3.1.remove 10 11).map (·.1)

/-- Hasher for the RobinHood part of the C1 counterexample: key 5 homes
at bucket 0, every other key at bucket 3 (capacity 4). -/
def rhC1Hash : Nat → Nat := fun k => if k = 5 then 0 else 3

/-- Operations of the RobinHood C1 counterexample run: fill the table,
leave a stale duplicate of key 3 via the shift of `remove 2`, then let
`insert 5` wrap around the full table and terminate on that stale
duplicate after burying key 4's probe path. -/
def rhC1Ops : List TOp := [.ins 1, .ins 2, .ins 3, .rem 2, .ins 4, .ins 5]

/-- The RobinHood C1 counterexample run (capacity 4, `rhC1Hash`). -/
def rhC1Run : Option RobinHood :=
  (RobinHood.new 4 rhC1Hash).runOps rhC1Ops

/-- C9 counterexample state: a completely full RobinHood table of
capacity 2 (keys 0 and 1, constant hasher). -/
def rhFullState : Option RobinHood :=
  ((RobinHood.new 2 constHash).insert 10 0).bind fun r1 =>
    (r1.1.insert 10 1).map (·.1)

/-- Termination predicate for `RobinHood::insert`: some fuel suffices. -/
def RobinHood.insertTerminates (s : RobinHood) (key : Nat) : Prop :=
  ∃ fuel r, s.insert fuel key = some r

/-- The concrete full table behind `rhFullState`: keys 0 and 1 at
buckets 0 and 1, both meta bits set, `len = 2`. -/
def rhFullS : RobinHood :=
  ⟨constHash, [some 0, some 1], ⟨1, [[true], [true]]⟩, 2⟩

/-- Mid-insert loop state of `insert 2` into `rhFullS` (after the
initial `len += 1`) with the original array. -/
def rhCycleA : RobinHood :=
  ⟨constHash, [some 0, some 1], ⟨1, [[true], [true]]⟩, 3⟩

/-- Mid-insert loop state after key 2 displaced key 0 at bucket 0. -/
def rhCycleC : RobinHood :=
  ⟨constHash, [some 2, some 1], ⟨1, [[true], [true]]⟩, 3⟩

/-- Hashers used by the concrete `BlockedCuckoo` scenarios: block A is
always 0, block B always 1 (capacity 214 = two blocks). -/
def blockedHashers : List (Nat → Nat) := [fun _ => 0, fun _ => 1, id, id, id]

/-- C5 failing input: TriaProb(capacity 4, meta_bits 2), constant
hasher; insert 1, insert 2, remove 1 (tombstones bucket 0), insert 2
again. -/
def triaC5Run : TriaProb × Bool :=
  TriaProb.runOps (TriaProb.new 4 2 constHash) [.ins 1, .ins 2, .rem 1, .ins 2]

/-- C2 counterexample, first step: insert 42 into a fresh
BlockedCuckoo(capacity 214). -/
def blockedC2s1 : Option (BlockedCuckoo × Update) :=
  (BlockedCuckoo.new 214 blockedHashers).insert [] 42

/-- C2 counterexample, second step: insert 42 again. -/
def blockedC2s2 : Option (BlockedCuckoo × Update) :=
  blockedC2s1.bind fun r => r.1.insert [] 42

/-- C8 counterexample state: BlockedCuckoo(capacity 214) holding keys 1
and 2, both in block 0 (slots 0 and 1). -/
def blockedC8State : Option BlockedCuckoo :=
  (((BlockedCuckoo.new 214 blockedHashers).insert [] 1).bind fun r =>
    r.1.insert [] 2).map (·.1)

/-- The meta-map slice an empty bucket carries (`0 | 0s`). -/
def metaEmptyPat (bits : Nat) : List Bool := List.replicate bits false

/-- The meta-map slice a full bucket carries after
`set_full(b, Hash(h))` (`1 | top B-1 bits of h`; a single `1` at
`B = 1`; nothing at `B = 0`). -/
def metaFullPat (bits h : Nat) : List Bool :=
  if bits = 0 then []
  else if bits = 1 then [true]
  else true :: hashHighBits h (bits - 1)

/-- The meta-map slice a tombstoned bucket carries (`0 | 1s`, a single
`1` at `B = 1`, nothing at `B = 0`). -/
def metaTombPat (bits : Nat) : List Bool :=
  if bits = 0 then []
  else if bits = 1 then [true]
  else false :: List.replicate (bits - 1) true

/-- A concrete well-formed 4-bucket Cuckoo state holding key 5 at its
bucket `a = 0` (constant hashers 0 and 1, 4 meta bits). -/
def cuckooWitState : Cuckoo :=
  ⟨blockedHashers, [some 5, none, none, none],
    ⟨4, [metaFullPat 4 0, metaEmptyPat 4, metaEmptyPat 4, metaEmptyPat 4]⟩, 1⟩

/-- A concrete two-block BlockedCuckoo state holding key 42 in block 0. -/
def blockedWitState : BlockedCuckoo :=
  ⟨blockedHashers,
    [some 42 :: List.replicate 106 none, List.replicate 107 none], 1⟩

namespace TriaProb

/-- The meta map mirrors the bucket array: every bucket's slice is the
pattern its content dictates (`set_bucket` keeps this in sync). -/
def Sync (s : TriaProb) : Prop :=
  s.meta.vec.length = s.buckets.length ∧
  ∀ b, b < s.buckets.length →
    s.meta.slice b =
      match s.buckets.getD b .Empty with
      | .Empty => metaEmptyPat s.meta.bits
      | .Value k => metaFullPat s.meta.bits (s.hash k)
      | .Tombstone => metaTombPat s.meta.bits

/-- Cumulative triangular offset: the value of `offset` after the loop
iteration with index `i` (`offset += i` per iteration). -/
def tri : Nat → Nat
  | 0 => 0
  | n + 1 => tri n + (n + 1)

/-- The bucket visited at iteration `i` of `key`'s triangular probe
sequence. -/
def seqIdx (s : TriaProb) (key i : Nat) : Nat :=
  (s.hash key % s.buckets.length + tri i) % s.buckets.length

/-- `key` is stored on its triangular sequence with no `Empty` bucket
strictly before it (the searchability invariant of §3). -/
def KeyFindable (s : TriaProb) (key : Nat) : Prop :=
  ∃ i, i < s.buckets.length ∧
    s.buckets.getD (s.seqIdx key i) .Empty = .Value key ∧
    ∀ j, j < i → s.buckets.getD (s.seqIdx key j) .Empty ≠ .Empty

/-- Reachability invariant of `TriaProb` runs: non-empty table, meta
map in sync, and every live key findable. -/
def Inv (s : TriaProb) (live : List Nat) : Prop :=
  0 < s.buckets.length ∧ Sync s ∧ ∀ k ∈ live, KeyFindable s k

end TriaProb

namespace Cuckoo

/-- The first hasher (the one whose output is fingerprinted). -/
def hashA (s : Cuckoo) (k : Nat) : Nat :=
  match s.hashers.get? 0 with
  | some h => h k
  | none => 0

/-- The meta map mirrors the bucket array. -/
def Sync (s : Cuckoo) : Prop :=
  s.meta.vec.length = s.buckets.length ∧
  ∀ b, b < s.buckets.length →
    s.meta.slice b =
      match s.buckets.getD b none with
      | none => metaEmptyPat s.meta.bits
      | some k => metaFullPat s.meta.bits (s.hashA k)

/-- Structural well-formedness: non-empty table, meta in sync, and
bucket derivation succeeds for every key (the source panics
otherwise). -/
def Wf (s : Cuckoo) : Prop :=
  0 < s.buckets.length ∧ Sync s ∧ ∀ k, (s.bucketsFor k).isSome

/-- `key` sits in one of its two alternative buckets. -/
def KeyStored (s : Cuckoo) (key : Nat) : Prop :=
  ∃ h a b, s.bucketsFor key = some (h, a, b) ∧
    (s.buckets.getD a none = some key ∨ s.buckets.getD b none = some key)

/-- Reachability invariant of `Cuckoo` runs. -/
def Inv (s : Cuckoo) (live : List Nat) : Prop :=
  Wf s ∧ ∀ k ∈ live, KeyStored s k

end Cuckoo

namespace RobinHood

/-- The meta map mirrors bucket occupancy at `META_BITS = 1` (the width
`RobinHood::new` hardcodes). -/
def Sync (s : RobinHood) : Prop :=
  s.meta.bits = 1 ∧ s.meta.vec.length = s.buckets.length ∧
  ∀ b, b < s.buckets.length →
    s.meta.slice b =
      match s.buckets.getD b none with
      | none => [false]
      | some _ => [true]

/-- `key` sits at offset `j` of its probe sequence with every earlier
offset occupied at a psl no smaller than the scan psl there: exactly
the precondition for `probe` to reach it. -/
def Findable (s : RobinHood) (key : Nat) : Prop :=
  ∃ j, j < s.buckets.length ∧
    s.buckets.getD ((s.bucketFor key + j) % s.buckets.length) none = some key ∧
    ∀ i, i < j → ∃ ki,
      s.buckets.getD ((s.bucketFor key + i) % s.buckets.length) none = some ki ∧
      i + 1 ≤ s.pslOf ki ((s.bucketFor key + i) % s.buckets.length)

/-- Reachability invariant of `RobinHood` runs. -/
def Inv (s : RobinHood) (live : List Nat) : Prop :=
  0 < s.buckets.length ∧ s.Sync ∧ ∀ k ∈ live, s.Findable k

/-- The positional psl of a bucket occupant (0 for an empty bucket):
the potential consumed by the backward-shift loop. -/
def pslWeight (s : RobinHood) (b : Nat) : Nat :=
  match s.buckets.getD b none with
  | none => 0
  | some k => s.pslOf k b

/-- Total positional psl over the table. -/
def totalPsl (s : RobinHood) : Nat :=
  ∑ b ∈ Finset.range s.buckets.length, s.pslWeight b

/-- Potential of the backward-shift loop at `bucket`: the total psl of
every other position.  Each continuing iteration lowers it by one. -/
def shiftPhi (s : RobinHood) (bucket : Nat) : Nat :=
  s.totalPsl - s.pslWeight bucket

end RobinHood

namespace ThreeAryCuckoo

/-- The first hasher (the one whose output is fingerprinted). -/
def hashA (s : ThreeAryCuckoo) (k : Nat) : Nat :=
  match s.hashers.get? 0 with
  | some h => h k
  | none => 0

/-- The meta map mirrors the bucket array. -/
def Sync (s : ThreeAryCuckoo) : Prop :=
  s.meta.vec.length = s.buckets.length ∧
  ∀ b, b < s.buckets.length →
    s.meta.slice b =
      match s.buckets.getD b none with
      | none => metaEmptyPat s.meta.bits
      | some k => metaFullPat s.meta.bits (s.hashA k)

/-- `key` sits in one of its three alternative buckets. -/
def KeyStored (s : ThreeAryCuckoo) (key : Nat) : Prop :=
  ∃ h a b c, s.bucketsFor key = some (h, a, b, c) ∧
    (s.buckets.getD a none = some key ∨ s.buckets.getD b none = some key ∨
      s.buckets.getD c none = some key)

/-- Structural well-formedness. -/
def Wf (s : ThreeAryCuckoo) : Prop :=
  0 < s.buckets.length ∧ Sync s ∧ ∀ k, (s.bucketsFor k).isSome

/-- Reachability invariant of `ThreeAryCuckoo` runs. -/
def Inv (s : ThreeAryCuckoo) (live : List Nat) : Prop :=
  Wf s ∧ ∀ k ∈ live, KeyStored s k

end ThreeAryCuckoo

namespace BlockedCuckoo

/-- `key` sits in one of its two alternative blocks. -/
def KeyStored (s : BlockedCuckoo) (key : Nat) : Prop :=
  ∃ a b, s.blocksFor key = some (a, b) ∧
    (some key ∈ s.blocks.getD a [] ∨ some key ∈ s.blocks.getD b [])

/-- Structural well-formedness: a non-empty block table whose block
derivation succeeds for every key. -/
def Wf (s : BlockedCuckoo) : Prop :=
  0 < s.blocks.length ∧ ∀ k, (s.blocksFor k).isSome

/-- Reachability invariant of `BlockedCuckoo` runs. -/
def Inv (s : BlockedCuckoo) (live : List Nat) : Prop :=
  Wf s ∧ ∀ k ∈ live, KeyStored s k

end BlockedCuckoo

section ListLemmas

theorem getD_set_self {α : Type _} (l : List α) (i : Nat) (a d : α)
    (h : i < l.length) : (l.set i a).getD i d = a := by
  show ((l.set i a).get? i).getD d = a
  rw [List.get?_set_eq_of_lt a h]
  rfl

theorem getD_set_ne {α : Type _} (l : List α) (i j : Nat) (a d : α)
    (h : i ≠ j) : (l.set i a).getD j d = l.getD j d := by
  show ((l.set i a).get? j).getD d = (l.get? j).getD d
  rw [List.get?_set_ne a l h]

end ListLemmas

section BitLemmas

theorem natToBitsMsb_length (v k : Nat) : (natToBitsMsb v k).length = k := by
  induction k with
  | zero => rfl
  | succ k ih => simp [natToBitsMsb, ih]

theorem bitsToNat_foldl (l : List Bool) (a : Nat) :
    l.foldl (fun acc b => 2 * acc + (if b then 1 else 0)) a
      = a * 2 ^ l.length + l.foldl (fun acc b => 2 * acc + (if b then 1 else 0)) 0 := by
  induction l generalizing a with
  | nil => simp
  | cons b t ih =>
    simp only [List.foldl_cons, List.length_cons]
    rw [ih (2 * a + _), ih (2 * 0 + _)]
    ring

theorem bitsToNat_cons (b : Bool) (l : List Bool) :
    bitsToNat (b :: l) = (if b then 1 else 0) * 2 ^ l.length + bitsToNat l := by
  show (b :: l).foldl _ 0 = _
  rw [List.foldl_cons, bitsToNat_foldl]
  show (2 * 0 + _) * _ + _ = _
  rw [bitsToNat]
  ring

theorem bitsToNat_natToBitsMsb (k v : Nat) :
    bitsToNat (natToBitsMsb v k) = v % 2 ^ k := by
  induction k with
  | zero => simp [natToBitsMsb, bitsToNat, Nat.mod_one]
  | succ k ih =>
    rw [natToBitsMsb, bitsToNat_cons, natToBitsMsb_length, ih,
      Nat.testBit_to_div_mod, pow_succ, Nat.mod_mul]
    rcases Nat.mod_two_eq_zero_or_one (v / 2 ^ k) with h | h <;> simp [h] <;> ring

theorem natToBitsMsb_all_ones (k v : Nat) :
    (natToBitsMsb v k).all id = true ↔ v % 2 ^ k = 2 ^ k - 1 := by
  induction k with
  | zero => simp [natToBitsMsb, Nat.mod_one]
  | succ k ih =>
    have hlt : v % 2 ^ k < 2 ^ k := Nat.mod_lt _ (Nat.pos_pow_of_pos _ (by norm_num))
    have hp : 1 ≤ 2 ^ k := Nat.one_le_two_pow
    rw [natToBitsMsb]
    simp only [List.all_cons, Bool.and_eq_true, id_eq, ih,
      Nat.testBit_to_div_mod, pow_succ, Nat.mod_mul, decide_eq_true_eq]
    rcases Nat.mod_two_eq_zero_or_one (v / 2 ^ k) with h | h <;>
      simp [h] <;> omega

end BitLemmas

section MetaMapSliceLemmas

open MetaMap

theorem setFull_bits (m : MetaMap) (b : Nat) (md : Metadata) :
    (m.setFull b md).bits = m.bits := by
  unfold setFull
  split_ifs <;> first | rfl | (cases md <;> rfl)

theorem setEmpty_bits (m : MetaMap) (b : Nat) : (m.setEmpty b).bits = m.bits := by
  unfold setEmpty
  split_ifs <;> rfl

theorem setTombstone_bits (m : MetaMap) (b : Nat) :
    (m.setTombstone b).bits = m.bits := by
  unfold setTombstone
  split_ifs <;> rfl

theorem setFull_hash_slice (m : MetaMap) (b h : Nat) (hb : b < m.vec.length)
    (h2 : 2 ≤ m.bits) :
    (m.setFull b (.Hash h)).slice b = true :: hashHighBits h (m.bits - 1) := by
  unfold setFull
  rw [if_neg (by omega), if_neg (by omega)]
  exact getD_set_self _ _ _ _ hb

theorem setFull_psl_slice (m : MetaMap) (b p : Nat) (hb : b < m.vec.length)
    (h2 : 2 ≤ m.bits) :
    (m.setFull b (.Psl p)).slice b
      = true :: natToBitsMsb (min p (2 ^ (m.bits - 1)) - 1) (m.bits - 1) := by
  unfold setFull
  rw [if_neg (by omega), if_neg (by omega)]
  exact getD_set_self _ _ _ _ hb

theorem setFull_slice_one (m : MetaMap) (b : Nat) (md : Metadata)
    (hb : b < m.vec.length) (h1 : m.bits = 1) :
    (m.setFull b md).slice b = [true] := by
  unfold setFull
  rw [if_neg (by omega), if_pos h1]
  exact getD_set_self _ _ _ _ hb

theorem setEmpty_slice_one (m : MetaMap) (b : Nat) (hb : b < m.vec.length)
    (h1 : m.bits = 1) : (m.setEmpty b).slice b = [false] := by
  unfold setEmpty
  rw [if_neg (by omega), if_pos h1]
  exact getD_set_self _ _ _ _ hb

theorem setEmpty_slice (m : MetaMap) (b : Nat) (hb : b < m.vec.length)
    (h2 : 2 ≤ m.bits) :
    (m.setEmpty b).slice b = false :: List.replicate (m.bits - 1) false := by
  unfold setEmpty
  rw [if_neg (by omega), if_neg (by omega)]
  exact getD_set_self _ _ _ _ hb

theorem setTombstone_slice (m : MetaMap) (b : Nat) (hb : b < m.vec.length)
    (h2 : 2 ≤ m.bits) :
    (m.setTombstone b).slice b = false :: List.replicate (m.bits - 1) true := by
  unfold setTombstone
  rw [if_neg (by omega), if_neg (by omega)]
  exact getD_set_self _ _ _ _ hb

end MetaMapSliceLemmas

section MetaMapClaims

open MetaMap

/-- C6 (counterexample): the claim quantifies over every bit width
`B ∈ {0,1,2,4,8}`, but at `B = 0` the meta map stores nothing and
`hint_empty` always answers `false`, even right after `set_empty`. -/
theorem C6_counterexample :
    ((MetaMap.new 4 0).setEmpty 1).hintEmpty 1 = false := by
  rfl

/-- C6 (amended): MetaMap write/read round-trips hold as claimed, except
that `hint_empty` reports `true` after `set_empty` only for `B ≥ 1` (at
`B = 0` every hint degrades to the conservative answer `false`): after
`set_full(b, Hash(h))`, `hint_not_match(b, h)` is `false` for every `B`;
after `set_empty(b)`, `hint_empty(b)` is `true` for `B ≥ 1`; and for
`B ≥ 2`, after `set_tombstone(b)`, `hint_tombstone(b)` is `true` and
`hint_empty(b)` is `false`. -/
theorem C6_meta_roundtrip_amended (m : MetaMap) (b : Nat)
    (hb : b < m.vec.length) :
    (∀ h, ((m.setFull b (.Hash h)).hintNotMatch b h) = false) ∧
    (1 ≤ m.bits → ((m.setEmpty b).hintEmpty b) = true) ∧
    (2 ≤ m.bits →
      ((m.setTombstone b).hintTombstone b) = true ∧
      ((m.setTombstone b).hintEmpty b) = false) := by
  by_cases h0 : m.bits = 0
  · refine ⟨fun h => ?_, fun h1 => absurd h0 (by omega), fun h2 => absurd h0 (by omega)⟩
    unfold hintNotMatch
    rw [setFull_bits, if_pos h0]
  · by_cases h1 : m.bits = 1
    · refine ⟨fun h => ?_, fun _ => ?_, fun h2 => absurd h1 (by omega)⟩
      · unfold hintNotMatch
        rw [setFull_bits, if_neg h0, if_pos h1, setFull_slice_one m b _ hb h1]
        rfl
      · unfold hintEmpty
        rw [setEmpty_bits, if_neg h0, if_pos h1, setEmpty_slice_one m b hb h1]
        rfl
    · have h2 : 2 ≤ m.bits := by omega
      refine ⟨fun h => ?_, fun _ => ?_, fun _ => ⟨?_, ?_⟩⟩
      · unfold hintNotMatch
        rw [setFull_bits, if_neg h0, if_neg h1, setFull_hash_slice m b h hb h2]
        simp
      · unfold hintEmpty
        rw [setEmpty_bits, if_neg h0, if_neg h1, setEmpty_slice m b hb h2]
        simp [List.all_eq_true]
      · unfold hintTombstone
        rw [setTombstone_bits, if_neg (by omega : ¬ m.bits ≤ 1),
          setTombstone_slice m b hb h2]
        simp [List.all_eq_true]
      · unfold hintEmpty
        rw [setTombstone_bits, if_neg h0, if_neg h1, setTombstone_slice m b hb h2]
        simp [List.all_eq_true]
        omega

/-- C6 (witness): the amended round-trip instantiated on a concrete
4-bucket, 4-bit map at bucket 2. -/
theorem C6_witness :
    (2 < (MetaMap.new 4 4).vec.length) ∧
    (((MetaMap.new 4 4).setFull 2 (.Hash 77)).hintNotMatch 2 77 = false) ∧
    (((MetaMap.new 4 4).setEmpty 2).hintEmpty 2 = true) ∧
    (((MetaMap.new 4 4).setTombstone 2).hintTombstone 2 = true) :=
  ⟨by decide,
   (C6_meta_roundtrip_amended (MetaMap.new 4 4) 2 (by decide)).1 77,
   (C6_meta_roundtrip_amended (MetaMap.new 4 4) 2 (by decide)).2.1 (by decide),
   ((C6_meta_roundtrip_amended (MetaMap.new 4 4) 2 (by decide)).2.2 (by decide)).1⟩

/-- C7 (counterexample): `hint_psl` does not return `None` **iff** the
bucket is empty: a tombstoned bucket (occupied bit clear, payload
all-ones) also reads back `None` while `hint_empty` is `false`. -/
theorem C7_counterexample :
    ((MetaMap.new 4 4).setTombstone 2).hintPsl 2 = none ∧
    ((MetaMap.new 4 4).setTombstone 2).hintEmpty 2 = false := by
  constructor <;> rfl

/-- C7 (amended): `hint_psl` returns `None` iff the bucket's occupied
bit is clear (bucket empty **or tombstoned**, or `B = 0`); after
`set_full(b, Psl(p))` with `p ≥ 1` and `B ≥ 1` it returns `Exact(p)`
when `p < 2^(B-1)` and `AtLeast(2^(B-1))` when `p ≥ 2^(B-1)`; in
particular for `B = 4`: `set_full(2, Psl(3))` then `hint_psl(2) =
Exact(3)`, `set_full(2, Psl(1024))` then `hint_psl(2) = AtLeast(8)`, and
`set_empty(2)` then `hint_psl(2) = None`. -/
theorem C7_hint_psl_amended :
    (∀ (m : MetaMap) (b : Nat), m.hintPsl b = none ↔ m.occupied b = false) ∧
    (∀ (m : MetaMap) (b p : Nat), b < m.vec.length → 1 ≤ m.bits → 1 ≤ p →
      (m.setFull b (.Psl p)).hintPsl b
        = if p < 2 ^ (m.bits - 1) then some (.Exact p)
          else some (.AtLeast (2 ^ (m.bits - 1)))) ∧
    (((MetaMap.new 4 4).setFull 2 (.Psl 3)).hintPsl 2 = some (.Exact 3)) ∧
    (((MetaMap.new 4 4).setFull 2 (.Psl 1024)).hintPsl 2 = some (.AtLeast 8)) ∧
    (((MetaMap.new 4 4).setEmpty 2).hintPsl 2 = none) := by
  refine ⟨fun m b => ?_, fun m b p hb hbits hp => ?_, by decide, by decide, by decide⟩
  · by_cases h0 : m.bits = 0
    · simp [hintPsl, occupied, h0]
    · by_cases h1 : m.bits = 1
      · cases hocc : (MetaMap.slice m b).headD false <;>
          simp [hintPsl, occupied, h0, h1, hocc]
      · cases hocc : (MetaMap.slice m b).headD false <;>
          simp only [hintPsl, occupied, h0, h1, hocc, if_neg, if_pos, if_false,
            if_true, Bool.and_eq_false_iff]
        · simp [h0]
        · constructor
          · intro h
            split at h <;> simp_all
          · intro h
            simp [h0] at h
  · by_cases h1 : m.bits = 1
    · have hone : (2 : Nat) ^ (m.bits - 1) = 1 := by
        rw [h1]
        rfl
      have hnp : ¬ p < 2 ^ (m.bits - 1) := by
        rw [hone]
        omega
      unfold hintPsl
      rw [setFull_bits, if_neg (by omega), if_pos h1,
        setFull_slice_one m b _ hb h1, if_neg hnp, hone]
      rfl
    · have h0 : m.bits ≠ 0 := by omega
      have h2 : 2 ≤ m.bits := by omega
      have hP : 1 ≤ 2 ^ (m.bits - 1) := Nat.one_le_two_pow
      have htr : min p (2 ^ (m.bits - 1)) - 1 < 2 ^ (m.bits - 1) := by omega
      have htrm : (min p (2 ^ (m.bits - 1)) - 1) % 2 ^ (m.bits - 1)
          = min p (2 ^ (m.bits - 1)) - 1 := Nat.mod_eq_of_lt htr
      unfold hintPsl
      rw [setFull_bits, if_neg h0, if_neg h1, setFull_psl_slice m b p hb h2]
      simp only [List.headD_cons, List.drop_one, List.tail_cons,
        eq_self_iff_true, if_true]
      by_cases hlt : p < 2 ^ (m.bits - 1)
      · have hno :
            ¬ ((natToBitsMsb (min p (2 ^ (m.bits - 1)) - 1) (m.bits - 1)).all id
              = true) := by
          rw [natToBitsMsb_all_ones, htrm]
          omega
        rw [if_neg hno, if_pos hlt, bitsToNat_natToBitsMsb, htrm]
        have hpp : min p (2 ^ (m.bits - 1)) - 1 + 1 = p := by omega
        rw [hpp]
      · have hyes :
            (natToBitsMsb (min p (2 ^ (m.bits - 1)) - 1) (m.bits - 1)).all id
              = true := by
          rw [natToBitsMsb_all_ones, htrm]
          omega
        rw [if_pos hyes, if_neg hlt]

/-- C7 (witness): the amended statement instantiated on a concrete
8-bucket, 2-bit map: `Psl 5` saturates to `AtLeast 2`. -/
theorem C7_witness :
    (3 < (MetaMap.new 8 2).vec.length) ∧
    (((MetaMap.new 8 2).setFull 3 (.Psl 5)).hintPsl 3 = some (.AtLeast 2)) := by
  refine ⟨by decide, ?_⟩
  have h := C7_hint_psl_amended.2.1 (MetaMap.new 8 2) 3 5 (by decide) (by decide)
    (by decide)
  simpa using h

end MetaMapClaims

section PatternHintLemmas

open MetaMap

theorem hintEmpty_emptyPat (m : MetaMap) (b : Nat)
    (hs : m.slice b = metaEmptyPat m.bits) :
    m.hintEmpty b = decide (1 ≤ m.bits) := by
  unfold hintEmpty
  rw [hs]
  unfold metaEmptyPat
  by_cases h0 : m.bits = 0
  · simp [h0]
  · by_cases h1 : m.bits = 1
    · simp [h0, h1]
    · rw [if_neg h0, if_neg h1]
      simp [List.all_eq_true]
      omega

theorem hintEmpty_fullPat (m : MetaMap) (b h : Nat)
    (hs : m.slice b = metaFullPat m.bits h) :
    m.hintEmpty b = false := by
  unfold hintEmpty
  rw [hs]
  unfold metaFullPat
  by_cases h0 : m.bits = 0
  · simp [h0]
  · by_cases h1 : m.bits = 1
    · simp [h0, h1]
    · rw [if_neg h0, if_neg h1, if_neg h0, if_neg h1]
      simp

theorem hintEmpty_tombPat (m : MetaMap) (b : Nat)
    (hs : m.slice b = metaTombPat m.bits) :
    m.hintEmpty b = false := by
  unfold hintEmpty
  rw [hs]
  unfold metaTombPat
  by_cases h0 : m.bits = 0
  · simp [h0]
  · by_cases h1 : m.bits = 1
    · simp [h0, h1]
    · rw [if_neg h0, if_neg h1, if_neg h0, if_neg h1]
      simp [List.all_eq_true]
      omega

theorem hintTombstone_emptyPat (m : MetaMap) (b : Nat)
    (hs : m.slice b = metaEmptyPat m.bits) :
    m.hintTombstone b = false := by
  unfold hintTombstone
  rw [hs]
  unfold metaEmptyPat
  by_cases hle : m.bits ≤ 1
  · simp [hle]
  · rw [if_neg hle]
    have : m.bits = (m.bits - 1) + 1 := by omega
    rw [this, List.replicate_succ]
    simp [List.all_eq_true]
    omega

theorem hintTombstone_fullPat (m : MetaMap) (b h : Nat)
    (hs : m.slice b = metaFullPat m.bits h) :
    m.hintTombstone b = false := by
  unfold hintTombstone
  rw [hs]
  unfold metaFullPat
  by_cases hle : m.bits ≤ 1
  · simp [hle]
  · rw [if_neg hle, if_neg (by omega : ¬ m.bits = 0), if_neg (by omega : ¬ m.bits = 1)]
    simp

theorem hintTombstone_tombPat (m : MetaMap) (b : Nat)
    (hs : m.slice b = metaTombPat m.bits) :
    m.hintTombstone b = decide (2 ≤ m.bits) := by
  unfold hintTombstone
  rw [hs]
  unfold metaTombPat
  by_cases hle : m.bits ≤ 1
  · simp [hle]
    omega
  · rw [if_neg hle, if_neg (by omega : ¬ m.bits = 0), if_neg (by omega : ¬ m.bits = 1)]
    simp [List.all_eq_true]
    omega

theorem hintNotMatch_emptyPat (m : MetaMap) (b h : Nat)
    (hs : m.slice b = metaEmptyPat m.bits) :
    m.hintNotMatch b h = decide (1 ≤ m.bits) := by
  unfold hintNotMatch
  rw [hs]
  unfold metaEmptyPat
  by_cases h0 : m.bits = 0
  · simp [h0]
  · by_cases h1 : m.bits = 1
    · simp [h0, h1]
    · rw [if_neg h0, if_neg h1]
      have : m.bits = (m.bits - 1) + 1 := by omega
      rw [this, List.replicate_succ]
      simp

theorem hintNotMatch_fullPat_same (m : MetaMap) (b h : Nat)
    (hs : m.slice b = metaFullPat m.bits h) :
    m.hintNotMatch b h = false := by
  unfold hintNotMatch
  rw [hs]
  unfold metaFullPat
  by_cases h0 : m.bits = 0
  · simp [h0]
  · by_cases h1 : m.bits = 1
    · simp [h0, h1]
    · rw [if_neg h0, if_neg h1, if_neg h0, if_neg h1]
      simp

theorem hintNotMatch_tombPat (m : MetaMap) (b h : Nat)
    (hs : m.slice b = metaTombPat m.bits) :
    m.hintNotMatch b h = decide (2 ≤ m.bits) := by
  unfold hintNotMatch
  rw [hs]
  unfold metaTombPat
  by_cases h0 : m.bits = 0
  · simp [h0]
  · by_cases h1 : m.bits = 1
    · simp [h0, h1]
    · rw [if_neg h0, if_neg h1, if_neg h0, if_neg h1]
      simp
      omega

theorem hintPsl_bits_one (m : MetaMap) (b : Nat) (h1 : m.bits = 1) :
    m.hintPsl b = none ∨ m.hintPsl b = some (.AtLeast 1) := by
  unfold hintPsl
  rw [if_neg (by omega : ¬ m.bits = 0), if_pos h1]
  by_cases hocc : (MetaMap.slice m b).headD false
  · exact Or.inr (by rw [if_pos hocc])
  · exact Or.inl (by rw [if_neg hocc])

end PatternHintLemmas

section EasyClaims

/-- C10: `BlockedCuckoo::new(capacity)` silently rounds the requested
capacity down to a whole number of 107-slot blocks, `capacity()`
returns `floor(capacity/107) * 107`, and a request below 107 yields
zero blocks. -/
theorem C10_blocked_capacity (cap : Nat) (hashers : List (Nat → Nat)) :
    (BlockedCuckoo.new cap hashers).blocks.length = cap / BUCKET_PER_BLOCK ∧
    (BlockedCuckoo.new cap hashers).capacity
      = cap / BUCKET_PER_BLOCK * BUCKET_PER_BLOCK ∧
    (cap < BUCKET_PER_BLOCK → (BlockedCuckoo.new cap hashers).blocks.length = 0) := by
  refine ⟨?_, ?_, fun hlt => ?_⟩
  · simp [BlockedCuckoo.new]
  · simp [BlockedCuckoo.capacity, BlockedCuckoo.new]
  · simp [BlockedCuckoo.new, Nat.div_eq_of_lt hlt]

/-- C10 (witness): a request of 50 slots yields zero blocks and
capacity 0. -/
theorem C10_witness :
    50 < BUCKET_PER_BLOCK ∧ (BlockedCuckoo.new 50 []).blocks.length = 0 :=
  ⟨by decide, (C10_blocked_capacity 50 []).2.2 (by decide)⟩

/-- C5 (failing-input evaluation): with capacity 4, 2 meta bits and a
constant hasher, the run insert 1 / insert 2 / remove 1 / insert 2 has
every operation `completed = true`, yet ends with **two** copies of key
2 (one written over the tombstone at bucket 0, one still at bucket 1)
and `len = 2` — `probe_insert` returned the first tombstone without
scanning ahead for the existing key. -/
theorem C5_duplicate_over_tombstone :
    triaC5Run.2 = true ∧ triaC5Run.1.len = 2 ∧
    triaC5Run.1.buckets = [.Value 2, .Value 2, .Empty, .Empty] := by
  exact ⟨rfl, rfl, rfl⟩

/-- C3 (failing-input evaluation): RobinHood(capacity 4), constant
hasher, insert 10, insert 11, remove 10, remove 11.  Every backward
shift copies the next bucket down but never clears it, so after both
removals key 11 is still present twice, `probe(11).contained = true`
with `len = 0`. -/
theorem C3_remove_leaves_key :
    rhC3State.map (fun s => s.len) = some 0 ∧
    rhC3State.map (fun s => s.buckets) = some [some 11, some 11, none, none] ∧
    rhC3State.bind (fun s => s.probe 10 11) = some ⟨true, 1⟩ := by
  exact ⟨rfl, rfl, rfl⟩

/-- C2 (counterexample): re-inserting the present key 42 into
BlockedCuckoo(capacity 214) returns `completed = true` but increments
`len` from 1 to 2 — `insert` bumps `len` before `try_insert` detects
the duplicate and never corrects it. -/
theorem C2_counterexample :
    blockedC2s1.map (fun r => (r.1.len, r.2.completed)) = some (1, true) ∧
    blockedC2s2.map (fun r => (r.1.len, r.2.completed)) = some (2, true) := by
  exact ⟨rfl, rfl⟩

/-- C8 (counterexample): probing key 2, stored at slot 1 of its first
block, scans two slots (two bucket reads) but reports `probes = 1` —
BlockedCuckoo counts blocks scanned, not bucket reads. -/
theorem C8_counterexample :
    (blockedC8State.bind fun s => s.probe 2) = some ⟨true, 1⟩ ∧
    (blockedC8State.map fun s =>
      BlockedCuckoo.searchReads 2 (s.blocks.getD 0 [])) = some 2 := by
  exact ⟨rfl, rfl⟩

end EasyClaims

section CuckooLemmas

namespace Cuckoo

theorem bucketsForAux_spec (hashers : List (Nat → Nat)) (key n bucketA : Nat) :
    ∀ fuel cur bb, bucketsForAux hashers key n bucketA cur fuel = some bb →
      bb ≠ bucketA ∧ (0 < n → bb < n) := by
  intro fuel
  induction fuel with
  | zero => intro cur bb h; exact absurd h (by simp [bucketsForAux])
  | succ fuel ih =>
    intro cur bb h
    unfold bucketsForAux at h
    match hh : hashers.get? (cur + 1) with
    | none => rw [hh] at h; exact absurd h (by simp)
    | some f =>
      rw [hh] at h
      simp only at h
      by_cases he : f key % n = bucketA
      · rw [if_pos he] at h
        exact ih _ _ h
      · rw [if_neg he] at h
        cases h
        exact ⟨he, fun hn => Nat.mod_lt _ hn⟩

theorem bucketsFor_spec (s : Cuckoo) (key h a b : Nat)
    (hr : s.bucketsFor key = some (h, a, b)) :
    h = s.hashA key ∧ a = h % s.buckets.length ∧ b ≠ a ∧
      (0 < s.buckets.length → a < s.buckets.length ∧ b < s.buckets.length) := by
  unfold bucketsFor at hr
  match hh : s.hashers.get? 0 with
  | none => rw [hh] at hr; exact absurd hr (by simp)
  | some h0 =>
    rw [hh] at hr
    simp only [Option.map_eq_some'] at hr
    obtain ⟨bb, haux, heq⟩ := hr
    obtain ⟨hne, hlt⟩ := bucketsForAux_spec s.hashers key s.buckets.length _ _ _ _ haux
    cases heq
    refine ⟨by unfold hashA; rw [hh], rfl, hne, fun hn => ⟨Nat.mod_lt _ hn, hlt hn⟩⟩

/-- In a synced state, the slice of a full bucket is the full pattern of
its occupant. -/
theorem slice_of_stored (s : Cuckoo) (hs : s.Sync) (b k : Nat)
    (hb : b < s.buckets.length) (hk : s.buckets.getD b none = some k) :
    s.meta.slice b = metaFullPat s.meta.bits (s.hashA k) := by
  have := hs.2 b hb
  rw [hk] at this
  exact this

/-- C2 (amended), Cuckoo half: in every well-formed state already
containing `key`, `insert(key)` returns `completed = true` and leaves
`len`, the buckets and the meta map unchanged. -/
theorem insert_idempotent (s : Cuckoo) (key : Nat)
    (hwf : s.Wf) (hst : s.KeyStored key) :
    ∃ s' u, s.insert key = some (s', u) ∧
      s'.len = s.len ∧ s'.buckets = s.buckets ∧ s'.meta = s.meta ∧
      u.completed = true := by
  obtain ⟨hn, hsync, _⟩ := hwf
  obtain ⟨h, a, b, hr, hst⟩ := hst
  obtain ⟨hh, ha, hba, hlt⟩ := bucketsFor_spec s key h a b hr
  obtain ⟨haltn, hbltn⟩ := hlt hn
  unfold insert
  rw [hr]
  simp only
  by_cases hkb : s.buckets.getD b none = some key
  · -- found during the presence check at bucket b
    have hnm : s.meta.hintNotMatch b h = false := by
      rw [hh]
      exact hintNotMatch_fullPat_same _ _ _ (slice_of_stored s hsync b key hbltn hkb)
    rw [hnm]
    simp only [Bool.not_false, if_true]
    rw [if_pos hkb]
    exact ⟨s, _, rfl, rfl, rfl, rfl, rfl⟩
  · -- the key sits at bucket a; the first chain iteration finds it
    have hka : s.buckets.getD a none = some key := by
      rcases hst with hsta | hstb
      · exact hsta
      · exact absurd hstb hkb
    have hnea : s.meta.hintEmpty a = false :=
      hintEmpty_fullPat _ _ _ (slice_of_stored s hsync a key haltn hka)
    have hchain : ∀ u : Update,
        insertChain key 128 { s with len := s.len + 1 } key true (h, a, b) u
          = some ({ s with len := s.len + 1 - 1 }, { u with totalProbes := u.totalProbes + 1 }) := by
      intro u
      show insertChain key (127 + 1) _ key true (h, a, b) u = _
      unfold insertChain
      simp only [if_true, ite_true]
      have hnea' : MetaMap.hintEmpty { s with len := s.len + 1 }.meta a = false := hnea
      rw [hnea']
      simp only [Bool.false_eq_true, if_false]
      have hka' : List.getD { s with len := s.len + 1 }.buckets a none = some key := hka
      rw [hka']
      simp
    by_cases hnmb : s.meta.hintNotMatch b h = false
    · rw [hnmb]
      simp only [Bool.not_false, if_true]
      rw [if_neg hkb, hchain]
      exact ⟨_, _, rfl, by simp, rfl, rfl, rfl⟩
    · rw [Bool.not_eq_false] at hnmb
      rw [hnmb]
      simp only [Bool.not_true, Bool.false_eq_true, if_false]
      rw [hchain]
      exact ⟨_, _, rfl, by simp, rfl, rfl, rfl⟩

end Cuckoo

namespace BlockedCuckoo

theorem tryInsert_some_of_mem (key : Nat) :
    ∀ block : List (Option Nat), some key ∈ block →
      ∃ block', tryInsert key block = some block' := by
  intro block
  induction block with
  | nil => intro h; exact absurd h (by simp)
  | cons v rest ih =>
    intro h
    match v with
    | none => exact ⟨some key :: rest, rfl⟩
    | some x =>
      by_cases hx : x = key
      · exact ⟨some x :: rest, by simp [tryInsert, hx]⟩
      · have : some key ∈ rest := by
          rcases List.mem_cons.1 h with h' | h'
          · exact absurd h'.symm (by simp [hx])
          · exact h'
        obtain ⟨block', hb⟩ := ih this
        exact ⟨some x :: block', by simp [tryInsert, hx, hb]⟩

/-- C2 (amended), BlockedCuckoo half: re-inserting a key already present
in its first block returns `completed = true` yet increments `len`. -/
theorem insert_increments_len_on_duplicate (s : BlockedCuckoo) (key : Nat)
    (rng : List Nat) (blockA blockB : Nat)
    (hr : s.blocksFor key = some (blockA, blockB))
    (hmem : some key ∈ s.blocks.getD blockA []) :
    ∃ s' u, s.insert rng key = some (s', u) ∧
      s'.len = s.len + 1 ∧ u.completed = true := by
  obtain ⟨block', hb⟩ := tryInsert_some_of_mem key _ hmem
  unfold insert
  rw [hr]
  simp only
  rw [hb]
  exact ⟨_, _, rfl, rfl, rfl⟩

end BlockedCuckoo

/-- C2 (amended): only the 2-ary Cuckoo engine is idempotent in set
semantics — re-inserting a key present in a well-formed state leaves
`len` (and the whole bucket/meta state) unchanged and returns
`completed = true` — while BlockedCuckoo re-insertion of a present key
returns `completed = true` yet increments `len`. -/
theorem C2_insert_idempotence_amended :
    (∀ (s : Cuckoo) (key : Nat), s.Wf → s.KeyStored key →
      ∃ s' u, s.insert key = some (s', u) ∧
        s'.len = s.len ∧ s'.buckets = s.buckets ∧ s'.meta = s.meta ∧
        u.completed = true) ∧
    (∀ (s : BlockedCuckoo) (key : Nat) (rng : List Nat) (blockA blockB : Nat),
      s.blocksFor key = some (blockA, blockB) →
      some key ∈ s.blocks.getD blockA [] →
      ∃ s' u, s.insert rng key = some (s', u) ∧
        s'.len = s.len + 1 ∧ u.completed = true) :=
  ⟨Cuckoo.insert_idempotent, BlockedCuckoo.insert_increments_len_on_duplicate⟩

/-- C2 (witness): the amended statement at concrete states — re-insert
of key 5 into a well-formed Cuckoo holding it leaves everything
unchanged; re-insert of key 42 into a BlockedCuckoo holding it bumps
`len` to 2 with `completed = true`. -/
theorem C2_witness :
    (∃ s' u, cuckooWitState.insert 5 = some (s', u) ∧
      s'.len = cuckooWitState.len ∧ s'.buckets = cuckooWitState.buckets ∧
      s'.meta = cuckooWitState.meta ∧ u.completed = true) ∧
    (∃ s' u, blockedWitState.insert [] 42 = some (s', u) ∧
      s'.len = blockedWitState.len + 1 ∧ u.completed = true) :=
  ⟨C2_insert_idempotence_amended.1 cuckooWitState 5
      ⟨by decide, by unfold Cuckoo.Sync; decide, fun _ => rfl⟩
      ⟨0, 0, 1, rfl, Or.inl rfl⟩,
    C2_insert_idempotence_amended.2 blockedWitState 42 [] 0 1 rfl (by decide)⟩

end CuckooLemmas

section RemoveAbsentClaims

theorem RobinHood.probeAux_contained_mem (s : RobinHood) (key : Nat) :
    ∀ fuel psl bucket probes pr,
      probeAux s key fuel psl bucket probes = some pr → pr.contained = true →
      ∃ i, s.buckets.getD i none = some key := by
  intro fuel
  induction fuel with
  | zero => intro psl bucket probes pr h; exact absurd h (by simp [probeAux])
  | succ fuel ih =>
    intro psl bucket probes pr h hc
    unfold probeAux at h
    simp only at h
    match hh : s.meta.hintPsl bucket with
    | none =>
      rw [hh] at h
      simp only at h
      cases h
      exact absurd hc (by simp)
    | some (.Exact bp) =>
      rw [hh] at h
      simp only at h
      by_cases h1 : bp < psl
      · rw [if_pos h1] at h
        simp only at h
        cases h
        exact absurd hc (by simp)
      · rw [if_neg h1] at h
        by_cases h2 : bp > psl
        · rw [if_pos h2] at h
          simp only at h
          exact ih _ _ _ _ h hc
        · rw [if_neg h2] at h
          simp only at h
          match hb : s.buckets.getD bucket none with
          | none =>
            rw [hb] at h
            cases h
            exact absurd hc (by simp)
          | some k =>
            rw [hb] at h
            simp only at h
            by_cases hk : k = key
            · exact ⟨bucket, by rw [hb, hk]⟩
            · rw [if_neg hk] at h
              by_cases hp : s.pslOf k bucket < psl
              · rw [if_pos hp] at h
                cases h
                exact absurd hc (by simp)
              · rw [if_neg hp] at h
                exact ih _ _ _ _ h hc
    | some (.AtLeast bp) =>
      rw [hh] at h
      simp only at h
      by_cases h2 : bp > psl
      · rw [if_pos h2] at h
        simp only at h
        exact ih _ _ _ _ h hc
      · rw [if_neg h2] at h
        simp only at h
        match hb : s.buckets.getD bucket none with
        | none =>
          rw [hb] at h
          cases h
          exact absurd hc (by simp)
        | some k =>
          rw [hb] at h
          simp only at h
          by_cases hk : k = key
          · exact ⟨bucket, by rw [hb, hk]⟩
          · rw [if_neg hk] at h
            by_cases hp : s.pslOf k bucket < psl
            · rw [if_pos hp] at h
              cases h
              exact absurd hc (by simp)
            · rw [if_neg hp] at h
              exact ih _ _ _ _ h hc

theorem TriaProb.probeSearchAux_some_value (s : TriaProb) (key hash home : Nat) :
    ∀ rem i offset probes idx pr,
      probeSearchAux s key hash home rem i offset probes = (some idx, pr) →
      s.buckets.getD idx .Empty = .Value key := by
  intro rem
  induction rem with
  | zero => intro i offset probes idx pr h; exact absurd h (by simp [probeSearchAux])
  | succ rem ih =>
    intro i offset probes idx pr h
    unfold probeSearchAux at h
    simp only at h
    by_cases he : s.meta.hintEmpty ((home + (offset + i)) % s.buckets.length)
    · rw [if_pos he] at h
      cases h
    · rw [if_neg he] at h
      by_cases hm : s.meta.hintNotMatch ((home + (offset + i)) % s.buckets.length) hash
      · rw [hm] at h
        simp only [Bool.not_true, Bool.false_eq_true, if_false] at h
        exact ih _ _ _ _ _ h
      · rw [Bool.not_eq_true] at hm
        rw [hm] at h
        simp only [Bool.not_false, if_true] at h
        match hb : s.buckets.getD ((home + (offset + i)) % s.buckets.length) .Empty with
        | .Value foundKey =>
          rw [hb] at h
          simp only at h
          by_cases hk : key = foundKey
          · rw [if_pos hk] at h
            cases h
            rw [hb, hk]
          · rw [if_neg hk] at h
            exact ih _ _ _ _ _ h
        | .Empty => rw [hb] at h; cases h
        | .Tombstone =>
          rw [hb] at h
          simp only at h
          exact ih _ _ _ _ _ h

theorem BlockedCuckoo.search_eq_none (key : Nat) :
    ∀ block : List (Option Nat), some key ∉ block → search key block = none := by
  intro block
  induction block with
  | nil => intro _; rfl
  | cons v rest ih =>
    intro h
    match v with
    | none =>
      have : some key ∉ rest := fun hm => h (List.mem_cons_of_mem _ hm)
      simp [search, ih this]
    | some x =>
      have hx : x ≠ key := fun he => h (by rw [he]; exact List.mem_cons_self _ _)
      have : some key ∉ rest := fun hm => h (List.mem_cons_of_mem _ hm)
      simp [search, hx, ih this]

/-- C4 (counterexample): removing the absent key 7 from a fresh
BlockedCuckoo reports `completed = false` (the claim says every engine
except TriaProb reports `completed = true`), and removing it from a
fresh TriaProb reports `total_writes = 1`, not 0. -/
theorem C4_counterexample :
    (BlockedCuckoo.new 214 blockedHashers).remove 7
      = some (BlockedCuckoo.new 214 blockedHashers, ⟨2, 0, false⟩) ∧
    ((TriaProb.new 4 2 constHash).remove 7).2 = ⟨0, 1, false⟩ := by
  exact ⟨rfl, rfl⟩

/-- C4 (amended): removing an absent key leaves the engine state
unchanged in every engine, but the telemetry differs: Cuckoo and
ThreeAryCuckoo report zero writes with `completed = true` (RobinHood,
which has no `completed` flag, reports zero writes); TriaProb reports
`completed = false` with `total_writes = 1` (its initialised value);
BlockedCuckoo reports `completed = false` with zero writes. -/
theorem C4_remove_absent_amended :
    (∀ (s : Cuckoo) (key h a b : Nat), s.bucketsFor key = some (h, a, b) →
      (∀ i, s.buckets.getD i none ≠ some key) →
      ∃ u, s.remove key = some (s, u) ∧ u.totalWrites = 0 ∧ u.completed = true) ∧
    (∀ (s : ThreeAryCuckoo) (key h a b c : Nat),
      s.bucketsFor key = some (h, a, b, c) →
      (∀ i, s.buckets.getD i none ≠ some key) →
      ∃ u, s.remove key = some (s, u) ∧ u.totalWrites = 0 ∧ u.completed = true) ∧
    (∀ (s : RobinHood) (fuel key : Nat) (pr : Probe), s.probe fuel key = some pr →
      (∀ i, s.buckets.getD i none ≠ some key) →
      s.remove fuel key = some (s, ⟨pr.probes, 0⟩)) ∧
    (∀ (s : TriaProb) (key : Nat),
      (∀ i, s.buckets.getD i .Empty ≠ .Value key) →
      s.remove key = (s, ⟨(s.probeSearch key).2, 1, false⟩)) ∧
    (∀ (s : BlockedCuckoo) (key a b : Nat), s.blocksFor key = some (a, b) →
      some key ∉ s.blocks.getD a [] → some key ∉ s.blocks.getD b [] →
      s.remove key = some (s, ⟨2, 0, false⟩)) := by
  refine ⟨?_, ?_, ?_, ?_, ?_⟩
  · intro s key h a b hr habs
    unfold Cuckoo.remove
    rw [hr]
    simp only [habs a, habs b, if_false]
    split_ifs <;> exact ⟨_, rfl, rfl, rfl⟩
  · intro s key h a b c hr habs
    unfold ThreeAryCuckoo.remove
    rw [hr]
    simp only [habs a, habs b, habs c, if_false]
    split_ifs <;> exact ⟨_, rfl, rfl, rfl⟩
  · intro s fuel key pr hp habs
    have hnc : pr.contained = false := by
      by_contra hc
      rw [Bool.not_eq_false] at hc
      obtain ⟨i, hi⟩ :=
        RobinHood.probeAux_contained_mem s key fuel 1 (s.bucketFor key) 0 pr hp hc
      exact habs i hi
    unfold RobinHood.remove
    rw [hp]
    simp only [hnc, Bool.not_false, if_true]
  · intro s key habs
    unfold TriaProb.remove
    match hps : s.probeSearch key with
    | (none, p) => rfl
    | (some idx, p) =>
      exact absurd
        (TriaProb.probeSearchAux_some_value s key _ _ _ _ _ _ _ _ hps)
        (habs idx)
  · intro s key a b hr ha hb
    unfold BlockedCuckoo.remove
    rw [hr]
    simp only [BlockedCuckoo.tryRemove,
      BlockedCuckoo.search_eq_none key _ ha,
      BlockedCuckoo.search_eq_none key _ hb, Option.map_none']

/-- C4 (witness): the amended statement instantiated on concrete
states, removing the absent key 7 from each engine. -/
theorem C4_witness :
    (∃ u, cuckooWitState.remove 7 = some (cuckooWitState, u) ∧
      u.totalWrites = 0 ∧ u.completed = true) ∧
    ((RobinHood.new 4 constHash).remove 10 7
      = some (RobinHood.new 4 constHash, ⟨0, 0⟩)) ∧
    ((TriaProb.new 4 2 constHash).remove 7
      = (TriaProb.new 4 2 constHash, ⟨0, 1, false⟩)) ∧
    (blockedWitState.remove 7 = some (blockedWitState, ⟨2, 0, false⟩)) := by
  refine ⟨C4_remove_absent_amended.1 cuckooWitState 7 0 0 1 rfl ?_,
    ?_, ?_, C4_remove_absent_amended.2.2.2.2 blockedWitState 7 0 1 rfl
      (by decide) (by decide)⟩
  · intro i
    match i with
    | 0 | 1 | 2 | 3 => decide
    | n + 4 => simp [cuckooWitState, List.getD]
  · have h := C4_remove_absent_amended.2.2.1 (RobinHood.new 4 constHash) 10 7
      ⟨false, 0⟩ rfl (fun i => by
        match i with
        | 0 | 1 | 2 | 3 => decide
        | n + 4 => simp [RobinHood.new, List.getD])
    exact h
  · have h := C4_remove_absent_amended.2.2.2.1 (TriaProb.new 4 2 constHash) 7
      (fun i => by
        match i with
        | 0 | 1 | 2 | 3 => decide
        | n + 4 => simp [TriaProb.new, List.getD])
    exact h

end RemoveAbsentClaims

section ProbeCountClaims

theorem BlockedCuckoo.search_isSome_of_mem (key : Nat) :
    ∀ block : List (Option Nat), some key ∈ block →
      (BlockedCuckoo.search key block).isSome = true := by
  intro block
  induction block with
  | nil => intro h; exact absurd h (by simp)
  | cons v rest ih =>
    intro h
    match v with
    | none =>
      have hrest : some key ∈ rest := by
        rcases List.mem_cons.1 h with h' | h'
        · cases h'
        · exact h'
      simp [BlockedCuckoo.search, Option.isSome_map, ih hrest]
    | some x =>
      by_cases hx : x = key
      · simp [BlockedCuckoo.search, hx]
      · have hrest : some key ∈ rest := by
          rcases List.mem_cons.1 h with h' | h'
          · exact absurd h'.symm (by simp [hx])
          · exact h'
        simp [BlockedCuckoo.search, hx, Option.isSome_map, ih hrest]

/-- C8 (amended), Cuckoo half: `probe.probes` equals the number of
individual bucket reads performed. -/
theorem Cuckoo.probe_probes_eq_reads (s : Cuckoo) (key : Nat) :
    (s.probe key).map Probe.probes = s.probeReads key := by
  unfold probe probeReads
  match hr : s.bucketsFor key with
  | none => rfl
  | some (h, a, b) =>
    simp only
    split_ifs <;> simp_all

/-- C8 (amended), BlockedCuckoo half: `probe.probes` counts blocks
scanned — 1 when the key is found in the first block, 2 otherwise —
independently of how many slots each scan read. -/
theorem BlockedCuckoo.probe_counts_blocks (s : BlockedCuckoo) (key a b : Nat)
    (hr : s.blocksFor key = some (a, b)) :
    s.probe key = some
      ⟨(search key (s.blocks.getD a [])).isSome
        || (search key (s.blocks.getD b [])).isSome,
       if (search key (s.blocks.getD a [])).isSome then 1 else 2⟩ := by
  unfold probe
  rw [hr]
  simp only
  by_cases ha : (search key (s.blocks.getD a [])).isSome = true
  · rw [if_pos ha, if_pos ha]
    simp only [ha, Bool.true_or, if_true]
  · have ha' : (search key (s.blocks.getD a [])).isSome = false :=
      Bool.not_eq_true _ ▸ (by simpa using ha)
    rw [if_neg ha, if_neg ha]
    by_cases hb : (search key (s.blocks.getD b [])).isSome = true
    · rw [if_pos hb]
      simp only [ha', hb, Bool.false_or, Bool.false_eq_true, if_false]
    · have hb' : (search key (s.blocks.getD b [])).isSome = false := by
        simpa using hb
      rw [if_neg hb]
      simp only [ha', hb', Bool.or_false, Bool.false_eq_true, if_false]

/-- RobinHood's probe loop counts exactly its bucket reads: the `probes`
field and the read instrumentation run in lockstep through every
branch. -/
theorem RobinHood.probeAux_map_reads (s : RobinHood) (key : Nat) :
    ∀ fuel psl bucket c,
      (RobinHood.probeAux s key fuel psl bucket c).map Probe.probes
        = RobinHood.probeReadsAux s key fuel psl bucket c := by
  intro fuel
  induction fuel with
  | zero => intro psl bucket c; rfl
  | succ fuel ih =>
    intro psl bucket c
    unfold RobinHood.probeAux RobinHood.probeReadsAux
    match hh : s.meta.hintPsl bucket with
    | none => rfl
    | some (.Exact bp) =>
      dsimp only
      by_cases h1 : bp < psl
      · rw [if_pos h1, if_pos h1]
        rfl
      · rw [if_neg h1, if_neg h1]
        by_cases h2 : bp > psl
        · rw [if_pos h2, if_pos h2]
          exact ih _ _ _
        · rw [if_neg h2, if_neg h2]
          dsimp only
          match hb : s.buckets.getD bucket none with
          | none => rfl
          | some k =>
            dsimp only
            by_cases hk : k = key
            · rw [if_pos hk, if_pos hk]
              rfl
            · rw [if_neg hk, if_neg hk]
              by_cases hp : s.pslOf k bucket < psl
              · rw [if_pos hp, if_pos hp]
                rfl
              · rw [if_neg hp, if_neg hp]
                exact ih _ _ _
    | some (.AtLeast bp) =>
      dsimp only
      by_cases h2 : bp > psl
      · rw [if_pos h2, if_pos h2]
        exact ih _ _ _
      · rw [if_neg h2, if_neg h2]
        dsimp only
        match hb : s.buckets.getD bucket none with
        | none => rfl
        | some k =>
          dsimp only
          by_cases hk : k = key
          · rw [if_pos hk, if_pos hk]
            rfl
          · rw [if_neg hk, if_neg hk]
            by_cases hp : s.pslOf k bucket < psl
            · rw [if_pos hp, if_pos hp]
              rfl
            · rw [if_neg hp, if_neg hp]
              exact ih _ _ _

/-- ThreeAryCuckoo's probe counts exactly its bucket reads: each
hint-passed check reads one bucket and adds one probe. -/
theorem ThreeAryCuckoo.probe_counts_reads3 (s : ThreeAryCuckoo) (key : Nat) :
    (s.probe key).map Probe.probes = s.probeReads key := by
  unfold ThreeAryCuckoo.probe ThreeAryCuckoo.probeReads
  match hr : s.bucketsFor key with
  | none => rfl
  | some (h, a, b, c) =>
    dsimp only
    unfold ThreeAryCuckoo.probeStep
    split_ifs <;> simp_all

/-- C8 (amended): `probes` equals the number of individual bucket reads
for the Cuckoo, RobinHood and ThreeAryCuckoo engines (whose code
increments `probes` exactly when it reads a bucket), but BlockedCuckoo's
`probes` counts blocks scanned (1 if the key is found in the first
block, else 2), not the individual slot reads inside a block. -/
theorem C8_probes_amended :
    (∀ (s : Cuckoo) (key : Nat),
      (s.probe key).map Probe.probes = s.probeReads key) ∧
    (∀ (s : RobinHood) (fuel key : Nat),
      (s.probe fuel key).map Probe.probes = s.probeReads fuel key) ∧
    (∀ (s : ThreeAryCuckoo) (key : Nat),
      (s.probe key).map Probe.probes = s.probeReads key) ∧
    (∀ (s : BlockedCuckoo) (key a b : Nat), s.blocksFor key = some (a, b) →
      s.probe key = some
        ⟨(BlockedCuckoo.search key (s.blocks.getD a [])).isSome
          || (BlockedCuckoo.search key (s.blocks.getD b [])).isSome,
         if (BlockedCuckoo.search key (s.blocks.getD a [])).isSome then 1 else 2⟩) :=
  ⟨Cuckoo.probe_probes_eq_reads,
   fun s fuel key => RobinHood.probeAux_map_reads s key fuel 1 (s.bucketFor key) 0,
   ThreeAryCuckoo.probe_counts_reads3,
   BlockedCuckoo.probe_counts_blocks⟩

/-- C8 (witness): the amended statement at concrete states. -/
theorem C8_witness :
    ((cuckooWitState.probe 5).map Probe.probes = cuckooWitState.probeReads 5) ∧
    (((RobinHood.new 4 constHash).probe 6 7).map Probe.probes
      = (RobinHood.new 4 constHash).probeReads 6 7) ∧
    (((ThreeAryCuckoo.new 4 2 threeHashers).probe 5).map Probe.probes
      = (ThreeAryCuckoo.new 4 2 threeHashers).probeReads 5) ∧
    (blockedWitState.probe 42 = some ⟨true, 1⟩) := by
  refine ⟨C8_probes_amended.1 cuckooWitState 5,
    C8_probes_amended.2.1 (RobinHood.new 4 constHash) 6 7,
    C8_probes_amended.2.2.1 (ThreeAryCuckoo.new 4 2 threeHashers) 5, ?_⟩
  have h := C8_probes_amended.2.2.2 blockedWitState 42 0 1 rfl
  rw [h]
  rfl

end ProbeCountClaims

section TerminationClaims

/-- The four-state cycle of `RobinHood::insert`'s loop when inserting
the fresh key 2 into the full table `rhFullS`: keys 0 and 2 keep
displacing each other at bucket 0, bucket 1 never yields, and no
terminating branch is ever taken, for any amount of fuel. -/
theorem rhInsertCycle : ∀ fuel : Nat, ∀ u : RHUpdate,
    RobinHood.insertAux 2 fuel rhCycleA 0 2 2 u = none ∧
    RobinHood.insertAux 2 fuel rhCycleA 0 2 3 u = none ∧
    RobinHood.insertAux 2 fuel rhCycleC 0 0 2 u = none ∧
    RobinHood.insertAux 2 fuel rhCycleC 0 0 3 u = none := by
  intro fuel
  induction fuel with
  | zero => exact fun u => ⟨rfl, rfl, rfl, rfl⟩
  | succ fuel ih =>
    intro u
    refine ⟨?_, ?_, ?_, ?_⟩
    · exact (ih ⟨u.totalProbes + 1, u.totalWrites⟩).2.1
    · exact (ih ⟨u.totalProbes + 1, u.totalWrites + 1⟩).2.2.1
    · exact (ih ⟨u.totalProbes + 1, u.totalWrites⟩).2.2.2
    · exact (ih ⟨u.totalProbes + 1, u.totalWrites + 1⟩).1

/-- C9 (counterexample): the full table `rhFullS` is reachable (two
completed inserts into RobinHood(capacity 2)), and inserting the fresh
key 2 into it never terminates, for any fuel — refuting "every insert
call terminates ... including a table filled to full capacity". -/
theorem C9_counterexample :
    rhFullState = some rhFullS ∧ ¬ RobinHood.insertTerminates rhFullS 2 := by
  refine ⟨rfl, ?_⟩
  rintro ⟨fuel, r, hr⟩
  match fuel with
  | 0 => exact absurd hr (by simp [RobinHood.insert, RobinHood.insertAux])
  | fuel + 1 =>
    have h0 : rhFullS.insert (fuel + 1) 2
        = RobinHood.insertAux 2 fuel rhCycleA 0 2 2 ⟨0, 1⟩ := rfl
    rw [h0, (rhInsertCycle fuel ⟨0, 1⟩).1] at hr
    cases hr

theorem RobinHood.pslOf_le (s : RobinHood) (k bucket : Nat)
    (hb : bucket < s.buckets.length) : s.pslOf k bucket ≤ s.buckets.length := by
  unfold pslOf bucketFor
  have hn : 0 < s.buckets.length := Nat.lt_of_le_of_lt (Nat.zero_le _) hb
  have hh : s.hash k % s.buckets.length < s.buckets.length := Nat.mod_lt _ hn
  dsimp only
  split_ifs <;> omega

theorem getD_some_lt (l : List (Option Nat)) (i : Nat) (k : Nat)
    (h : l.getD i none = some k) : i < l.length := by
  by_contra hge
  rw [List.getD_eq_default l none (by omega)] at h
  cases h

/-- `RobinHood::probe` terminates from any state (with any meta
content) once the loop psl exceeds every possible stored psl:
`capacity + 2` iterations always suffice at `META_BITS = 1`. -/
theorem RobinHood.probeAux_isSome (s : RobinHood) (key : Nat)
    (h1 : s.meta.bits = 1) :
    ∀ fuel psl bucket probes, 1 ≤ fuel → 1 ≤ psl →
      s.buckets.length + 2 ≤ fuel + psl →
      (probeAux s key fuel psl bucket probes).isSome = true := by
  intro fuel
  induction fuel with
  | zero => intro psl bucket probes hf _ _; omega
  | succ fuel ih =>
    intro psl bucket probes _ hpsl hbound
    unfold probeAux
    rcases hintPsl_bits_one s.meta bucket h1 with hh | hh
    · rw [hh]
      simp
    · rw [hh]
      simp only
      rw [if_neg (by omega : ¬ 1 > psl)]
      simp only
      match hb : s.buckets.getD bucket none with
      | none => simp
      | some k =>
        dsimp only
        by_cases hk : k = key
        · simp [hk]
        · rw [if_neg hk]
          by_cases hp : s.pslOf k bucket < psl
          · rw [if_pos hp]
            simp
          · rw [if_neg hp]
            have hblt : bucket < s.buckets.length := getD_some_lt _ _ _ hb
            have hle : s.pslOf k bucket ≤ s.buckets.length := pslOf_le s k bucket hblt
            exact ih (psl + 1) ((bucket + 1) % s.buckets.length) (probes + 1)
              (by omega) (by omega) (by omega)

/-- Every `TriaProb` lookup is bounded: at most one bucket read per
sequence position, so the reported probes never exceed the capacity. -/
theorem TriaProb.probeSearchAux_probes_le (s : TriaProb) (key hash home : Nat) :
    ∀ rem i offset probes,
      (probeSearchAux s key hash home rem i offset probes).2
        ≤ max (probes + rem) s.buckets.length := by
  intro rem
  induction rem with
  | zero => intro i offset probes; exact le_max_right _ _
  | succ rem ih =>
    intro i offset probes
    unfold probeSearchAux
    simp only
    split_ifs with he hm
    · omega
    · split
      · split_ifs with hk
        · dsimp only
          omega
        · have := ih (i + 1) (offset + i) (probes + 1)
          omega
      · dsimp only
        omega
      · have := ih (i + 1) (offset + i) (probes + 1)
        omega
    · have := ih (i + 1) (offset + i) probes
      omega

end TerminationClaims

section SetterSliceLemmas

open MetaMap

theorem getD_replicate {α : Type _} (n i : Nat) (a d : α) (h : i < n) :
    (List.replicate n a).getD i d = a := by
  show ((List.replicate n a).get? i).getD d = a
  rw [List.get?_eq_get (by simpa using h)]
  simp

theorem setFull_vecLen (m : MetaMap) (b : Nat) (md : Metadata) :
    (m.setFull b md).vec.length = m.vec.length := by
  unfold setFull
  split_ifs <;> first | rfl | (cases md <;> simp)

theorem setEmpty_vecLen (m : MetaMap) (b : Nat) :
    (m.setEmpty b).vec.length = m.vec.length := by
  unfold setEmpty
  split_ifs <;> simp

theorem setTombstone_vecLen (m : MetaMap) (b : Nat) :
    (m.setTombstone b).vec.length = m.vec.length := by
  unfold setTombstone
  split_ifs <;> simp

theorem slice_setFull_ne (m : MetaMap) (b : Nat) (md : Metadata) (b' : Nat)
    (hne : b' ≠ b) : (m.setFull b md).slice b' = m.slice b' := by
  unfold setFull
  split_ifs
  · rfl
  · exact getD_set_ne _ _ _ _ _ (fun h => hne h.symm)
  · cases md <;> exact getD_set_ne _ _ _ _ _ (fun h => hne h.symm)

theorem slice_setEmpty_ne (m : MetaMap) (b b' : Nat)
    (hne : b' ≠ b) : (m.setEmpty b).slice b' = m.slice b' := by
  unfold setEmpty
  split_ifs
  · rfl
  · exact getD_set_ne _ _ _ _ _ (fun h => hne h.symm)
  · exact getD_set_ne _ _ _ _ _ (fun h => hne h.symm)

theorem slice_setTombstone_ne (m : MetaMap) (b b' : Nat)
    (hne : b' ≠ b) : (m.setTombstone b).slice b' = m.slice b' := by
  unfold setTombstone
  split_ifs
  · rfl
  · exact getD_set_ne _ _ _ _ _ (fun h => hne h.symm)
  · exact getD_set_ne _ _ _ _ _ (fun h => hne h.symm)

/-- Writing the full pattern: valid at every bit width, provided the
old slice was empty-width at `B = 0` (where `set_full` is a no-op). -/
theorem slice_setFull_hash_all (m : MetaMap) (b h : Nat) (hb : b < m.vec.length)
    (h0 : m.bits = 0 → m.slice b = []) :
    (m.setFull b (.Hash h)).slice b = metaFullPat m.bits h := by
  by_cases hb0 : m.bits = 0
  · rw [show m.setFull b (.Hash h) = m from by unfold setFull; rw [if_pos hb0]]
    rw [h0 hb0]
    unfold metaFullPat
    rw [if_pos hb0]
  · by_cases hb1 : m.bits = 1
    · rw [setFull_slice_one m b _ hb hb1]
      unfold metaFullPat
      rw [if_neg hb0, if_pos hb1]
    · rw [setFull_hash_slice m b h hb (by omega)]
      unfold metaFullPat
      rw [if_neg hb0, if_neg hb1]

theorem slice_setEmpty_all (m : MetaMap) (b : Nat) (hb : b < m.vec.length)
    (h0 : m.bits = 0 → m.slice b = []) :
    (m.setEmpty b).slice b = metaEmptyPat m.bits := by
  by_cases hb0 : m.bits = 0
  · rw [show m.setEmpty b = m from by unfold setEmpty; rw [if_pos hb0]]
    rw [h0 hb0]
    unfold metaEmptyPat
    rw [hb0]
    rfl
  · by_cases hb1 : m.bits = 1
    · rw [setEmpty_slice_one m b hb hb1]
      unfold metaEmptyPat
      rw [hb1]
      rfl
    · rw [setEmpty_slice m b hb (by omega)]
      unfold metaEmptyPat
      conv_rhs => rw [show m.bits = (m.bits - 1) + 1 from by omega]
      rw [List.replicate_succ]

theorem slice_setTombstone_all (m : MetaMap) (b : Nat) (hb : b < m.vec.length)
    (h0 : m.bits = 0 → m.slice b = []) :
    (m.setTombstone b).slice b = metaTombPat m.bits := by
  by_cases hb0 : m.bits = 0
  · rw [show m.setTombstone b = m from by unfold setTombstone; rw [if_pos hb0]]
    rw [h0 hb0]
    unfold metaTombPat
    rw [if_pos hb0]
  · by_cases hb1 : m.bits = 1
    · rw [show (m.setTombstone b) = { m with vec := m.vec.set b [true] } from by
        unfold setTombstone; rw [if_neg hb0, if_pos hb1]]
      unfold metaTombPat
      rw [if_neg hb0, if_pos hb1]
      exact getD_set_self _ _ _ _ hb
    · rw [setTombstone_slice m b hb (by omega)]
      unfold metaTombPat
      rw [if_neg hb0, if_neg hb1]

end SetterSliceLemmas

section RobinHoodTermination

theorem RobinHood.setBucket_nbuckets (s : RobinHood) (t k p : Nat) :
    (s.setBucket t k p).buckets.length = s.buckets.length := by
  show (s.buckets.set t (some k)).length = s.buckets.length
  simp

theorem RobinHood.clearBucket_nbuckets (s : RobinHood) (t : Nat) :
    (s.clearBucket t).buckets.length = s.buckets.length := by
  show (s.buckets.set t none).length = s.buckets.length
  simp

theorem RobinHood.setBucket_getD_self (s : RobinHood) (t k p : Nat)
    (ht : t < s.buckets.length) :
    (s.setBucket t k p).buckets.getD t none = some k :=
  getD_set_self _ _ _ _ ht

theorem RobinHood.setBucket_getD_ne (s : RobinHood) (t k p x : Nat) (hx : x ≠ t) :
    (s.setBucket t k p).buckets.getD x none = s.buckets.getD x none :=
  getD_set_ne _ _ _ _ _ (fun h => hx h.symm)

theorem RobinHood.pslOf_frame (s s' : RobinHood) (hh : s'.hash = s.hash)
    (hl : s'.buckets.length = s.buckets.length) (k b : Nat) :
    s'.pslOf k b = s.pslOf k b := by
  unfold pslOf bucketFor
  rw [hh, hl]

theorem RobinHood.bucketFor_frame (s s' : RobinHood) (hh : s'.hash = s.hash)
    (hl : s'.buckets.length = s.buckets.length) (k : Nat) :
    s'.bucketFor k = s.bucketFor k := by
  unfold bucketFor
  rw [hh, hl]

theorem RobinHood.pslOf_pos (s : RobinHood) (k b : Nat) : 1 ≤ s.pslOf k b := by
  unfold pslOf
  dsimp only
  split_ifs <;> omega

theorem RobinHood.pslWeight_setBucket_ne (s : RobinHood) (t k p x : Nat)
    (hx : x ≠ t) : (s.setBucket t k p).pslWeight x = s.pslWeight x := by
  unfold pslWeight
  rw [setBucket_getD_ne s t k p x hx]
  match s.buckets.getD x none with
  | none => rfl
  | some k0 => exact pslOf_frame s (s.setBucket t k p) rfl (setBucket_nbuckets s t k p) k0 x

theorem RobinHood.pslWeight_setBucket_self (s : RobinHood) (t k p : Nat)
    (ht : t < s.buckets.length) :
    (s.setBucket t k p).pslWeight t = s.pslOf k t := by
  unfold pslWeight
  rw [setBucket_getD_self s t k p ht]
  exact pslOf_frame s (s.setBucket t k p) rfl (setBucket_nbuckets s t k p) k t

theorem RobinHood.pslWeight_le (s : RobinHood) (b : Nat) :
    s.pslWeight b ≤ s.buckets.length := by
  unfold pslWeight
  match hc : s.buckets.getD b none with
  | none => exact Nat.zero_le _
  | some k => exact pslOf_le s k b (getD_some_lt _ _ _ hc)

theorem RobinHood.pslWeight_le_totalPsl (s : RobinHood) (b : Nat)
    (hb : b < s.buckets.length) : s.pslWeight b ≤ s.totalPsl := by
  unfold totalPsl
  exact Finset.single_le_sum (fun i _ => Nat.zero_le (s.pslWeight i))
    (Finset.mem_range.2 hb)

theorem RobinHood.totalPsl_le (s : RobinHood) :
    s.totalPsl ≤ s.buckets.length * s.buckets.length := by
  unfold totalPsl
  calc ∑ b ∈ Finset.range s.buckets.length, s.pslWeight b
      ≤ ∑ _b ∈ Finset.range s.buckets.length, s.buckets.length :=
        Finset.sum_le_sum (fun i _ => pslWeight_le s i)
    _ = s.buckets.length * s.buckets.length := by
        rw [Finset.sum_const, Finset.card_range, smul_eq_mul]

/-- Overwriting bucket `t` exchanges its positional psl in the total
(additive form, to stay inside `Nat`). -/
theorem RobinHood.totalPsl_setBucket (s : RobinHood) (t k p : Nat)
    (ht : t < s.buckets.length) :
    (s.setBucket t k p).totalPsl + s.pslWeight t = s.totalPsl + s.pslOf k t := by
  unfold totalPsl
  rw [setBucket_nbuckets]
  have hmem : t ∈ Finset.range s.buckets.length := Finset.mem_range.2 ht
  rw [← Finset.add_sum_erase (Finset.range s.buckets.length)
      (fun x => (s.setBucket t k p).pslWeight x) hmem,
    ← Finset.add_sum_erase (Finset.range s.buckets.length)
      (fun x => s.pslWeight x) hmem]
  rw [pslWeight_setBucket_self s t k p ht]
  rw [Finset.sum_congr rfl
    (fun x hx => pslWeight_setBucket_ne s t k p x (Finset.ne_of_mem_erase hx))]
  have hsum : (∑ x ∈ (Finset.range s.buckets.length).erase t, s.pslWeight x)
      = ((Finset.range s.buckets.length).erase t).sum s.pslWeight := rfl
  omega

/-- Moving one bucket forward costs exactly one psl unit (the shifted
key's psl at the next position is one larger than at the current one). -/
theorem RobinHood.pslOf_pred (s : RobinHood) (k bucket : Nat)
    (hb : bucket < s.buckets.length)
    (hq : 2 ≤ s.pslOf k ((bucket + 1) % s.buckets.length)) :
    s.pslOf k bucket + 1 = s.pslOf k ((bucket + 1) % s.buckets.length) := by
  have hn : 0 < s.buckets.length := by omega
  have hh : s.bucketFor k < s.buckets.length := Nat.mod_lt _ hn
  unfold pslOf at hq ⊢
  dsimp only at hq ⊢
  by_cases hbn : bucket + 1 < s.buckets.length
  · rw [Nat.mod_eq_of_lt hbn] at hq ⊢
    split_ifs at hq ⊢ <;> omega
  · have hbe : (bucket + 1) % s.buckets.length = 0 := by
      have h2 : bucket + 1 = s.buckets.length := by omega
      rw [h2, Nat.mod_self]
    rw [hbe] at hq ⊢
    split_ifs at hq ⊢ <;> omega

theorem RobinHood.shiftPhi_le (s : RobinHood) (b : Nat) :
    s.shiftPhi b ≤ s.buckets.length * s.buckets.length := by
  unfold shiftPhi
  have h := totalPsl_le s
  have h2 := Nat.sub_le s.totalPsl (s.pslWeight b)
  omega

/-- One continuing pass of the backward-shift loop lowers the loop's
potential by exactly one. -/
theorem RobinHood.shiftPhi_step (s : RobinHood) (bucket k : Nat)
    (hb : bucket < s.buckets.length)
    (hread : s.buckets.getD ((bucket + 1) % s.buckets.length) none = some k)
    (hq : 2 ≤ s.pslOf k ((bucket + 1) % s.buckets.length)) :
    (s.setBucket bucket k (s.pslOf k ((bucket + 1) % s.buckets.length) - 1)).shiftPhi
        ((bucket + 1) % s.buckets.length) + 1 = s.shiftPhi bucket := by
  have hn : 0 < s.buckets.length := by omega
  have hnext : (bucket + 1) % s.buckets.length < s.buckets.length := Nat.mod_lt _ hn
  have hne : (bucket + 1) % s.buckets.length ≠ bucket := by
    intro he
    by_cases hlt : bucket + 1 < s.buckets.length
    · rw [Nat.mod_eq_of_lt hlt] at he
      omega
    · have hb1 : bucket + 1 = s.buckets.length := by omega
      have hn1 : s.buckets.length = 1 := by
        rw [hb1, Nat.mod_self] at he
        omega
      have hhome : s.bucketFor k = 0 := by
        unfold bucketFor
        rw [hn1, Nat.mod_one]
      rw [hb1, Nat.mod_self] at hq
      unfold pslOf at hq
      rw [hhome] at hq
      simp at hq
  have hpred := pslOf_pred s k bucket hb hq
  have hwn : s.pslWeight ((bucket + 1) % s.buckets.length)
      = s.pslOf k ((bucket + 1) % s.buckets.length) := by
    unfold pslWeight
    rw [hread]
  have hwn' : (s.setBucket bucket k
        (s.pslOf k ((bucket + 1) % s.buckets.length) - 1)).pslWeight
        ((bucket + 1) % s.buckets.length)
      = s.pslOf k ((bucket + 1) % s.buckets.length) := by
    rw [pslWeight_setBucket_ne s bucket k _ _ hne, hwn]
  have htot := totalPsl_setBucket s bucket k
    (s.pslOf k ((bucket + 1) % s.buckets.length) - 1) hb
  have hwles : s.pslWeight bucket ≤ s.totalPsl := pslWeight_le_totalPsl s bucket hb
  have hwles' : (s.setBucket bucket k
        (s.pslOf k ((bucket + 1) % s.buckets.length) - 1)).pslWeight
        ((bucket + 1) % s.buckets.length)
      ≤ (s.setBucket bucket k
        (s.pslOf k ((bucket + 1) % s.buckets.length) - 1)).totalPsl := by
    apply pslWeight_le_totalPsl
    rw [setBucket_nbuckets]
    exact hnext
  unfold shiftPhi
  omega

/-- The continuing branch of the backward-shift loop, as an equation. -/
theorem RobinHood.removeShiftAux_read (fuel : Nat) (s : RobinHood) (bucket : Nat)
    (u : RHUpdate)
    (hex : s.meta.hintPsl ((bucket + 1) % s.buckets.length) ≠ some (.Exact 1))
    (k : Nat)
    (hread : s.buckets.getD ((bucket + 1) % s.buckets.length) none = some k)
    (hp1 : ¬ s.pslOf k ((bucket + 1) % s.buckets.length) = 1) :
    removeShiftAux (fuel + 1) s bucket u
      = removeShiftAux fuel
          (s.setBucket bucket k (s.pslOf k ((bucket + 1) % s.buckets.length) - 1))
          ((bucket + 1) % s.buckets.length)
          ⟨u.totalProbes + 1, u.totalWrites + 1⟩ := by
  conv_lhs => unfold removeShiftAux
  dsimp only
  match hh : s.meta.hintPsl ((bucket + 1) % s.buckets.length) with
  | none =>
    rw [hread]
    dsimp only
    rw [if_neg hp1]
    try rfl
  | some (.Exact 0) =>
    rw [hread]
    dsimp only
    rw [if_neg hp1]
    try rfl
  | some (.Exact 1) => exact absurd hh hex
  | some (.Exact (p + 2)) =>
    rw [hread]
    dsimp only
    rw [if_neg hp1]
    try rfl
  | some (.AtLeast p) =>
    rw [hread]
    dsimp only
    rw [if_neg hp1]
    try rfl

/-- The backward-shift loop of `RobinHood::remove` terminates from every
state: each continuing pass strictly lowers the potential `shiftPhi`. -/
theorem RobinHood.removeShiftAux_isSome :
    ∀ (fuel : Nat) (s : RobinHood) (bucket : Nat) (u : RHUpdate),
      (bucket < s.buckets.length ∨ s.buckets.length = 0) →
      s.shiftPhi bucket < fuel →
      (removeShiftAux fuel s bucket u).isSome = true := by
  intro fuel
  induction fuel with
  | zero => intro s bucket u _ hf; omega
  | succ fuel ih =>
    intro s bucket u hb hf
    by_cases hex : s.meta.hintPsl ((bucket + 1) % s.buckets.length) = some (.Exact 1)
    · unfold removeShiftAux
      dsimp only
      rw [hex]
      rfl
    · match hread : s.buckets.getD ((bucket + 1) % s.buckets.length) none with
      | none =>
        unfold removeShiftAux
        dsimp only
        match hh : s.meta.hintPsl ((bucket + 1) % s.buckets.length) with
        | none => rw [hread]; rfl
        | some (.Exact 0) => rw [hread]; rfl
        | some (.Exact 1) => exact absurd hh hex
        | some (.Exact (p + 2)) => rw [hread]; rfl
        | some (.AtLeast p) => rw [hread]; rfl
      | some k =>
        by_cases hp1 : s.pslOf k ((bucket + 1) % s.buckets.length) = 1
        · unfold removeShiftAux
          dsimp only
          match hh : s.meta.hintPsl ((bucket + 1) % s.buckets.length) with
          | none =>
            rw [hread]
            dsimp only
            rw [if_pos hp1]
            rfl
          | some (.Exact 0) =>
            rw [hread]
            dsimp only
            rw [if_pos hp1]
            rfl
          | some (.Exact 1) => exact absurd hh hex
          | some (.Exact (p + 2)) =>
            rw [hread]
            dsimp only
            rw [if_pos hp1]
            rfl
          | some (.AtLeast p) =>
            rw [hread]
            dsimp only
            rw [if_pos hp1]
            rfl
        · rw [removeShiftAux_read fuel s bucket u hex k hread hp1]
          apply ih
          · left
            rw [setBucket_nbuckets]
            exact getD_some_lt _ _ _ hread
          · have hq : 2 ≤ s.pslOf k ((bucket + 1) % s.buckets.length) := by
              have := pslOf_pos s k ((bucket + 1) % s.buckets.length)
              omega
            have hbk : bucket < s.buckets.length := by
              have := getD_some_lt _ _ _ hread
              rcases hb with h | h
              · exact h
              · omega
            have hstep := shiftPhi_step s bucket k hbk hread hq
            omega

theorem RobinHood.removeShiftAux_isSome_sq (fuel : Nat) (s : RobinHood)
    (bucket : Nat) (u : RHUpdate)
    (hb : bucket < s.buckets.length ∨ s.buckets.length = 0)
    (hf : s.buckets.length * s.buckets.length < fuel) :
    (removeShiftAux fuel s bucket u).isSome = true := by
  apply removeShiftAux_isSome fuel s bucket u hb
  have h := shiftPhi_le s bucket
  omega

/-- `RobinHood::remove` (probe plus backward-shift) terminates from any
state at `META_BITS = 1`: `capacity^2 + capacity + 2` fuel suffices. -/
theorem RobinHood.remove_isSome (s : RobinHood) (key : Nat)
    (h1 : s.meta.bits = 1) :
    (s.remove (s.buckets.length * s.buckets.length + s.buckets.length + 2)
      key).isSome = true := by
  have hp := probeAux_isSome s key h1
    (s.buckets.length * s.buckets.length + s.buckets.length + 2) 1
    (s.bucketFor key) 0 (by omega) (by omega) (by omega)
  obtain ⟨pr, hpr⟩ := Option.isSome_iff_exists.1 hp
  unfold remove probe
  rw [hpr]
  dsimp only
  rcases Bool.eq_false_or_eq_true pr.contained with hc | hc
  · rw [hc, if_neg (by simp)]
    apply removeShiftAux_isSome_sq
    · rcases Nat.eq_zero_or_pos s.buckets.length with h0 | hpos
      · right
        rw [clearBucket_nbuckets]
        exact h0
      · left
        rw [clearBucket_nbuckets]
        exact Nat.mod_lt _ hpos
    · rw [clearBucket_nbuckets]
      show s.buckets.length * s.buckets.length
        < s.buckets.length * s.buckets.length + s.buckets.length + 2
      omega
  · rw [hc]
    rfl

theorem RobinHood.newTable_sync (capacity : Nat) (h : Nat → Nat) :
    (RobinHood.new capacity h).Sync := by
  refine ⟨rfl, by simp [new, MetaMap.new], ?_⟩
  intro b hb
  have hb' : b < capacity := by simpa [new] using hb
  show (MetaMap.new capacity 1).slice b = _
  unfold MetaMap.slice MetaMap.new
  rw [getD_replicate _ _ _ _ hb']
  rw [show (RobinHood.new capacity h).buckets.getD b none = none from
    getD_replicate _ _ _ _ hb']
  rfl

theorem RobinHood.setBucket_keeps_sync (s : RobinHood) (hs : s.Sync) (t k p : Nat)
    (ht : t < s.buckets.length) : (s.setBucket t k p).Sync := by
  obtain ⟨h1, hlen, hsl⟩ := hs
  have htv : t < s.meta.vec.length := by
    rw [hlen]
    exact ht
  refine ⟨?_, ?_, ?_⟩
  · show (s.meta.setFull t (.Psl p)).bits = 1
    rw [setFull_bits]
    exact h1
  · show (s.meta.setFull t (.Psl p)).vec.length = (s.buckets.set t (some k)).length
    rw [setFull_vecLen]
    simpa using hlen
  · intro b' hb'
    have hb'' : b' < s.buckets.length := by
      rw [setBucket_nbuckets] at hb'
      exact hb'
    by_cases heq : b' = t
    · subst heq
      rw [setBucket_getD_self s b' k p ht]
      show (s.meta.setFull b' (.Psl p)).slice b' = [true]
      exact setFull_slice_one s.meta b' _ htv h1
    · rw [setBucket_getD_ne s t k p b' heq]
      show (s.meta.setFull t (.Psl p)).slice b' = _
      rw [slice_setFull_ne s.meta t _ b' heq]
      exact hsl b' hb''

theorem RobinHood.sync_hintPsl_none (s : RobinHood) (hs : s.Sync) (b : Nat)
    (hb : b < s.buckets.length) (he : s.buckets.getD b none = none) :
    s.meta.hintPsl b = none := by
  obtain ⟨h1, hlen, hsl⟩ := hs
  have hsb := hsl b hb
  rw [he] at hsb
  unfold MetaMap.hintPsl
  rw [if_neg (by omega), if_pos h1, hsb]
  rfl

theorem RobinHood.sync_hintPsl_some (s : RobinHood) (hs : s.Sync) (b k : Nat)
    (hb : b < s.buckets.length) (hk : s.buckets.getD b none = some k) :
    s.meta.hintPsl b = some (.AtLeast 1) := by
  obtain ⟨h1, hlen, hsl⟩ := hs
  have hsb := hsl b hb
  rw [hk] at hsb
  unfold MetaMap.hintPsl
  rw [if_neg (by omega), if_pos h1, hsb]
  rfl

/-- The scan of `RobinHood::insert` advances one bucket per iteration:
the displaced key's scan position continues exactly where the active
scan stood. -/
theorem RobinHood.bucketFor_add_pslOf (s : RobinHood) (k b : Nat)
    (hb : b < s.buckets.length) :
    (s.bucketFor k + s.pslOf k b) % s.buckets.length
      = (b + 1) % s.buckets.length := by
  have hn : 0 < s.buckets.length := by omega
  have hh : s.bucketFor k < s.buckets.length := Nat.mod_lt _ hn
  unfold pslOf
  dsimp only
  split_ifs with hcase
  · rw [show s.bucketFor k + (1 + (b + s.buckets.length - s.bucketFor k))
        = b + 1 + s.buckets.length from by omega]
    rw [Nat.add_mod_right]
  · rw [show s.bucketFor k + (1 + (b - s.bucketFor k)) = b + 1 from by omega]

/-- The loop of `RobinHood::insert` terminates whenever an empty bucket
sits `d` steps ahead of the scan position, in a synchronised table:
every branch either returns or moves one bucket closer. -/
theorem RobinHood.insertAux_isSome (key : Nat) :
    ∀ (fuel : Nat) (s : RobinHood) (active psl d : Nat) (u : RHUpdate),
      s.Sync → 1 ≤ psl →
      s.buckets.getD (((s.bucketFor active + psl - 1) % s.buckets.length + d)
        % s.buckets.length) none = none →
      d < fuel →
      (insertAux key fuel s (s.bucketFor active) active psl u).isSome = true := by
  intro fuel
  induction fuel with
  | zero => intro s active psl d u _ _ _ hdf; omega
  | succ fuel ih =>
    intro s active psl d u hs hpsl hd hdf
    have h1 := hs.1
    by_cases hn0 : s.buckets.length = 0
    · have hvec : s.meta.vec = [] :=
        List.length_eq_zero.1 (hs.2.1.trans hn0)
      have hhint : s.meta.hintPsl
          ((s.bucketFor active + psl - 1) % s.buckets.length) = none := by
        unfold MetaMap.hintPsl
        rw [if_neg (by omega), if_pos h1]
        unfold MetaMap.slice
        rw [hvec]
        rfl
      unfold insertAux
      dsimp only
      rw [hhint]
      rfl
    · have hnpos : 0 < s.buckets.length := by omega
      have hblt : (s.bucketFor active + psl - 1) % s.buckets.length
          < s.buckets.length := Nat.mod_lt _ hnpos
      match hocc : s.buckets.getD
          ((s.bucketFor active + psl - 1) % s.buckets.length) none with
      | none =>
        have hhint := sync_hintPsl_none s hs _ hblt hocc
        unfold insertAux
        dsimp only
        rw [hhint]
        rfl
      | some k0 =>
        have hhint := sync_hintPsl_some s hs _ k0 hblt hocc
        have hd1 : 1 ≤ d := by
          by_contra hlt
          have hd0 : d = 0 := by omega
          rw [hd0, Nat.add_zero, Nat.mod_eq_of_lt hblt] at hd
          rw [hd] at hocc
          exact Option.noConfusion hocc
        unfold insertAux
        dsimp only
        simp only [hhint]
        by_cases hskip : psl ≤ 1
        · rw [if_pos (decide_eq_true hskip)]
          have hpos : ((s.bucketFor active + (psl + 1) - 1) % s.buckets.length
                + (d - 1)) % s.buckets.length
              = ((s.bucketFor active + psl - 1) % s.buckets.length + d)
                % s.buckets.length := by
            rw [Nat.mod_add_mod, Nat.mod_add_mod]
            congr 1
            omega
          exact ih s active (psl + 1) (d - 1) u hs (by omega)
            (by rw [hpos]; exact hd) (by omega)
        · rw [if_neg (by simp only [decide_eq_true_eq]; exact hskip)]
          simp only [hocc]
          by_cases hdup : k0 = active
          · rw [if_pos hdup]
            split_ifs <;> rfl
          · rw [if_neg hdup]
            by_cases hswap : s.pslOf k0
                ((s.bucketFor active + psl - 1) % s.buckets.length) < psl
            · rw [if_pos hswap]
              set bucket := (s.bucketFor active + psl - 1) % s.buckets.length
                with hbdef
              have hlen' := setBucket_nbuckets s bucket active psl
              have hbf : (s.setBucket bucket active psl).bucketFor k0
                  = s.bucketFor k0 :=
                bucketFor_frame s (s.setBucket bucket active psl) rfl hlen' k0
              rw [← hbf]
              refine ih (s.setBucket bucket active psl) k0
                (s.pslOf k0 bucket + 1) (d - 1) _
                (setBucket_keeps_sync s hs bucket active psl hblt) (by omega) ?_
                (by omega)
              rw [hbf, hlen']
              have hkey : ((s.bucketFor k0 + (s.pslOf k0 bucket + 1) - 1)
                    % s.buckets.length + (d - 1)) % s.buckets.length
                  = (bucket + d) % s.buckets.length := by
                rw [show s.bucketFor k0 + (s.pslOf k0 bucket + 1) - 1
                    = s.bucketFor k0 + s.pslOf k0 bucket from by omega]
                rw [bucketFor_add_pslOf s k0 bucket hblt]
                rw [Nat.mod_add_mod]
                congr 1
                omega
              rw [hkey]
              have hne2 : (bucket + d) % s.buckets.length ≠ bucket := by
                intro he
                rw [he] at hd
                rw [hd] at hocc
                exact Option.noConfusion hocc
              rw [setBucket_getD_ne s bucket active psl _ hne2]
              exact hd
            · rw [if_neg hswap]
              have hpos : ((s.bucketFor active + (psl + 1) - 1)
                    % s.buckets.length + (d - 1)) % s.buckets.length
                  = ((s.bucketFor active + psl - 1) % s.buckets.length + d)
                    % s.buckets.length := by
                rw [Nat.mod_add_mod, Nat.mod_add_mod]
                congr 1
                omega
              exact ih s active (psl + 1) (d - 1) _ hs (by omega)
                (by rw [hpos]; exact hd) (by omega)

/-- `RobinHood::insert` into a synchronised table with an empty bucket
terminates: `capacity + 1` loop iterations suffice. -/
theorem RobinHood.insert_isSome (s : RobinHood) (key b0 : Nat) (hs : s.Sync)
    (hb0 : b0 < s.buckets.length) (he : s.buckets.getD b0 none = none) :
    (s.insert (s.buckets.length + 1) key).isSome = true := by
  have hnpos : 0 < s.buckets.length := by omega
  have hbf : s.bucketFor key < s.buckets.length := Nat.mod_lt _ hnpos
  have hpos : ((s.bucketFor key + 1 - 1) % s.buckets.length
      + (b0 + s.buckets.length - s.bucketFor key) % s.buckets.length)
      % s.buckets.length = b0 := by
    rw [Nat.add_sub_cancel, Nat.mod_eq_of_lt hbf, Nat.add_mod_mod,
      show s.bucketFor key + (b0 + s.buckets.length - s.bucketFor key)
        = b0 + s.buckets.length from by omega,
      Nat.add_mod_right, Nat.mod_eq_of_lt hb0]
  have hbfeq : ({ s with len := s.len + 1 } : RobinHood).bucketFor key
      = s.bucketFor key := rfl
  unfold insert
  rw [← hbfeq]
  refine insertAux_isSome key (s.buckets.length + 1)
    { s with len := s.len + 1 } key 1
    ((b0 + s.buckets.length - s.bucketFor key) % s.buckets.length) ⟨0, 1⟩
    hs (le_refl 1) ?_ ?_
  · show s.buckets.getD (((s.bucketFor key + 1 - 1) % s.buckets.length
      + (b0 + s.buckets.length - s.bucketFor key) % s.buckets.length)
      % s.buckets.length) none = none
    rw [hpos]
    exact he
  · show (b0 + s.buckets.length - s.bucketFor key) % s.buckets.length
      < s.buckets.length + 1
    have := Nat.mod_lt (b0 + s.buckets.length - s.bucketFor key) hnpos
    omega

/-- C9 (amended): all operations of the cuckoo-family and triangular
engines are bounded computations (their loops are capped by
`MAX_CHAIN = 128` or by a full scan, as the model's structural
recursion shows; `TriaProb::probe` in particular reports at most
`capacity` probes).  `RobinHood::probe` terminates from any state
within `capacity + 2` loop iterations; `RobinHood::remove` terminates
from any state within `capacity^2 + capacity + 2` iterations (every
backward-shift pass strictly lowers the table's total stored psl until
an empty bucket or a psl-1 key stops it); and `RobinHood::insert` into
a synchronised table with an empty bucket terminates within
`capacity + 1` iterations (the scan advances one bucket per iteration
and places at the first empty bucket).  Only `RobinHood::insert` of a
fresh key into a table filled to full capacity never terminates (see
the counterexample). -/
theorem C9_termination_amended :
    (∀ (s : RobinHood) (key : Nat), s.meta.bits = 1 →
      (s.probe (s.buckets.length + 2) key).isSome = true) ∧
    (∀ (s : RobinHood) (key : Nat), s.meta.bits = 1 →
      (s.remove (s.buckets.length * s.buckets.length + s.buckets.length + 2)
        key).isSome = true) ∧
    (∀ (s : RobinHood) (key b0 : Nat), s.Sync → b0 < s.buckets.length →
      s.buckets.getD b0 none = none →
      (s.insert (s.buckets.length + 1) key).isSome = true) ∧
    (∀ (s : TriaProb) (key : Nat), (s.probe key).probes ≤ s.buckets.length) := by
  refine ⟨?_, ?_, ?_, ?_⟩
  · intro s key h1
    exact RobinHood.probeAux_isSome s key h1 (s.buckets.length + 2) 1
      (s.bucketFor key) 0 (by omega) (by omega) (by omega)
  · intro s key h1
    exact RobinHood.remove_isSome s key h1
  · intro s key b0 hsync hb0 he
    exact RobinHood.insert_isSome s key b0 hsync hb0 he
  · intro s key
    have h := TriaProb.probeSearchAux_probes_le s key (s.hash key)
      (s.hash key % s.buckets.length) s.buckets.length 0 0 0
    unfold TriaProb.probe TriaProb.probeSearch
    simp only
    omega

/-- C9 (witness): the amended statement at concrete states. -/
theorem C9_witness :
    ((RobinHood.new 4 constHash).probe 6 7).isSome = true ∧
    ((RobinHood.new 4 constHash).remove 22 7).isSome = true ∧
    ((RobinHood.new 4 constHash).insert 5 9).isSome = true ∧
    ((TriaProb.new 4 2 constHash).probe 7).probes ≤ 4 :=
  ⟨C9_termination_amended.1 (RobinHood.new 4 constHash) 7 rfl,
   C9_termination_amended.2.1 (RobinHood.new 4 constHash) 7 rfl,
   C9_termination_amended.2.2.1 (RobinHood.new 4 constHash) 9 0
     (RobinHood.newTable_sync 4 constHash) (by decide) rfl,
   C9_termination_amended.2.2.2 (TriaProb.new 4 2 constHash) 7⟩

end RobinHoodTermination

section TriaProbInvariants

namespace TriaProb

theorem getD_value_lt (l : List BucketItem) (i k : Nat)
    (h : l.getD i .Empty = .Value k) : i < l.length := by
  by_contra hge
  rw [List.getD_eq_default l .Empty (by omega)] at h
  cases h

theorem sync_new (capacity metaBits : Nat) (hash : Nat → Nat) :
    (new capacity metaBits hash).Sync := by
  constructor
  · simp [new, MetaMap.new]
  · intro b hb
    have hb' : b < capacity := by simpa [new] using hb
    show MetaMap.slice _ b = _
    unfold MetaMap.slice
    simp only [new, MetaMap.new]
    rw [getD_replicate _ _ _ _ hb', getD_replicate _ _ _ _ hb']
    rfl

/-- The slice of any synced bucket is `[]` when `bits = 0`. -/
theorem slice_nil_of_bits_zero (s : TriaProb) (hs : s.Sync) (b : Nat)
    (hb : b < s.buckets.length) (h0 : s.meta.bits = 0) :
    s.meta.slice b = [] := by
  have := hs.2 b hb
  match hcase : s.buckets.getD b .Empty with
  | .Empty =>
    rw [hcase] at this
    simp only at this
    rw [this]
    unfold metaEmptyPat
    rw [h0]
    rfl
  | .Value k =>
    rw [hcase] at this
    simp only at this
    rw [this]
    unfold metaFullPat
    rw [if_pos h0]
  | .Tombstone =>
    rw [hcase] at this
    simp only at this
    rw [this]
    unfold metaTombPat
    rw [if_pos h0]

theorem setBucket_hash (s : TriaProb) (b : Nat) (item : BucketItem) :
    (s.setBucket b item).hash = s.hash := by
  unfold setBucket
  cases item <;> rfl

theorem setBucket_length (s : TriaProb) (b : Nat) (item : BucketItem) :
    (s.setBucket b item).buckets.length = s.buckets.length := by
  unfold setBucket
  cases item <;> simp

theorem setBucket_seqIdx (s : TriaProb) (b : Nat) (item : BucketItem)
    (key i : Nat) : (s.setBucket b item).seqIdx key i = s.seqIdx key i := by
  unfold seqIdx
  rw [setBucket_hash, setBucket_length]

/-- `set_bucket` with a non-`Empty` item keeps the meta map in sync. -/
theorem sync_setBucket (s : TriaProb) (hs : s.Sync) (b : Nat)
    (hb : b < s.buckets.length) (item : BucketItem) (hne : item ≠ .Empty) :
    (s.setBucket b item).Sync := by
  obtain ⟨hlen, hsl⟩ := hs
  have hbv : b < s.meta.vec.length := by rw [hlen]; exact hb
  have hnil : s.meta.bits = 0 → s.meta.slice b = [] :=
    fun h0 => slice_nil_of_bits_zero s ⟨hlen, hsl⟩ b hb h0
  constructor
  · show (match item with
      | .Value key => s.meta.setFull b (.Hash (s.hash key))
      | .Empty => s.meta
      | .Tombstone => s.meta.setTombstone b).vec.length = _
    rw [setBucket_length]
    cases item with
    | Value k => rw [setFull_vecLen]; exact hlen
    | Empty => exact absurd rfl hne
    | Tombstone => rw [setTombstone_vecLen]; exact hlen
  · intro b' hb'
    rw [setBucket_length] at hb'
    have hgb : (s.setBucket b item).buckets = s.buckets.set b item := by
      unfold setBucket; cases item <;> rfl
    by_cases heq : b' = b
    · subst heq
      rw [hgb, getD_set_self _ _ _ _ hb]
      cases item with
      | Value k =>
        show (s.meta.setFull b' (.Hash (s.hash k))).slice b' = _
        rw [slice_setFull_hash_all _ _ _ hbv hnil]
        rw [show (s.setBucket b' (.Value k)).hash = s.hash from setBucket_hash ..]
        rw [show (s.setBucket b' (.Value k)).meta.bits = s.meta.bits from by
          show (s.meta.setFull b' _).bits = _; rw [setFull_bits]]
      | Empty => exact absurd rfl hne
      | Tombstone =>
        show (s.meta.setTombstone b').slice b' = _
        rw [slice_setTombstone_all _ _ hbv hnil]
        rw [show (s.setBucket b' .Tombstone).meta.bits = s.meta.bits from by
          show (s.meta.setTombstone b').bits = _; rw [setTombstone_bits]]
    · rw [hgb, getD_set_ne _ _ _ _ _ (fun h => heq h.symm)]
      have hold := hsl b' hb'
      cases item with
      | Value k =>
        show (s.meta.setFull b (.Hash (s.hash k))).slice b' = _
        rw [slice_setFull_ne _ _ _ _ heq]
        rw [show (s.setBucket b (.Value k)).hash = s.hash from setBucket_hash ..]
        rw [show (s.setBucket b (.Value k)).meta.bits = s.meta.bits from by
          show (s.meta.setFull b _).bits = _; rw [setFull_bits]]
        exact hold
      | Empty => exact absurd rfl hne
      | Tombstone =>
        show (s.meta.setTombstone b).slice b' = _
        rw [slice_setTombstone_ne _ _ _ heq]
        rw [show (s.setBucket b .Tombstone).meta.bits = s.meta.bits from by
          show (s.meta.setTombstone b).bits = _; rw [setTombstone_bits]]
        exact hold

/-- In a synced state, `probe_search` finds any key satisfying the
searchability invariant, reading at most one bucket per sequence
position up to the key's slot. -/
theorem probeSearchAux_finds (s : TriaProb) (key i0 : Nat)
    (hn : 0 < s.buckets.length) (hs : s.Sync) (hi0 : i0 < s.buckets.length)
    (hv : s.buckets.getD (s.seqIdx key i0) .Empty = .Value key)
    (hne : ∀ j, j < i0 → s.buckets.getD (s.seqIdx key j) .Empty ≠ .Empty) :
    ∀ rem i offset probes, i + rem = s.buckets.length → offset + i = tri i →
      i ≤ i0 →
      ∃ idx probes',
        probeSearchAux s key (s.hash key) (s.hash key % s.buckets.length)
          rem i offset probes = (some idx, probes') ∧
        probes' ≤ probes + (i0 + 1 - i) := by
  intro rem
  induction rem with
  | zero =>
    intro i offset probes hrem hoff hi
    exact ((by omega : False)).elim
  | succ rem ih =>
    intro i offset probes hrem hoff hi
    unfold probeSearchAux
    dsimp only
    have hbi : (s.hash key % s.buckets.length + (offset + i)) % s.buckets.length
        = s.seqIdx key i := by
      unfold seqIdx
      rw [hoff]
    rw [hbi]
    have hblt : s.seqIdx key i < s.buckets.length := Nat.mod_lt _ hn
    have hsl := hs.2 (s.seqIdx key i) hblt
    by_cases hii : i = i0
    · subst hii
      match hitem : s.buckets.getD (s.seqIdx key i) .Empty with
      | .Empty => rw [hv] at hitem; simp at hitem
      | .Tombstone => rw [hv] at hitem; simp at hitem
      | .Value k' =>
        have hk' : k' = key := by
          rw [hv] at hitem
          injection hitem.symm
        subst hk'
        rw [hitem] at hsl
        simp only at hsl
        rw [hintEmpty_fullPat _ _ _ hsl]
        rw [hintNotMatch_fullPat_same _ _ _ hsl]
        simp only [Bool.not_false, if_true, Bool.false_eq_true, if_false]
        exact ⟨_, _, rfl, by omega⟩
    · have hilt : i < i0 := by omega
      have hnei := hne i hilt
      match hitem : s.buckets.getD (s.seqIdx key i) .Empty with
      | .Empty => exact absurd hitem hnei
      | .Value k' =>
        rw [hitem] at hsl
        simp only at hsl
        rw [hintEmpty_fullPat _ _ _ hsl]
        simp only [Bool.false_eq_true, if_false]
        by_cases hm : s.meta.hintNotMatch (s.seqIdx key i) (s.hash key) = true
        · rw [hm]
          simp only [Bool.not_true, Bool.false_eq_true, if_false]
          obtain ⟨idx, p', heq, hle⟩ := ih (i + 1) (offset + i) probes
            (by omega) (by unfold tri; omega) (by omega)
          exact ⟨idx, p', heq, by omega⟩
        · rw [Bool.not_eq_true] at hm
          rw [hm]
          simp only [Bool.not_false, if_true]
          by_cases hkk : key = k'
          · rw [if_pos hkk]
            exact ⟨_, _, rfl, by omega⟩
          · rw [if_neg hkk]
            obtain ⟨idx, p', heq, hle⟩ := ih (i + 1) (offset + i) (probes + 1)
              (by omega) (by unfold tri; omega) (by omega)
            exact ⟨idx, p', heq, by omega⟩
      | .Tombstone =>
        rw [hitem] at hsl
        simp only at hsl
        rw [hintEmpty_tombPat _ _ hsl]
        simp only [Bool.false_eq_true, if_false]
        rw [hintNotMatch_tombPat _ _ (s.hash key) hsl]
        by_cases hb2 : 2 ≤ s.meta.bits
        · rw [decide_eq_true hb2]
          simp only [Bool.not_true, Bool.false_eq_true, if_false]
          obtain ⟨idx, p', heq, hle⟩ := ih (i + 1) (offset + i) probes
            (by omega) (by unfold tri; omega) (by omega)
          exact ⟨idx, p', heq, by omega⟩
        · rw [decide_eq_false hb2]
          simp only [Bool.not_false, if_true]
          obtain ⟨idx, p', heq, hle⟩ := ih (i + 1) (offset + i) (probes + 1)
            (by omega) (by unfold tri; omega) (by omega)
          exact ⟨idx, p', heq, by omega⟩

/-- In a synced state, whatever slot `probe_insert` returns lies on the
key's sequence, holds `Empty`, `Tombstone` or the key itself, and has
no `Empty` slot strictly before it. -/
theorem probeInsertAux_spec (s : TriaProb) (key : Nat)
    (hn : 0 < s.buckets.length) (hs : s.Sync) :
    ∀ rem i offset probes idx pr,
      i + rem = s.buckets.length → offset + i = tri i →
      (∀ j, j < i → s.buckets.getD (s.seqIdx key j) .Empty ≠ .Empty) →
      probeInsertAux s key (s.hash key) (s.hash key % s.buckets.length)
        rem i offset probes = (some idx, pr) →
      ∃ i1, i ≤ i1 ∧ i1 < s.buckets.length ∧ idx = s.seqIdx key i1 ∧
        (s.buckets.getD idx .Empty = .Empty ∨
          s.buckets.getD idx .Empty = .Tombstone ∨
          s.buckets.getD idx .Empty = .Value key) ∧
        (∀ j, j < i1 → s.buckets.getD (s.seqIdx key j) .Empty ≠ .Empty) := by
  intro rem
  induction rem with
  | zero =>
    intro i offset probes idx pr _ _ _ h
    exact absurd h (by simp [probeInsertAux])
  | succ rem ih =>
    intro i offset probes idx pr hrem hoff hpre h
    unfold probeInsertAux at h
    dsimp only at h
    have hbi : (s.hash key % s.buckets.length + (offset + i)) % s.buckets.length
        = s.seqIdx key i := by
      unfold seqIdx
      rw [hoff]
    rw [hbi] at h
    have hblt : s.seqIdx key i < s.buckets.length := Nat.mod_lt _ hn
    have hsl := hs.2 (s.seqIdx key i) hblt
    have hstep : ∀ j, j < i + 1 → s.buckets.getD (s.seqIdx key j) .Empty ≠ .Empty →
      True := fun _ _ _ => trivial
    match hitem : s.buckets.getD (s.seqIdx key i) .Empty with
    | .Empty =>
      rw [hitem] at hsl
      simp only at hsl
      rw [hintEmpty_emptyPat _ _ hsl, hintTombstone_emptyPat _ _ hsl] at h
      by_cases hb1 : 1 ≤ s.meta.bits
      · rw [decide_eq_true hb1] at h
        simp only [Bool.true_or, if_true] at h
        cases h
        exact ⟨i, le_refl i, by omega, rfl, Or.inl hitem, hpre⟩
      · rw [decide_eq_false hb1] at h
        simp only [Bool.or_self, Bool.false_eq_true, if_false] at h
        have hb0 : s.meta.bits = 0 := by omega
        rw [hintNotMatch_emptyPat _ _ (s.hash key) hsl, decide_eq_false hb1] at h
        simp only [Bool.not_false, if_true] at h
        rw [hitem] at h
        simp only at h
        cases h
        exact ⟨i, le_refl i, by omega, rfl, Or.inl hitem, hpre⟩
    | .Value k' =>
      rw [hitem] at hsl
      simp only at hsl
      rw [hintEmpty_fullPat _ _ _ hsl, hintTombstone_fullPat _ _ _ hsl] at h
      simp only [Bool.or_self, Bool.false_eq_true, if_false] at h
      have hpre' : ∀ j, j < i + 1 → s.buckets.getD (s.seqIdx key j) .Empty ≠ .Empty := by
        intro j hj
        by_cases hji : j = i
        · subst hji
          rw [hitem]
          simp
        · exact hpre j (by omega)
      by_cases hm : s.meta.hintNotMatch (s.seqIdx key i) (s.hash key) = true
      · rw [hm] at h
        simp only [Bool.not_true, Bool.false_eq_true, if_false] at h
        obtain ⟨i1, hi1, hlt1, heq1, hcon1, hpre1⟩ := ih (i + 1) (offset + i)
          probes idx pr (by omega) (by unfold tri; omega) hpre' h
        exact ⟨i1, by omega, hlt1, heq1, hcon1, hpre1⟩
      · rw [Bool.not_eq_true] at hm
        rw [hm] at h
        simp only [Bool.not_false, if_true] at h
        rw [hitem] at h
        simp only at h
        by_cases hkk : key = k'
        · rw [if_pos hkk] at h
          cases h
          exact ⟨i, le_refl i, by omega, rfl, Or.inr (Or.inr (by rw [hitem, hkk])),
            hpre⟩
        · rw [if_neg hkk] at h
          obtain ⟨i1, hi1, hlt1, heq1, hcon1, hpre1⟩ := ih (i + 1) (offset + i)
            (probes + 1) idx pr (by omega) (by unfold tri; omega) hpre' h
          exact ⟨i1, by omega, hlt1, heq1, hcon1, hpre1⟩
    | .Tombstone =>
      rw [hitem] at hsl
      simp only at hsl
      rw [hintEmpty_tombPat _ _ hsl, hintTombstone_tombPat _ _ hsl] at h
      have hpre' : ∀ j, j < i + 1 → s.buckets.getD (s.seqIdx key j) .Empty ≠ .Empty := by
        intro j hj
        by_cases hji : j = i
        · subst hji
          rw [hitem]
          simp
        · exact hpre j (by omega)
      by_cases hb2 : 2 ≤ s.meta.bits
      · rw [decide_eq_true hb2] at h
        simp only [Bool.or_true, if_true] at h
        cases h
        exact ⟨i, le_refl i, by omega, rfl, Or.inr (Or.inl hitem), hpre⟩
      · rw [decide_eq_false hb2] at h
        simp only [Bool.or_self, Bool.false_eq_true, if_false] at h
        rw [hintNotMatch_tombPat _ _ (s.hash key) hsl, decide_eq_false hb2] at h
        simp only [Bool.not_false, if_true] at h
        rw [hitem] at h
        simp only at h
        cases h
        exact ⟨i, le_refl i, by omega, rfl, Or.inr (Or.inl hitem), hpre⟩

/-- A completed `insert` preserves the reachability invariant, the new
key joining the live set. -/
theorem insert_inv (s : TriaProb) (live : List Nat) (key : Nat)
    (hinv : s.Inv live) (hc : (s.insert key).2.completed = true) :
    (s.insert key).1.Inv (key :: live) := by
  obtain ⟨hn, hsync, hfind⟩ := hinv
  match hpi : s.probeInsert key with
  | (none, p) =>
    have : (s.insert key).2.completed = false := by
      unfold insert
      rw [hpi]
    rw [this] at hc
    cases hc
  | (some idx, p) =>
    have hs' : (s.insert key).1
        = setBucket { s with len := s.len + 1 } idx (.Value key) := by
      unfold insert
      rw [hpi]
    obtain ⟨i1, _, hi1lt, hidx, hcon, hpre⟩ :=
      probeInsertAux_spec s key hn hsync s.buckets.length 0 0 0 idx p
        (by omega) rfl (fun j hj => absurd hj (by omega)) hpi
    have hidxlt : idx < s.buckets.length := by
      rw [hidx]
      exact Nat.mod_lt _ hn
    rw [hs']
    refine ⟨by rw [setBucket_length]; exact hn, ?_, ?_⟩
    · exact sync_setBucket { s with len := s.len + 1 } hsync idx hidxlt _ (by simp)
    · intro k' hk'
      have hbuf : (setBucket { s with len := s.len + 1 } idx (.Value key)).buckets
          = s.buckets.set idx (.Value key) := rfl
      have hseq : ∀ kk i, (setBucket { s with len := s.len + 1 } idx
          (.Value key)).seqIdx kk i = s.seqIdx kk i :=
        fun kk i => setBucket_seqIdx _ _ _ kk i
      rcases List.mem_cons.1 hk' with hkk | hkk
      · subst hkk
        refine ⟨i1, ?_, ?_, ?_⟩
        · rw [setBucket_length]
          exact hi1lt
        · rw [hseq, hbuf, ← hidx, getD_set_self _ _ _ _ hidxlt]
        · intro j hj
          rw [hseq, hbuf]
          by_cases hje : s.seqIdx k' j = idx
          · rw [hje, getD_set_self _ _ _ _ hidxlt]
            simp
          · rw [getD_set_ne _ _ _ _ _ (fun hx => hje hx.symm)]
            exact hpre j hj
      · obtain ⟨i', hi'lt, hv', hne'⟩ := hfind k' hkk
        refine ⟨i', ?_, ?_, ?_⟩
        · rw [setBucket_length]
          exact hi'lt
        · rw [hseq, hbuf]
          by_cases hje : s.seqIdx k' i' = idx
          · have hck : k' = key := by
              rw [hje] at hv'
              rcases hcon with hcc | hcc | hcc <;> rw [hv'] at hcc
              · cases hcc
              · cases hcc
              · injection hcc
            rw [hje, getD_set_self _ _ _ _ hidxlt, hck]
          · rw [getD_set_ne _ _ _ _ _ (fun hx => hje hx.symm)]
            exact hv'
        · intro j hj
          rw [hseq, hbuf]
          by_cases hje : s.seqIdx k' j = idx
          · rw [hje, getD_set_self _ _ _ _ hidxlt]
            simp
          · rw [getD_set_ne _ _ _ _ _ (fun hx => hje hx.symm)]
            exact hne' j hj

/-- A completed `remove` preserves the invariant, the key leaving the
live set. -/
theorem remove_inv (s : TriaProb) (live : List Nat) (key : Nat)
    (hinv : s.Inv live) (hc : (s.remove key).2.completed = true) :
    (s.remove key).1.Inv (live.filter (fun j => j ≠ key)) := by
  obtain ⟨hn, hsync, hfind⟩ := hinv
  match hps : s.probeSearch key with
  | (none, p) =>
    have : (s.remove key).2.completed = false := by
      unfold remove
      rw [hps]
    rw [this] at hc
    cases hc
  | (some idx, p) =>
    have hv : s.buckets.getD idx .Empty = .Value key :=
      probeSearchAux_some_value s key _ _ _ _ _ _ _ _ hps
    have hidxlt : idx < s.buckets.length := getD_value_lt _ _ _ hv
    have hs' : (s.remove key).1
        = setBucket { s with len := s.len - 1 } idx .Tombstone := by
      unfold remove
      rw [hps]
    rw [hs']
    refine ⟨by rw [setBucket_length]; exact hn, ?_, ?_⟩
    · exact sync_setBucket { s with len := s.len - 1 } hsync idx hidxlt _ (by simp)
    · intro k' hk'
      obtain ⟨hk'mem, hk'ne⟩ := List.mem_filter.1 hk'
      have hk'key : k' ≠ key := by simpa using hk'ne
      obtain ⟨i', hi'lt, hv', hne'⟩ := hfind k' hk'mem
      have hbuf : (setBucket { s with len := s.len - 1 } idx .Tombstone).buckets
          = s.buckets.set idx .Tombstone := rfl
      have hseq : ∀ kk i, (setBucket { s with len := s.len - 1 } idx
          .Tombstone).seqIdx kk i = s.seqIdx kk i :=
        fun kk i => setBucket_seqIdx _ _ _ kk i
      refine ⟨i', ?_, ?_, ?_⟩
      · rw [setBucket_length]
        exact hi'lt
      · rw [hseq, hbuf]
        have hje : s.seqIdx k' i' ≠ idx := by
          intro hje
          rw [hje, hv] at hv'
          have hkey : key = k' := by injection hv'
          exact hk'key hkey.symm
        rw [getD_set_ne _ _ _ _ _ (fun hx => hje hx.symm)]
        exact hv'
      · intro j hj
        rw [hseq, hbuf]
        by_cases hje : s.seqIdx k' j = idx
        · rw [hje, getD_set_self _ _ _ _ hidxlt]
          simp
        · rw [getD_set_ne _ _ _ _ _ (fun hx => hje hx.symm)]
          exact hne' j hj

theorem runOp_inv (s : TriaProb) (live : List Nat) (op : TOp)
    (hinv : s.Inv live) (hc : (s.runOp op).2 = true) :
    (s.runOp op).1.Inv (opStep live op) := by
  match op with
  | .prb k => exact hinv
  | .ins k => exact insert_inv s live k hinv hc
  | .rem k => exact remove_inv s live k hinv hc

theorem runOps_inv : ∀ (ops : List TOp) (s : TriaProb) (live : List Nat),
    s.Inv live → (s.runOps ops).2 = true →
    (s.runOps ops).1.Inv (ops.foldl opStep live) := by
  intro ops
  induction ops with
  | nil => intro s live hinv _; exact hinv
  | cons op rest ih =>
    intro s live hinv hc
    have hc12 : (s.runOp op).2 = true ∧ ((s.runOp op).1.runOps rest).2 = true := by
      have heq : (s.runOps (op :: rest)).2
          = ((s.runOp op).2 && ((s.runOp op).1.runOps rest).2) := rfl
      rw [heq, Bool.and_eq_true] at hc
      exact hc
    have hstep := runOp_inv s live op hinv hc12.1
    have := ih (s.runOp op).1 (opStep live op) hstep hc12.2
    exact this

theorem setBucket_len_frame (s : TriaProb) (b : Nat) (item : BucketItem) :
    (s.setBucket b item).buckets.length = s.buckets.length :=
  setBucket_length s b item

theorem runOp_length (s : TriaProb) (op : TOp) :
    (s.runOp op).1.buckets.length = s.buckets.length := by
  match op with
  | .prb k => rfl
  | .ins k =>
    show (s.insert k).1.buckets.length = _
    unfold insert
    match hpi : s.probeInsert k with
    | (none, p) => rfl
    | (some idx, p) => exact setBucket_length _ _ _
  | .rem k =>
    show (s.remove k).1.buckets.length = _
    unfold remove
    match hps : s.probeSearch k with
    | (none, p) => rfl
    | (some idx, p) => exact setBucket_length _ _ _

theorem runOps_length : ∀ (ops : List TOp) (s : TriaProb),
    (s.runOps ops).1.buckets.length = s.buckets.length := by
  intro ops
  induction ops with
  | nil => intro s; rfl
  | cons op rest ih =>
    intro s
    show ((s.runOp op).1.runOps rest).1.buckets.length = _
    rw [ih]
    exact runOp_length s op

theorem inv_new (capacity metaBits : Nat) (hash : Nat → Nat)
    (hcap : 0 < capacity) : (new capacity metaBits hash).Inv [] :=
  ⟨by simpa [new] using hcap, sync_new capacity metaBits hash,
    fun k hk => absurd hk (by simp)⟩

/-- C1 (amended), TriaProb half: after any run of driver operations in
which every operation completed, every live key is found by `probe`
with `contained = true` — but the probe bound is the capacity, not
`MAX_CHAIN = 128`. -/
theorem run_finds (cap metaBits : Nat) (hash : Nat → Nat) (ops : List TOp)
    (hcap : 0 < cap)
    (hrun : ((new cap metaBits hash).runOps ops).2 = true) :
    ∀ k ∈ opsLive ops,
      (((new cap metaBits hash).runOps ops).1.probe k).contained = true ∧
      (((new cap metaBits hash).runOps ops).1.probe k).probes ≤ cap := by
  intro k hk
  have hinv := runOps_inv ops (new cap metaBits hash) []
    (inv_new cap metaBits hash hcap) hrun
  have hlen : ((new cap metaBits hash).runOps ops).1.buckets.length = cap := by
    rw [runOps_length]
    simp [new]
  obtain ⟨i0, hi0, hv, hne⟩ := hinv.2.2 k hk
  obtain ⟨idx, p', heq, hle⟩ :=
    probeSearchAux_finds _ k i0 hinv.1 hinv.2.1 hi0 hv hne
      ((new cap metaBits hash).runOps ops).1.buckets.length 0 0 0
      (by omega) rfl (by omega)
  unfold probe probeSearch
  rw [heq]
  refine ⟨rfl, ?_⟩
  show p' ≤ cap
  omega

end TriaProb

end TriaProbInvariants

section CuckooInvariants

namespace Cuckoo

theorem setBucket_hashers (s : Cuckoo) (b k h : Nat) :
    (s.setBucket b k h).hashers = s.hashers := rfl

theorem setBucket_size (s : Cuckoo) (b k h : Nat) :
    (s.setBucket b k h).buckets.length = s.buckets.length := by
  show (s.buckets.set b (some k)).length = _
  simp

theorem clearBucket_hashers (s : Cuckoo) (b : Nat) :
    (s.clearBucket b).hashers = s.hashers := rfl

theorem clearBucket_size (s : Cuckoo) (b : Nat) :
    (s.clearBucket b).buckets.length = s.buckets.length := by
  show (s.buckets.set b none).length = _
  simp

theorem bucketsFor_frame (s s' : Cuckoo) (hh : s'.hashers = s.hashers)
    (hl : s'.buckets.length = s.buckets.length) (k : Nat) :
    s'.bucketsFor k = s.bucketsFor k := by
  unfold bucketsFor
  rw [hh, hl]

theorem hashA_frame (s s' : Cuckoo) (hh : s'.hashers = s.hashers) (k : Nat) :
    s'.hashA k = s.hashA k := by
  unfold hashA
  rw [hh]

theorem slice_of_none (s : Cuckoo) (hs : s.Sync) (b : Nat)
    (hb : b < s.buckets.length) (hk : s.buckets.getD b none = none) :
    s.meta.slice b = metaEmptyPat s.meta.bits := by
  have := hs.2 b hb
  rw [hk] at this
  exact this

theorem slice_empty_of_bits_zero (s : Cuckoo) (hs : s.Sync) (b : Nat)
    (hb : b < s.buckets.length) (h0 : s.meta.bits = 0) :
    s.meta.slice b = [] := by
  have := hs.2 b hb
  match hcase : s.buckets.getD b none with
  | none =>
    rw [hcase] at this
    simp only at this
    rw [this]
    unfold metaEmptyPat
    rw [h0]
    rfl
  | some k =>
    rw [hcase] at this
    simp only at this
    rw [this]
    unfold metaFullPat
    rw [if_pos h0]

theorem getD_none_of_hintEmpty (s : Cuckoo) (hs : s.Sync) (b : Nat)
    (hb : b < s.buckets.length) (he : s.meta.hintEmpty b = true) :
    s.buckets.getD b none = none := by
  match hcase : s.buckets.getD b none with
  | none => rfl
  | some k =>
    have := hintEmpty_fullPat _ b _ (slice_of_stored s hs b k hb hcase)
    rw [this] at he
    cases he

theorem setBucket_sync (s : Cuckoo) (hs : s.Sync) (b k : Nat)
    (hb : b < s.buckets.length) :
    (s.setBucket b k (s.hashA k)).Sync := by
  obtain ⟨hlen, hsl⟩ := hs
  have hbv : b < s.meta.vec.length := by rw [hlen]; exact hb
  have hnil : s.meta.bits = 0 → s.meta.slice b = [] :=
    fun h0 => slice_empty_of_bits_zero s ⟨hlen, hsl⟩ b hb h0
  constructor
  · show (s.meta.setFull b (.Hash (s.hashA k))).vec.length
      = (s.buckets.set b (some k)).length
    rw [setFull_vecLen]
    simpa using hlen
  · intro b' hb'
    have hb'' : b' < s.buckets.length := by
      rw [setBucket_size] at hb'
      exact hb'
    show (s.meta.setFull b (.Hash (s.hashA k))).slice b' = _
    by_cases heq : b' = b
    · subst heq
      rw [slice_setFull_hash_all _ _ _ hbv hnil]
      show _ = (match (s.buckets.set b' (some k)).getD b' none with
        | none => metaEmptyPat (s.meta.setFull b' (.Hash (s.hashA k))).bits
        | some kk => metaFullPat (s.meta.setFull b' (.Hash (s.hashA k))).bits
            ((s.setBucket b' k (s.hashA k)).hashA kk))
      rw [getD_set_self _ _ _ _ hb]
      simp only
      rw [setFull_bits]
      rfl
    · rw [slice_setFull_ne _ _ _ _ heq]
      have hold := hsl b' hb''
      show _ = (match (s.buckets.set b (some k)).getD b' none with
        | none => metaEmptyPat (s.meta.setFull b (.Hash (s.hashA k))).bits
        | some kk => metaFullPat (s.meta.setFull b (.Hash (s.hashA k))).bits
            ((s.setBucket b k (s.hashA k)).hashA kk))
      rw [getD_set_ne _ _ _ _ _ (fun hx => heq hx.symm)]
      rw [hold]
      match s.buckets.getD b' none with
      | none => rw [setFull_bits]
      | some kk =>
        rw [setFull_bits]
        exact rfl

theorem clearBucket_sync (s : Cuckoo) (hs : s.Sync) (b : Nat)
    (hb : b < s.buckets.length) : (s.clearBucket b).Sync := by
  obtain ⟨hlen, hsl⟩ := hs
  have hbv : b < s.meta.vec.length := by rw [hlen]; exact hb
  have hnil : s.meta.bits = 0 → s.meta.slice b = [] :=
    fun h0 => slice_empty_of_bits_zero s ⟨hlen, hsl⟩ b hb h0
  constructor
  · show (s.meta.setEmpty b).vec.length = (s.buckets.set b none).length
    rw [setEmpty_vecLen]
    simpa using hlen
  · intro b' hb'
    have hb'' : b' < s.buckets.length := by
      rw [clearBucket_size] at hb'
      exact hb'
    show (s.meta.setEmpty b).slice b' = _
    by_cases heq : b' = b
    · subst heq
      rw [slice_setEmpty_all _ _ hbv hnil]
      show _ = (match (s.buckets.set b' none).getD b' none with
        | none => metaEmptyPat (s.meta.setEmpty b').bits
        | some kk => metaFullPat (s.meta.setEmpty b').bits
            ((s.clearBucket b').hashA kk))
      rw [getD_set_self _ _ _ _ hb]
      simp only
      rw [setEmpty_bits]
    · rw [slice_setEmpty_ne _ _ _ heq]
      have hold := hsl b' hb''
      show _ = (match (s.buckets.set b none).getD b' none with
        | none => metaEmptyPat (s.meta.setEmpty b).bits
        | some kk => metaFullPat (s.meta.setEmpty b).bits
            ((s.clearBucket b).hashA kk))
      rw [getD_set_ne _ _ _ _ _ (fun hx => heq hx.symm)]
      rw [hold]
      match s.buckets.getD b' none with
      | none => rw [setEmpty_bits]
      | some kk =>
        rw [setEmpty_bits]
        exact rfl

theorem new_sync (capacity metaBits : Nat) (hashers : List (Nat → Nat)) :
    (new capacity metaBits hashers).Sync := by
  constructor
  · simp [new, MetaMap.new]
  · intro b hb
    have hb' : b < capacity := by simpa [new] using hb
    show MetaMap.slice _ b = _
    unfold MetaMap.slice
    simp only [new, MetaMap.new]
    rw [getD_replicate _ _ _ _ hb', getD_replicate _ _ _ _ hb']
    rfl

/-- Writing `active` over an empty target bucket of its pair keeps the
meta map synced, stores `active`, and keeps every other stored key
stored. -/
theorem setBucket_stores (s : Cuckoo) (active h a b t : Nat)
    (hsync : s.Sync) (hinfo : s.bucketsFor active = some (h, a, b))
    (htn : t < s.buckets.length) (ht2 : t = a ∨ t = b)
    (hte : s.buckets.getD t none = none) (hh : h = s.hashA active) :
    (s.setBucket t active h).Sync ∧
    (s.setBucket t active h).KeyStored active ∧
    ∀ j, s.KeyStored j → (s.setBucket t active h).KeyStored j := by
  refine ⟨?_, ?_, ?_⟩
  · rw [hh]
    exact setBucket_sync s hsync t active htn
  · refine ⟨h, a, b, ?_, ?_⟩
    · rw [bucketsFor_frame s (s.setBucket t active h) rfl (setBucket_size s t active h)]
      exact hinfo
    · show (s.buckets.set t (some active)).getD a none = some active ∨
        (s.buckets.set t (some active)).getD b none = some active
      rcases ht2 with h2 | h2
      · left
        rw [← h2]
        exact getD_set_self _ _ _ _ htn
      · right
        rw [← h2]
        exact getD_set_self _ _ _ _ htn
  · intro j hstj
    obtain ⟨hj', aj, bj, hrj, horj⟩ := hstj
    refine ⟨hj', aj, bj, ?_, ?_⟩
    · rw [bucketsFor_frame s (s.setBucket t active h) rfl (setBucket_size s t active h)]
      exact hrj
    · have hpres : ∀ c, s.buckets.getD c none = some j →
          (s.buckets.set t (some active)).getD c none = some j := by
        intro c hcj
        have hct : t ≠ c := by
          intro he
          rw [← he, hte] at hcj
          cases hcj
        rw [getD_set_ne _ _ _ _ _ hct]
        exact hcj
      rcases horj with hcj | hcj
      · exact Or.inl (hpres _ hcj)
      · exact Or.inr (hpres _ hcj)

/-- The eviction chain of `Cuckoo::insert` preserves sync and, on every
`completed = true` return, keeps every key of the ledger `L` stored
(where a ledger key is either the in-flight key or already stored). -/
theorem insertChain_spec (key : Nat) (L : List Nat) :
    ∀ (fuel : Nat) (s : Cuckoo) (active h a b : Nat) (useA : Bool) (u : Update)
      (s' : Cuckoo) (u' : Update),
      0 < s.buckets.length → s.Sync →
      (∀ kk, (s.bucketsFor kk).isSome = true) →
      s.bucketsFor active = some (h, a, b) →
      (∀ j ∈ L, j = active ∨ s.KeyStored j) →
      insertChain key fuel s active useA (h, a, b) u = some (s', u') →
      u'.completed = true →
      s'.hashers = s.hashers ∧ s'.buckets.length = s.buckets.length ∧
        s'.Sync ∧ ∀ j ∈ L, s'.KeyStored j := by
  intro fuel
  induction fuel with
  | zero =>
    intro s active h a b useA u s' u' _ _ _ _ _ hch hc
    rw [show insertChain key 0 s active useA (h, a, b) u
        = some (s, { u with completed := false }) from rfl] at hch
    injection hch with hp
    have h2 : ({ u with completed := false } : Update) = u' := congrArg Prod.snd hp
    rw [← h2] at hc
    exact Bool.noConfusion hc
  | succ fuel ih =>
    intro s active h a b useA u s' u' hn hsync hders hinfo hL hch hc
    obtain ⟨hh, hha, hba, hbnd⟩ := bucketsFor_spec s active h a b hinfo
    obtain ⟨haltn, hbltn⟩ := hbnd hn
    unfold insertChain at hch
    dsimp only at hch
    generalize htdef : (if useA = true then a else b) = t at hch
    have ht2 : t = a ∨ t = b := by
      cases useA
      · right
        rw [← htdef]
        rfl
      · left
        rw [← htdef]
        rfl
    have htn : t < s.buckets.length := by
      rcases ht2 with h2 | h2
      · rw [h2]; exact haltn
      · rw [h2]; exact hbltn
    by_cases hhe : s.meta.hintEmpty t = true
    · rw [if_pos hhe] at hch
      injection hch with hp
      have hs2 : s.setBucket t active h = s' := congrArg Prod.fst hp
      have hte : s.buckets.getD t none = none := getD_none_of_hintEmpty s hsync t htn hhe
      obtain ⟨hsy', hsta, hstp⟩ := setBucket_stores s active h a b t hsync hinfo htn ht2 hte hh
      subst hs2
      refine ⟨rfl, setBucket_size s t active h, hsy', ?_⟩
      intro j hj
      rcases hL j hj with hja | hstj
      · rw [hja]
        exact hsta
      · exact hstp j hstj
    · rw [if_neg hhe] at hch
      match hread : s.buckets.getD t none with
      | none =>
        rw [hread] at hch
        simp only at hch
        injection hch with hp
        have hs2 : s.setBucket t active h = s' := congrArg Prod.fst hp
        obtain ⟨hsy', hsta, hstp⟩ :=
          setBucket_stores s active h a b t hsync hinfo htn ht2 hread hh
        subst hs2
        refine ⟨rfl, setBucket_size s t active h, hsy', ?_⟩
        intro j hj
        rcases hL j hj with hja | hstj
        · rw [hja]
          exact hsta
        · exact hstp j hstj
      | some kk =>
        rw [hread] at hch
        simp only at hch
        by_cases hkact : kk = active
        · rw [if_pos hkact] at hch
          injection hch with hp
          have hs2 : ({ s with len := s.len - 1 } : Cuckoo) = s' := congrArg Prod.fst hp
          subst hs2
          refine ⟨rfl, rfl, hsync, ?_⟩
          intro j hj
          rcases hL j hj with hja | hstj
          · rw [hja]
            refine ⟨h, a, b, hinfo, ?_⟩
            show s.buckets.getD a none = some active ∨ s.buckets.getD b none = some active
            rcases ht2 with h2 | h2
            · left
              rw [← h2, hread, hkact]
            · right
              rw [← h2, hread, hkact]
          · exact hstj
        · rw [if_neg hkact] at hch
          have hsy1 : (s.setBucket t active h).Sync := by
            rw [hh]
            exact setBucket_sync s hsync t active htn
          have hn1 : 0 < (s.setBucket t active h).buckets.length := by
            rw [setBucket_size]
            exact hn
          have hders1 : ∀ k2, ((s.setBucket t active h).bucketsFor k2).isSome = true := by
            intro k2
            rw [bucketsFor_frame s (s.setBucket t active h) rfl (setBucket_size s t active h)]
            exact hders k2
          match hinfo2 : (s.setBucket t active h).bucketsFor kk with
          | none =>
            have hcon := hders1 kk
            rw [hinfo2] at hcon
            cases hcon
          | some (h2, a2, b2) =>
            rw [hinfo2] at hch
            simp only at hch
            have hL1 : ∀ j ∈ L, j = kk ∨ (s.setBucket t active h).KeyStored j := by
              intro j hj
              rcases hL j hj with hja | hstj
              · right
                rw [hja]
                refine ⟨h, a, b, ?_, ?_⟩
                · rw [bucketsFor_frame s (s.setBucket t active h) rfl
                    (setBucket_size s t active h)]
                  exact hinfo
                · show (s.buckets.set t (some active)).getD a none = some active ∨
                    (s.buckets.set t (some active)).getD b none = some active
                  rcases ht2 with h2' | h2'
                  · left
                    rw [← h2']
                    exact getD_set_self _ _ _ _ htn
                  · right
                    rw [← h2']
                    exact getD_set_self _ _ _ _ htn
              · obtain ⟨hj', aj, bj, hrj, horj⟩ := hstj
                by_cases hjkk : j = kk
                · exact Or.inl hjkk
                · right
                  refine ⟨hj', aj, bj, ?_, ?_⟩
                  · rw [bucketsFor_frame s (s.setBucket t active h) rfl
                      (setBucket_size s t active h)]
                    exact hrj
                  · have hpres : ∀ c, s.buckets.getD c none = some j →
                        (s.buckets.set t (some active)).getD c none = some j := by
                      intro c hcj
                      have hct : t ≠ c := by
                        intro he
                        rw [← he, hread] at hcj
                        injection hcj with hkj
                        exact hjkk hkj.symm
                      rw [getD_set_ne _ _ _ _ _ hct]
                      exact hcj
                    rcases horj with hcj | hcj
                    · exact Or.inl (hpres _ hcj)
                    · exact Or.inr (hpres _ hcj)
            obtain ⟨hh1, hl1, hsyr, hstr⟩ := ih (s.setBucket t active h) kk h2 a2 b2
              _ _ s' u' hn1 hsy1 hders1 hinfo2 hL1 hch hc
            exact ⟨hh1.trans rfl, hl1.trans (setBucket_size s t active h), hsyr, hstr⟩

/-- In a synced state that stores `key`, `probe` finds it in at most two
bucket probes. -/
theorem probe_finds (s : Cuckoo) (key : Nat) (hn : 0 < s.buckets.length)
    (hsync : s.Sync) (hst : s.KeyStored key) :
    ∃ p, s.probe key = some ⟨true, p⟩ ∧ p ≤ 2 := by
  obtain ⟨h, a, b, hr, hor⟩ := hst
  obtain ⟨hh, hha, hba, hbnd⟩ := bucketsFor_spec s key h a b hr
  obtain ⟨haltn, hbltn⟩ := hbnd hn
  by_cases hka : s.buckets.getD a none = some key
  · refine ⟨1, ?_, by omega⟩
    have hnma : s.meta.hintNotMatch a h = false := by
      rw [hh]
      exact hintNotMatch_fullPat_same _ _ _ (slice_of_stored s hsync a key haltn hka)
    unfold probe
    rw [hr]
    dsimp only
    rw [hnma]
    simp only [Bool.not_false, if_true]
    rw [if_pos hka]
  · have hkb : s.buckets.getD b none = some key := by
      rcases hor with h1 | h1
      · exact absurd h1 hka
      · exact h1
    have hnmb : s.meta.hintNotMatch b h = false := by
      rw [hh]
      exact hintNotMatch_fullPat_same _ _ _ (slice_of_stored s hsync b key hbltn hkb)
    by_cases hnma : s.meta.hintNotMatch a h = true
    · refine ⟨1, ?_, by omega⟩
      unfold probe
      rw [hr]
      dsimp only
      rw [hnma]
      simp only [Bool.not_true, Bool.false_eq_true, if_false]
      rw [hnmb]
      simp only [Bool.not_false, if_true]
      rw [if_pos hkb]
    · refine ⟨2, ?_, by omega⟩
      rw [Bool.not_eq_true] at hnma
      unfold probe
      rw [hr]
      dsimp only
      rw [hnma]
      simp only [Bool.not_false, if_true]
      rw [if_neg hka, hnmb]
      simp only [Bool.not_false, if_true]
      rw [if_pos hkb]

/-- A completed `Cuckoo::insert` preserves the invariant, the key
joining the live set; hashers and table size are unchanged. -/
theorem insert_keeps_inv (s : Cuckoo) (live : List Nat) (key : Nat)
    (hinv : s.Inv live) (s' : Cuckoo) (u : Update)
    (hins : s.insert key = some (s', u)) (hc : u.completed = true) :
    s'.Inv (key :: live) ∧ s'.hashers = s.hashers ∧
      s'.buckets.length = s.buckets.length := by
  obtain ⟨⟨hn, hsync, hders⟩, hlive⟩ := hinv
  match hinfo : s.bucketsFor key with
  | none =>
    unfold insert at hins
    rw [hinfo] at hins
    cases hins
  | some (h, a, b) =>
    unfold insert at hins
    rw [hinfo] at hins
    dsimp only at hins
    have hchain_case : ∀ (upd : Update),
        insertChain key 128 { s with len := s.len + 1 } key true (h, a, b) upd
          = some (s', u) →
        s'.Inv (key :: live) ∧ s'.hashers = s.hashers ∧
          s'.buckets.length = s.buckets.length := by
      intro upd hch
      have hL : ∀ j ∈ key :: live,
          j = key ∨ ({ s with len := s.len + 1 } : Cuckoo).KeyStored j := by
        intro j hj
        rcases List.mem_cons.1 hj with hje | hjl
        · exact Or.inl hje
        · exact Or.inr (hlive j hjl)
      obtain ⟨hh', hl', hsync', hst'⟩ := insertChain_spec key (key :: live) 128
        { s with len := s.len + 1 } key h a b true upd s' u hn hsync
        (fun kk => hders kk) hinfo hL hch hc
      refine ⟨⟨⟨?_, hsync', ?_⟩, hst'⟩, hh', hl'⟩
      · rw [hl']
        exact hn
      · intro k2
        rw [bucketsFor_frame s s' hh' hl']
        exact hders k2
    by_cases hnmb : s.meta.hintNotMatch b h = true
    · rw [hnmb] at hins
      simp only [Bool.not_true, Bool.false_eq_true, if_false] at hins
      exact hchain_case _ hins
    · rw [Bool.not_eq_true] at hnmb
      rw [hnmb] at hins
      simp only [Bool.not_false, if_true] at hins
      by_cases hkb : s.buckets.getD b none = some key
      · rw [if_pos hkb] at hins
        injection hins with hp
        have hs2 : s = s' := congrArg Prod.fst hp
        subst hs2
        refine ⟨⟨⟨hn, hsync, hders⟩, ?_⟩, rfl, rfl⟩
        intro j hj
        rcases List.mem_cons.1 hj with hje | hjl
        · rw [hje]
          exact ⟨h, a, b, hinfo, Or.inr hkb⟩
        · exact hlive j hjl
      · rw [if_neg hkb] at hins
        exact hchain_case _ hins

/-- Clearing a bucket holding `key` keeps the invariant for the live
keys other than `key`. -/
theorem clearBucket_removes (s : Cuckoo) (live : List Nat) (key c : Nat)
    (hinv : s.Inv live) (hcn : c < s.buckets.length)
    (hck : s.buckets.getD c none = some key) :
    (s.clearBucket c).Inv (live.filter (fun j => j ≠ key)) := by
  obtain ⟨⟨hn, hsync, hders⟩, hlive⟩ := hinv
  refine ⟨⟨?_, clearBucket_sync s hsync c hcn, ?_⟩, ?_⟩
  · rw [clearBucket_size]
    exact hn
  · intro k2
    rw [bucketsFor_frame s (s.clearBucket c) rfl (clearBucket_size s c)]
    exact hders k2
  · intro j hj
    obtain ⟨hjmem, hjne⟩ := List.mem_filter.1 hj
    have hjkey : j ≠ key := by simpa using hjne
    obtain ⟨hj', aj, bj, hrj, horj⟩ := hlive j hjmem
    refine ⟨hj', aj, bj, ?_, ?_⟩
    · rw [bucketsFor_frame s (s.clearBucket c) rfl (clearBucket_size s c)]
      exact hrj
    · have hpres : ∀ cc, s.buckets.getD cc none = some j →
          (s.buckets.set c none).getD cc none = some j := by
        intro cc hcj
        have hcc : c ≠ cc := by
          intro he
          rw [← he, hck] at hcj
          injection hcj with hkj
          exact hjkey hkj.symm
        rw [getD_set_ne _ _ _ _ _ hcc]
        exact hcj
      rcases horj with hcj | hcj
      · exact Or.inl (hpres _ hcj)
      · exact Or.inr (hpres _ hcj)

/-- `Cuckoo::remove` preserves the invariant, the key leaving the live
set; hashers and table size are unchanged. -/
theorem remove_keeps_inv (s : Cuckoo) (live : List Nat) (key : Nat)
    (hinv : s.Inv live) (s' : Cuckoo) (u : Update)
    (hrem : s.remove key = some (s', u)) :
    s'.Inv (live.filter (fun j => j ≠ key)) ∧ s'.hashers = s.hashers ∧
      s'.buckets.length = s.buckets.length := by
  obtain ⟨⟨hn, hsync, hders⟩, hlive⟩ := hinv
  have hid : s.Inv (live.filter (fun j => j ≠ key)) :=
    ⟨⟨hn, hsync, hders⟩, fun j hj => hlive j (List.mem_filter.1 hj).1⟩
  match hinfo : s.bucketsFor key with
  | none =>
    unfold remove at hrem
    rw [hinfo] at hrem
    cases hrem
  | some (h, a, b) =>
    obtain ⟨hh, hha, hba, hbnd⟩ := bucketsFor_spec s key h a b hinfo
    obtain ⟨haltn, hbltn⟩ := hbnd hn
    unfold remove at hrem
    rw [hinfo] at hrem
    dsimp only at hrem
    have hcheckB : ∀ (u0 u1 u2 : Update),
        (if !(s.meta.hintNotMatch b h) then
          if s.buckets.getD b none = some key then (s.clearBucket b, u1)
          else (s, u2)
        else (s, u0)) = (s', u) →
        s'.Inv (live.filter (fun j => j ≠ key)) ∧ s'.hashers = s.hashers ∧
          s'.buckets.length = s.buckets.length := by
      intro u0 u1 u2 hrem'
      by_cases hnb : s.meta.hintNotMatch b h = true
      · rw [hnb] at hrem'
        simp only [Bool.not_true, Bool.false_eq_true, if_false] at hrem'
        have hs2 : s = s' := congrArg Prod.fst hrem'
        subst hs2
        exact ⟨hid, rfl, rfl⟩
      · rw [Bool.not_eq_true] at hnb
        rw [hnb] at hrem'
        simp only [Bool.not_false, if_true] at hrem'
        by_cases hkb : s.buckets.getD b none = some key
        · rw [if_pos hkb] at hrem'
          have hs2 : s.clearBucket b = s' := congrArg Prod.fst hrem'
          subst hs2
          exact ⟨clearBucket_removes s live key b ⟨⟨hn, hsync, hders⟩, hlive⟩ hbltn hkb,
            rfl, clearBucket_size s b⟩
        · rw [if_neg hkb] at hrem'
          have hs2 : s = s' := congrArg Prod.fst hrem'
          subst hs2
          exact ⟨hid, rfl, rfl⟩
    by_cases hna : s.meta.hintNotMatch a h = true
    · rw [hna] at hrem
      simp only [Bool.not_true, Bool.false_eq_true, if_false] at hrem
      injection hrem with hp
      exact hcheckB _ _ _ hp
    · rw [Bool.not_eq_true] at hna
      rw [hna] at hrem
      simp only [Bool.not_false, if_true] at hrem
      by_cases hka : s.buckets.getD a none = some key
      · rw [if_pos hka] at hrem
        injection hrem with hp
        have hs2 : s.clearBucket a = s' := congrArg Prod.fst hp
        subst hs2
        exact ⟨clearBucket_removes s live key a ⟨⟨hn, hsync, hders⟩, hlive⟩ haltn hka,
          rfl, clearBucket_size s a⟩
      · rw [if_neg hka] at hrem
        injection hrem with hp
        exact hcheckB _ _ _ hp

theorem runOp_keeps_inv (s : Cuckoo) (live : List Nat) (op : TOp)
    (hinv : s.Inv live) (s' : Cuckoo) (c : Bool)
    (hop : s.runOp op = some (s', c)) (hc : c = true) :
    s'.Inv (opStep live op) ∧ s'.hashers = s.hashers ∧
      s'.buckets.length = s.buckets.length := by
  match op with
  | .prb k =>
    injection hop with hp
    have hs2 : s = s' := congrArg Prod.fst hp
    subst hs2
    exact ⟨hinv, rfl, rfl⟩
  | .ins k =>
    match hins : s.insert k with
    | none =>
      unfold runOp at hop
      simp only at hop
      rw [hins] at hop
      cases hop
    | some (s1, u1) =>
      unfold runOp at hop
      simp only at hop
      rw [hins] at hop
      injection hop with hp
      have hs2 : s1 = s' := congrArg Prod.fst hp
      have hc2 : u1.completed = c := congrArg Prod.snd hp
      subst hs2
      rw [hc] at hc2
      exact insert_keeps_inv s live k ⟨hinv.1, hinv.2⟩ s1 u1 hins hc2
  | .rem k =>
    match hrm : s.remove k with
    | none =>
      unfold runOp at hop
      simp only at hop
      rw [hrm] at hop
      cases hop
    | some (s1, u1) =>
      unfold runOp at hop
      simp only at hop
      rw [hrm] at hop
      injection hop with hp
      have hs2 : s1 = s' := congrArg Prod.fst hp
      subst hs2
      exact remove_keeps_inv s live k ⟨hinv.1, hinv.2⟩ s1 u1 hrm

theorem runOps_keeps_inv : ∀ (ops : List TOp) (s : Cuckoo) (live : List Nat)
    (r : Cuckoo × Bool), s.Inv live → s.runOps ops = some r → r.2 = true →
    r.1.Inv (ops.foldl opStep live) ∧ r.1.hashers = s.hashers ∧
      r.1.buckets.length = s.buckets.length := by
  intro ops
  induction ops with
  | nil =>
    intro s live r hinv hrun hflag
    injection hrun with hp
    rw [← hp]
    exact ⟨hinv, rfl, rfl⟩
  | cons op rest ih =>
    intro s live r hinv hrun hflag
    unfold runOps at hrun
    match hop : s.runOp op with
    | none =>
      rw [hop] at hrun
      cases hrun
    | some (s1, c1) =>
      rw [hop] at hrun
      simp only at hrun
      match hrest : s1.runOps rest with
      | none =>
        rw [hrest] at hrun
        cases hrun
      | some r2 =>
        rw [hrest] at hrun
        injection hrun with hp
        dsimp only at hp
        have hflag2 : (c1 && r2.2) = true := by
          have hsnd : (c1 && r2.2) = r.2 := congrArg Prod.snd hp
          exact hsnd.trans hflag
        rw [Bool.and_eq_true] at hflag2
        obtain ⟨hinv1, hh1, hl1⟩ := runOp_keeps_inv s live op hinv s1 c1 hop hflag2.1
        obtain ⟨hinv2, hh2, hl2⟩ := ih s1 (opStep live op) r2 hinv1 hrest hflag2.2
        have hr1 : r2.1 = r.1 := by
          rw [← hp]
        refine ⟨?_, ?_, ?_⟩
        · rw [← hr1]
          exact hinv2
        · rw [← hr1]
          exact hh2.trans hh1
        · rw [← hr1]
          exact hl2.trans hl1

theorem new_inv (capacity metaBits : Nat) (hashers : List (Nat → Nat))
    (hcap : 0 < capacity)
    (hders : ∀ k, ((new capacity metaBits hashers).bucketsFor k).isSome = true) :
    (new capacity metaBits hashers).Inv [] := by
  refine ⟨⟨?_, new_sync capacity metaBits hashers, hders⟩,
    fun k hk => absurd hk (by simp)⟩
  show 0 < (List.replicate capacity (none : Option Nat)).length
  simpa using hcap

/-- C1 (amended), Cuckoo half: after any fully-completed driver run,
every live key is found by `probe` with `contained = true` and at most
two probes. -/
theorem run_probe_finds (cap metaBits : Nat) (hashers : List (Nat → Nat))
    (ops : List TOp) (r : Cuckoo × Bool) (hcap : 0 < cap)
    (hders : ∀ k, ((new cap metaBits hashers).bucketsFor k).isSome = true)
    (hrun : (new cap metaBits hashers).runOps ops = some r) (hflag : r.2 = true) :
    ∀ k ∈ opsLive ops, ∃ p, r.1.probe k = some ⟨true, p⟩ ∧ p ≤ 2 := by
  intro k hk
  obtain ⟨hinv, hh, hl⟩ := runOps_keeps_inv ops (new cap metaBits hashers) [] r
    (new_inv cap metaBits hashers hcap hders) hrun hflag
  have hn : 0 < r.1.buckets.length := by
    rw [hl]
    show 0 < (List.replicate cap (none : Option Nat)).length
    simpa using hcap
  exact probe_finds r.1 k hn hinv.1.2.1 (hinv.2 k hk)

end Cuckoo

end CuckooInvariants

section BlockedCuckooInvariants

theorem getD_mem (l : List (Option Nat)) : ∀ (i k : Nat),
    l.getD i none = some k → some k ∈ l := by
  induction l with
  | nil =>
    intro i k h
    cases i <;> exact Option.noConfusion h
  | cons v rest ih =>
    intro i k h
    match i with
    | 0 => exact List.mem_cons.2 (Or.inl (show (some k : Option Nat) = v from h.symm))
    | i + 1 => exact List.mem_cons_of_mem _ (ih i k h)

theorem mem_set_ne_of_mem : ∀ (l : List (Option Nat)) (i : Nat) (a x : Option Nat),
    x ∈ l → l.getD i none ≠ x → x ∈ l.set i a := by
  intro l
  induction l with
  | nil =>
    intro i a x hx _
    exact absurd hx (by simp)
  | cons v rest ih =>
    intro i a x hx hne
    match i with
    | 0 =>
      rcases List.mem_cons.1 hx with h1 | h2
      · exact absurd h1.symm hne
      · show x ∈ a :: rest
        exact List.mem_cons_of_mem _ h2
    | i + 1 =>
      show x ∈ v :: rest.set i a
      rcases List.mem_cons.1 hx with h1 | h2
      · exact List.mem_cons.2 (Or.inl h1)
      · exact List.mem_cons_of_mem _ (ih i a x h2 hne)

namespace BlockedCuckoo

theorem blocksForAux_lt (hashers : List (Nat → Nat)) (key n blockA : Nat) :
    ∀ fuel cur bb, blocksForAux hashers key n blockA cur fuel = some bb →
      0 < n → bb < n := by
  intro fuel
  induction fuel with
  | zero =>
    intro cur bb h _
    exact absurd h (by simp [blocksForAux])
  | succ fuel ih =>
    intro cur bb h hn
    unfold blocksForAux at h
    match hh : hashers.get? (cur + 1) with
    | none =>
      rw [hh] at h
      exact absurd h (by simp)
    | some f =>
      rw [hh] at h
      simp only at h
      by_cases he : f key % n = blockA
      · rw [if_pos he] at h
        exact ih _ _ h hn
      · rw [if_neg he] at h
        cases h
        exact Nat.mod_lt _ hn

theorem blocksFor_spec (s : BlockedCuckoo) (key a b : Nat)
    (hr : s.blocksFor key = some (a, b)) (hn : 0 < s.blocks.length) :
    a < s.blocks.length ∧ b < s.blocks.length := by
  unfold blocksFor at hr
  match hh : s.hashers.get? 0 with
  | none =>
    rw [hh] at hr
    exact absurd hr (by simp)
  | some h0 =>
    rw [hh] at hr
    simp only [Option.map_eq_some'] at hr
    obtain ⟨bb, haux, heq⟩ := hr
    have hlt := blocksForAux_lt s.hashers key s.blocks.length _ _ _ _ haux hn
    cases heq
    exact ⟨Nat.mod_lt _ hn, hlt⟩

theorem blocksFor_frame (s s' : BlockedCuckoo) (hh : s'.hashers = s.hashers)
    (hl : s'.blocks.length = s.blocks.length) (k : Nat) :
    s'.blocksFor k = s.blocksFor k := by
  unfold blocksFor
  rw [hh, hl]

/-- `try_insert` stores the key and keeps every slot occupant that was
already in the block. -/
theorem tryInsert_stores (key : Nat) :
    ∀ (block block' : List (Option Nat)), tryInsert key block = some block' →
      some key ∈ block' ∧ ∀ j : Nat, some j ∈ block → some j ∈ block' := by
  intro block
  induction block with
  | nil =>
    intro block' h
    exact absurd h (by simp [tryInsert])
  | cons v rest ih =>
    intro block' h
    match v with
    | none =>
      rw [show tryInsert key (none :: rest) = some (some key :: rest) from rfl] at h
      injection h with h2
      subst h2
      refine ⟨List.mem_cons_self _ _, ?_⟩
      intro j hj
      rcases List.mem_cons.1 hj with hj1 | hj2
      · exact absurd hj1 (by simp)
      · exact List.mem_cons_of_mem _ hj2
    | some x =>
      unfold tryInsert at h
      by_cases hx : x = key
      · rw [if_pos hx] at h
        injection h with h2
        subst h2
        refine ⟨?_, fun j hj => hj⟩
        exact List.mem_cons.2 (Or.inl (by rw [hx]))
      · rw [if_neg hx] at h
        rw [Option.map_eq_some'] at h
        obtain ⟨rest', hrest, heq⟩ := h
        subst heq
        obtain ⟨hk, hkeep⟩ := ih rest' hrest
        refine ⟨List.mem_cons_of_mem _ hk, ?_⟩
        intro j hj
        rcases List.mem_cons.1 hj with hj1 | hj2
        · exact List.mem_cons.2 (Or.inl hj1)
        · exact List.mem_cons_of_mem _ (hkeep j hj2)

/-- `search` reports a slot that really holds the key. -/
theorem search_found (key : Nat) :
    ∀ (block : List (Option Nat)) (pos : Nat), search key block = some pos →
      block.getD pos none = some key := by
  intro block
  induction block with
  | nil =>
    intro pos h
    exact absurd h (by simp [search])
  | cons v rest ih =>
    intro pos h
    match v with
    | some k =>
      unfold search at h
      simp only at h
      by_cases hk : k = key
      · rw [if_pos hk] at h
        injection h with h2
        subst h2
        show some k = some key
        rw [hk]
      · rw [if_neg hk] at h
        rw [Option.map_eq_some'] at h
        obtain ⟨p, hp, heq⟩ := h
        subst heq
        show rest.getD p none = some key
        exact ih p hp
    | none =>
      unfold search at h
      simp only at h
      rw [Option.map_eq_some'] at h
      obtain ⟨p, hp, heq⟩ := h
      subst heq
      show rest.getD p none = some key
      exact ih p hp

/-- The eviction chain of `BlockedCuckoo::insert` keeps every ledger key
stored on every `completed = true` return (a ledger key is either the
in-flight key — whose target block is one of its two blocks — or
already stored). -/
theorem insertChain_stores_blocked (rngKey : Nat) (L : List Nat) :
    ∀ (fuel : Nat) (rng : List Nat) (s : BlockedCuckoo) (active target : Nat)
      (u : Update) (s' : BlockedCuckoo) (u' : Update),
      0 < s.blocks.length →
      (∀ kk, (s.blocksFor kk).isSome = true) →
      (∃ a b, s.blocksFor active = some (a, b) ∧ (target = a ∨ target = b)) →
      (∀ j ∈ L, j = active ∨ s.KeyStored j) →
      insertChain rngKey fuel rng s active target u = some (s', u') →
      u'.completed = true →
      s'.hashers = s.hashers ∧ s'.blocks.length = s.blocks.length ∧
        ∀ j ∈ L, s'.KeyStored j := by
  intro fuel
  induction fuel with
  | zero =>
    intro rng s active target u s' u' _ _ _ _ hch hc
    rw [show insertChain rngKey 0 rng s active target u
        = some (s, { u with completed := false }) from rfl] at hch
    injection hch with hp
    have h2 : ({ u with completed := false } : Update) = u' := congrArg Prod.snd hp
    rw [← h2] at hc
    exact Bool.noConfusion hc
  | succ fuel ih =>
    intro rng s active target u s' u' hn hders hpair hL hch hc
    obtain ⟨pa, pb, hpr, hpt⟩ := hpair
    obtain ⟨paln, pbln⟩ := blocksFor_spec s active pa pb hpr hn
    have htn : target < s.blocks.length := by
      rcases hpt with h2 | h2
      · rw [h2]; exact paln
      · rw [h2]; exact pbln
    unfold insertChain at hch
    dsimp only at hch
    match hread : (s.blocks.getD target []).getD (rng.headD 0 % BUCKET_PER_BLOCK)
        none with
    | none =>
      rw [hread] at hch
      simp at hch
    | some swapKey =>
      rw [hread] at hch
      simp only at hch
      have hidxlt : rng.headD 0 % BUCKET_PER_BLOCK
          < (s.blocks.getD target []).length := getD_some_lt _ _ _ hread
      obtain ⟨s1, hs1⟩ : ∃ s1 : BlockedCuckoo,
          ({ s with blocks := s.blocks.set target ((s.blocks.getD target []).set (rng.headD 0 % BUCKET_PER_BLOCK) (some active)) } : BlockedCuckoo) = s1 :=
        ⟨_, rfl⟩
      rw [hs1] at hch
      rw [show s.blocks.set target ((s.blocks.getD target []).set (rng.headD 0 % BUCKET_PER_BLOCK) (some active)) = s1.blocks from by rw [← hs1]] at hch
      have hs1h : s1.hashers = s.hashers := by
        rw [← hs1]
      have hs1l : s1.blocks.length = s.blocks.length := by
        rw [← hs1]
        show (s.blocks.set target _).length = s.blocks.length
        simp
      have hders1 : ∀ kk, (s1.blocksFor kk).isSome = true := by
        intro kk
        rw [blocksFor_frame s s1 hs1h hs1l]
        exact hders kk
      have hgd1 : s1.blocks.getD target []
          = (s.blocks.getD target []).set (rng.headD 0 % BUCKET_PER_BLOCK)
            (some active) := by
        rw [← hs1]
        exact getD_set_self _ _ _ _ htn
      have hactive_mem : some active ∈ s1.blocks.getD target [] := by
        rw [hgd1]
        exact getD_mem _ _ active (getD_set_self _ _ _ _ hidxlt)
      have hL1 : ∀ j ∈ L, j = swapKey ∨ s1.KeyStored j := by
        intro j hj
        rcases hL j hj with hja | hstj
        · right
          subst hja
          refine ⟨pa, pb, ?_, ?_⟩
          · rw [blocksFor_frame s s1 hs1h hs1l]
            exact hpr
          · rcases hpt with h2 | h2
            · left
              rw [← h2]
              exact hactive_mem
            · right
              rw [← h2]
              exact hactive_mem
        · obtain ⟨aj, bj, hrj, horj⟩ := hstj
          by_cases hjswap : j = swapKey
          · exact Or.inl hjswap
          · right
            refine ⟨aj, bj, ?_, ?_⟩
            · rw [blocksFor_frame s s1 hs1h hs1l]
              exact hrj
            · have hpres : ∀ c, some j ∈ s.blocks.getD c [] →
                  some j ∈ s1.blocks.getD c [] := by
                intro c hcj
                by_cases hct : c = target
                · subst hct
                  rw [hgd1]
                  apply mem_set_ne_of_mem _ _ _ _ hcj
                  rw [hread]
                  intro he
                  injection he with he2
                  exact hjswap he2.symm
                · rw [show s1.blocks.getD c [] = s.blocks.getD c [] from by
                    rw [← hs1]
                    exact getD_set_ne _ _ _ _ _ (fun h2 => hct h2.symm)]
                  exact hcj
              rcases horj with hcj | hcj
              · exact Or.inl (hpres _ hcj)
              · exact Or.inr (hpres _ hcj)
      match hinfo2 : s1.blocksFor swapKey with
      | none =>
        have hcon := hders1 swapKey
        rw [hinfo2] at hcon
        cases hcon
      | some (a2, b2) =>
        rw [hinfo2] at hch
        simp only at hch
        obtain ⟨a2ln, b2ln⟩ := blocksFor_spec s1 swapKey a2 b2 hinfo2
          (by rw [hs1l]; exact hn)
        generalize hntdef : (if a2 = target then b2 else a2) = nt at hch
        have hnt2 : nt = a2 ∨ nt = b2 := by
          by_cases hcase : a2 = target
          · rw [if_pos hcase] at hntdef
            exact Or.inr hntdef.symm
          · rw [if_neg hcase] at hntdef
            exact Or.inl hntdef.symm
        have hntln : nt < s1.blocks.length := by
          rcases hnt2 with h2 | h2
          · rw [h2]; exact a2ln
          · rw [h2]; exact b2ln
        match htr : tryInsert swapKey (s1.blocks.getD nt []) with
        | some newBlock =>
          rw [htr] at hch
          simp only at hch
          injection hch with hp
          have hs2 : (⟨s.hashers, s1.blocks.set nt newBlock, s.len⟩ : BlockedCuckoo)
              = s' := congrArg Prod.fst hp
          obtain ⟨hkmem, hkeep⟩ := tryInsert_stores swapKey _ newBlock htr
          subst hs2
          have hs2h : (⟨s.hashers, s1.blocks.set nt newBlock, s.len⟩
              : BlockedCuckoo).hashers = s1.hashers := hs1h.symm
          have hs2l : (⟨s.hashers, s1.blocks.set nt newBlock, s.len⟩
              : BlockedCuckoo).blocks.length = s1.blocks.length := by
            show (s1.blocks.set _ _).length = s1.blocks.length
            simp
          refine ⟨hs2h.trans hs1h, hs2l.trans hs1l, ?_⟩
          intro j hj
          have hgd2 : (⟨s.hashers, s1.blocks.set nt newBlock, s.len⟩
              : BlockedCuckoo).blocks.getD nt [] = newBlock :=
            getD_set_self _ _ _ _ hntln
          rcases hL1 j hj with hjs | hstj
          · subst hjs
            refine ⟨a2, b2, ?_, ?_⟩
            · rw [blocksFor_frame s1 _ hs2h hs2l]
              exact hinfo2
            · rcases hnt2 with h2 | h2
              · left
                rw [← h2, hgd2]
                exact hkmem
              · right
                rw [← h2, hgd2]
                exact hkmem
          · obtain ⟨aj, bj, hrj, horj⟩ := hstj
            refine ⟨aj, bj, ?_, ?_⟩
            · rw [blocksFor_frame s1 _ hs2h hs2l]
              exact hrj
            · have hpres : ∀ c, some j ∈ s1.blocks.getD c [] →
                  some j ∈ (⟨s.hashers, s1.blocks.set nt newBlock, s.len⟩
                    : BlockedCuckoo).blocks.getD c [] := by
                intro c hcj
                by_cases hct : c = nt
                · subst hct
                  rw [hgd2]
                  exact hkeep j hcj
                · rw [show (⟨s.hashers, s1.blocks.set nt newBlock, s.len⟩
                      : BlockedCuckoo).blocks.getD c [] = s1.blocks.getD c [] from
                    getD_set_ne _ _ _ _ _ (fun h2 => hct h2.symm)]
                  exact hcj
              rcases horj with hcj | hcj
              · exact Or.inl (hpres _ hcj)
              · exact Or.inr (hpres _ hcj)
        | none =>
          rw [htr] at hch
          simp only at hch
          obtain ⟨hh2, hl2, hst2⟩ := ih rng.tail s1 swapKey nt _ s' u'
            (by rw [hs1l]; exact hn) hders1 ⟨a2, b2, hinfo2, hnt2⟩ hL1 hch hc
          exact ⟨hh2.trans hs1h, hl2.trans hs1l, hst2⟩

/-- In a state that stores `key`, `probe` finds it in at most two block
scans. -/
theorem probe_finds_blocked (s : BlockedCuckoo) (key : Nat)
    (hst : s.KeyStored key) :
    ∃ p, s.probe key = some ⟨true, p⟩ ∧ p ≤ 2 := by
  obtain ⟨a, b, hr, hor⟩ := hst
  unfold probe
  rw [hr]
  dsimp only
  by_cases hsa : (search key (s.blocks.getD a [])).isSome = true
  · refine ⟨1, ?_, by omega⟩
    rw [if_pos hsa]
  · have hmb : some key ∈ s.blocks.getD b [] := by
      rcases hor with h1 | h1
      · exact absurd (search_isSome_of_mem key _ h1) hsa
      · exact h1
    refine ⟨2, ?_, by omega⟩
    rw [if_neg hsa, if_pos (search_isSome_of_mem key _ hmb)]

/-- A completed `BlockedCuckoo::insert` preserves the invariant, the key
joining the live set. -/
theorem insert_keeps_invB (s : BlockedCuckoo) (live : List Nat) (key : Nat)
    (hinv : s.Inv live) (rng : List Nat) (s' : BlockedCuckoo) (u : Update)
    (hins : s.insert rng key = some (s', u)) (hc : u.completed = true) :
    s'.Inv (key :: live) ∧ s'.hashers = s.hashers ∧
      s'.blocks.length = s.blocks.length := by
  obtain ⟨⟨hn, hders⟩, hlive⟩ := hinv
  match hinfo : s.blocksFor key with
  | none =>
    unfold insert at hins
    rw [hinfo] at hins
    cases hins
  | some (ba, bb) =>
    obtain ⟨baln, bbln⟩ := blocksFor_spec s key ba bb hinfo hn
    unfold insert at hins
    rw [hinfo] at hins
    dsimp only at hins
    rw [show ({ s with len := s.len + 1 } : BlockedCuckoo).blocks = s.blocks
      from rfl] at hins
    have hfin : ∀ (tgt : Nat) (newBlock : List (Option Nat)) (u0 : Update),
        (tgt = ba ∨ tgt = bb) → tgt < s.blocks.length →
        tryInsert key (s.blocks.getD tgt []) = some newBlock →
        some ((⟨s.hashers, s.blocks.set tgt newBlock, s.len + 1⟩ : BlockedCuckoo),
          u0) = some (s', u) →
        s'.Inv (key :: live) ∧ s'.hashers = s.hashers ∧
          s'.blocks.length = s.blocks.length := by
      intro tgt newBlock u0 htgt htgtln htry heq
      injection heq with hp
      have hs2 : (⟨s.hashers, s.blocks.set tgt newBlock, s.len + 1⟩ : BlockedCuckoo)
          = s' := congrArg Prod.fst hp
      obtain ⟨hkmem, hkeep⟩ := tryInsert_stores key _ newBlock htry
      subst hs2
      have hl2 : (⟨s.hashers, s.blocks.set tgt newBlock, s.len + 1⟩
          : BlockedCuckoo).blocks.length = s.blocks.length := by
        show (s.blocks.set tgt newBlock).length = s.blocks.length
        simp
      have hgd2 : (s.blocks.set tgt newBlock).getD tgt [] = newBlock :=
        getD_set_self _ _ _ _ htgtln
      refine ⟨⟨⟨?_, ?_⟩, ?_⟩, rfl, hl2⟩
      · show 0 < (s.blocks.set tgt newBlock).length
        rw [List.length_set]
        exact hn
      · intro kk
        rw [blocksFor_frame s (⟨s.hashers, s.blocks.set tgt newBlock, s.len + 1⟩
          : BlockedCuckoo) rfl hl2]
        exact hders kk
      · intro j hj
        rcases List.mem_cons.1 hj with hje | hjl
        · subst hje
          refine ⟨ba, bb, ?_, ?_⟩
          · rw [blocksFor_frame s (⟨s.hashers, s.blocks.set tgt newBlock, s.len + 1⟩
              : BlockedCuckoo) rfl hl2]
            exact hinfo
          · show some j ∈ (s.blocks.set tgt newBlock).getD ba [] ∨
              some j ∈ (s.blocks.set tgt newBlock).getD bb []
            rcases htgt with h2 | h2
            · left
              rw [← h2, hgd2]
              exact hkmem
            · right
              rw [← h2, hgd2]
              exact hkmem
        · obtain ⟨aj, bj, hrj, horj⟩ := hlive j hjl
          refine ⟨aj, bj, ?_, ?_⟩
          · rw [blocksFor_frame s (⟨s.hashers, s.blocks.set tgt newBlock, s.len + 1⟩
              : BlockedCuckoo) rfl hl2]
            exact hrj
          · have hpres : ∀ c, some j ∈ s.blocks.getD c [] →
                some j ∈ (s.blocks.set tgt newBlock).getD c [] := by
              intro c hcj
              by_cases hct : c = tgt
              · subst hct
                rw [hgd2]
                exact hkeep j hcj
              · rw [getD_set_ne _ _ _ _ _ (fun h2 => hct h2.symm)]
                exact hcj
            show some j ∈ (s.blocks.set tgt newBlock).getD aj [] ∨
              some j ∈ (s.blocks.set tgt newBlock).getD bj []
            rcases horj with hcj | hcj
            · exact Or.inl (hpres _ hcj)
            · exact Or.inr (hpres _ hcj)
    have hchain : ∀ (u0 : Update),
        insertChain key 128 rng { s with len := s.len + 1 } key ba u0
          = some (s', u) →
        s'.Inv (key :: live) ∧ s'.hashers = s.hashers ∧
          s'.blocks.length = s.blocks.length := by
      intro u0 hch
      have hL : ∀ j ∈ key :: live,
          j = key ∨ ({ s with len := s.len + 1 } : BlockedCuckoo).KeyStored j := by
        intro j hj
        rcases List.mem_cons.1 hj with hje | hjl
        · exact Or.inl hje
        · exact Or.inr (hlive j hjl)
      obtain ⟨hh2, hl2, hst2⟩ := insertChain_stores_blocked key (key :: live) 128
        rng { s with len := s.len + 1 } key ba u0 s' u hn (fun kk => hders kk)
        ⟨ba, bb, hinfo, Or.inl rfl⟩ hL hch hc
      refine ⟨⟨⟨?_, ?_⟩, hst2⟩, hh2, hl2⟩
      · rw [hl2]
        exact hn
      · intro kk
        rw [blocksFor_frame s s' hh2 hl2]
        exact hders kk
    match hta : tryInsert key (s.blocks.getD ba []) with
    | some newBlock =>
      rw [hta] at hins
      simp only at hins
      exact hfin ba newBlock _ (Or.inl rfl) baln hta hins
    | none =>
      rw [hta] at hins
      simp only at hins
      match htb : tryInsert key (s.blocks.getD bb []) with
      | some newBlock =>
        rw [htb] at hins
        simp only at hins
        exact hfin bb newBlock _ (Or.inr rfl) bbln htb hins
      | none =>
        rw [htb] at hins
        simp only at hins
        exact hchain _ hins

/-- `BlockedCuckoo::remove` preserves the invariant, the key leaving the
live set. -/
theorem remove_keeps_invB (s : BlockedCuckoo) (live : List Nat) (key : Nat)
    (hinv : s.Inv live) (s' : BlockedCuckoo) (u : Update)
    (hrem : s.remove key = some (s', u)) :
    s'.Inv (live.filter (fun j => j ≠ key)) ∧ s'.hashers = s.hashers ∧
      s'.blocks.length = s.blocks.length := by
  obtain ⟨⟨hn, hders⟩, hlive⟩ := hinv
  have hid : s.Inv (live.filter (fun j => j ≠ key)) :=
    ⟨⟨hn, hders⟩, fun j hj => hlive j (List.mem_filter.1 hj).1⟩
  match hinfo : s.blocksFor key with
  | none =>
    unfold remove at hrem
    rw [hinfo] at hrem
    cases hrem
  | some (ba, bb) =>
    obtain ⟨baln, bbln⟩ := blocksFor_spec s key ba bb hinfo hn
    unfold remove at hrem
    rw [hinfo] at hrem
    dsimp only at hrem
    have hclear : ∀ (tgt : Nat) (newBlock : List (Option Nat)) (u0 : Update),
        tgt < s.blocks.length →
        tryRemove key (s.blocks.getD tgt []) = some newBlock →
        some (({ s with blocks := s.blocks.set tgt newBlock, len := s.len - 1 }
          : BlockedCuckoo), u0) = some (s', u) →
        s'.Inv (live.filter (fun j => j ≠ key)) ∧ s'.hashers = s.hashers ∧
          s'.blocks.length = s.blocks.length := by
      intro tgt newBlock u0 htgtln htry heq
      injection heq with hp
      have hs2 : ({ s with blocks := s.blocks.set tgt newBlock, len := s.len - 1 }
          : BlockedCuckoo) = s' := congrArg Prod.fst hp
      unfold tryRemove at htry
      rw [Option.map_eq_some'] at htry
      obtain ⟨pos, hpos, hblk⟩ := htry
      have hposk := search_found key _ pos hpos
      subst hs2
      have hl2 : (s.blocks.set tgt newBlock).length = s.blocks.length := by simp
      refine ⟨⟨⟨?_, ?_⟩, ?_⟩, rfl, hl2⟩
      · show 0 < (s.blocks.set tgt newBlock).length
        rw [List.length_set]
        exact hn
      · intro kk
        rw [blocksFor_frame s ({ s with blocks := s.blocks.set tgt newBlock, len := s.len - 1 } : BlockedCuckoo) rfl hl2]
        exact hders kk
      · intro j hj
        obtain ⟨hjmem, hjne⟩ := List.mem_filter.1 hj
        have hjkey : j ≠ key := by simpa using hjne
        obtain ⟨aj, bj, hrj, horj⟩ := hlive j hjmem
        refine ⟨aj, bj, ?_, ?_⟩
        · rw [blocksFor_frame s ({ s with blocks := s.blocks.set tgt newBlock, len := s.len - 1 } : BlockedCuckoo) rfl hl2]
          exact hrj
        · have hpres : ∀ c, some j ∈ s.blocks.getD c [] →
              some j ∈ (s.blocks.set tgt newBlock).getD c [] := by
            intro c hcj
            by_cases hct : c = tgt
            · subst hct
              rw [getD_set_self _ _ _ _ htgtln, ← hblk]
              apply mem_set_ne_of_mem _ _ _ _ hcj
              rw [hposk]
              intro he
              injection he with he2
              exact hjkey he2.symm
            · rw [getD_set_ne _ _ _ _ _ (fun h2 => hct h2.symm)]
              exact hcj
          rcases horj with hcj | hcj
          · exact Or.inl (hpres _ hcj)
          · exact Or.inr (hpres _ hcj)
    match hta : tryRemove key (s.blocks.getD ba []) with
    | some newBlock =>
      rw [hta] at hrem
      simp only at hrem
      exact hclear ba newBlock _ baln hta hrem
    | none =>
      rw [hta] at hrem
      simp only at hrem
      match htb : tryRemove key (s.blocks.getD bb []) with
      | some newBlock =>
        rw [htb] at hrem
        simp only at hrem
        exact hclear bb newBlock _ bbln htb hrem
      | none =>
        rw [htb] at hrem
        simp only at hrem
        injection hrem with hp
        have hs2 : s = s' := congrArg Prod.fst hp
        subst hs2
        exact ⟨hid, rfl, rfl⟩

theorem runOp_keeps_invB (s : BlockedCuckoo) (live : List Nat) (op : TOp)
    (rng : List Nat) (hinv : s.Inv live) (s' : BlockedCuckoo) (c : Bool)
    (hop : s.runOp op rng = some (s', c)) (hc : c = true) :
    s'.Inv (opStep live op) ∧ s'.hashers = s.hashers ∧
      s'.blocks.length = s.blocks.length := by
  match op with
  | .prb k =>
    injection hop with hp
    have hs2 : s = s' := congrArg Prod.fst hp
    subst hs2
    exact ⟨hinv, rfl, rfl⟩
  | .ins k =>
    match hins : s.insert rng k with
    | none =>
      unfold runOp at hop
      simp only at hop
      rw [hins] at hop
      cases hop
    | some (s1, u1) =>
      unfold runOp at hop
      simp only at hop
      rw [hins] at hop
      injection hop with hp
      have hs2 : s1 = s' := congrArg Prod.fst hp
      have hc2 : u1.completed = c := congrArg Prod.snd hp
      subst hs2
      rw [hc] at hc2
      exact insert_keeps_invB s live k ⟨hinv.1, hinv.2⟩ rng s1 u1 hins hc2
  | .rem k =>
    match hrm : s.remove k with
    | none =>
      unfold runOp at hop
      simp only at hop
      rw [hrm] at hop
      cases hop
    | some (s1, u1) =>
      unfold runOp at hop
      simp only at hop
      rw [hrm] at hop
      injection hop with hp
      have hs2 : s1 = s' := congrArg Prod.fst hp
      subst hs2
      exact remove_keeps_invB s live k ⟨hinv.1, hinv.2⟩ s1 u1 hrm

theorem runOps_keeps_invB : ∀ (ops : List (TOp × List Nat)) (s : BlockedCuckoo)
    (live : List Nat) (r : BlockedCuckoo × Bool),
    s.Inv live → s.runOps ops = some r → r.2 = true →
    r.1.Inv ((ops.map Prod.fst).foldl opStep live) ∧ r.1.hashers = s.hashers ∧
      r.1.blocks.length = s.blocks.length := by
  intro ops
  induction ops with
  | nil =>
    intro s live r hinv hrun hflag
    injection hrun with hp
    rw [← hp]
    exact ⟨hinv, rfl, rfl⟩
  | cons oprng rest ih =>
    intro s live r hinv hrun hflag
    obtain ⟨op, rng⟩ := oprng
    unfold runOps at hrun
    match hop : s.runOp op rng with
    | none =>
      rw [hop] at hrun
      cases hrun
    | some (s1, c1) =>
      rw [hop] at hrun
      simp only at hrun
      match hrest : s1.runOps rest with
      | none =>
        rw [hrest] at hrun
        cases hrun
      | some r2 =>
        rw [hrest] at hrun
        injection hrun with hp
        dsimp only at hp
        have hflag2 : (c1 && r2.2) = true := by
          have hsnd : (c1 && r2.2) = r.2 := congrArg Prod.snd hp
          exact hsnd.trans hflag
        rw [Bool.and_eq_true] at hflag2
        obtain ⟨hinv1, hh1, hl1⟩ := runOp_keeps_invB s live op rng hinv s1 c1
          hop hflag2.1
        obtain ⟨hinv2, hh2, hl2⟩ := ih s1 (opStep live op) r2 hinv1 hrest hflag2.2
        have hr1 : r2.1 = r.1 := by
          rw [← hp]
        rw [show ((op, rng) :: rest).map Prod.fst = op :: rest.map Prod.fst
          from rfl]
        refine ⟨?_, ?_, ?_⟩
        · rw [← hr1]
          exact hinv2
        · rw [← hr1]
          exact hh2.trans hh1
        · rw [← hr1]
          exact hl2.trans hl1

theorem new_invB (capacity : Nat) (hashers : List (Nat → Nat))
    (hn : 0 < (new capacity hashers).blocks.length)
    (hders : ∀ k, ((new capacity hashers).blocksFor k).isSome = true) :
    (new capacity hashers).Inv [] :=
  ⟨⟨hn, hders⟩, fun k hk => absurd hk (by simp)⟩

/-- C1 (amended), BlockedCuckoo part: after any fully-completed driver
run, every live key is found by `probe` with `contained = true` and at
most two probes. -/
theorem run_probe_finds_blocked (cap : Nat) (hashers : List (Nat → Nat))
    (ops : List (TOp × List Nat)) (r : BlockedCuckoo × Bool)
    (hn : 0 < (new cap hashers).blocks.length)
    (hders : ∀ k, ((new cap hashers).blocksFor k).isSome = true)
    (hrun : (new cap hashers).runOps ops = some r) (hflag : r.2 = true) :
    ∀ k ∈ opsLive (ops.map Prod.fst), ∃ p, r.1.probe k = some ⟨true, p⟩ ∧ p ≤ 2 := by
  intro k hk
  obtain ⟨hinv, hh, hl⟩ := runOps_keeps_invB ops (new cap hashers) [] r
    (new_invB cap hashers hn hders) hrun hflag
  exact probe_finds_blocked r.1 k (hinv.2 k hk)

end BlockedCuckoo

end BlockedCuckooInvariants

section ThreeAryInvariants

namespace ThreeAryCuckoo

theorem setBucket_size3 (s : ThreeAryCuckoo) (b k h : Nat) :
    (s.setBucket b k h).buckets.length = s.buckets.length := by
  show (s.buckets.set b (some k)).length = _
  simp

theorem clearBucket_size3 (s : ThreeAryCuckoo) (b : Nat) :
    (s.clearBucket b).buckets.length = s.buckets.length := by
  show (s.buckets.set b none).length = _
  simp

theorem bucketsFor_frame3 (s s' : ThreeAryCuckoo) (hh : s'.hashers = s.hashers)
    (hl : s'.buckets.length = s.buckets.length) (k : Nat) :
    s'.bucketsFor k = s.bucketsFor k := by
  unfold bucketsFor
  rw [hh, hl]

theorem hashA_frame3 (s s' : ThreeAryCuckoo) (hh : s'.hashers = s.hashers)
    (k : Nat) : s'.hashA k = s.hashA k := by
  unfold hashA
  rw [hh]

theorem rehashAux_lt (hashers : List (Nat → Nat)) (key n : Nat) (bad : List Nat) :
    ∀ (fuel b idx bb idx2 : Nat),
      rehashAux hashers key n bad b idx fuel = some (bb, idx2) → b < n → bb < n := by
  intro fuel
  induction fuel with
  | zero =>
    intro b idx bb idx2 h hb
    unfold rehashAux at h
    by_cases hbad : bad.contains b = true
    · rw [if_pos hbad] at h
      simp at h
    · rw [if_neg hbad] at h
      injection h with h2
      have hfst : b = bb := congrArg Prod.fst h2
      rw [← hfst]
      exact hb
  | succ fuel ih =>
    intro b idx bb idx2 h hb
    unfold rehashAux at h
    by_cases hbad : bad.contains b = true
    · rw [if_pos hbad] at h
      match hh : hashers.get? idx with
      | none =>
        rw [hh] at h
        simp at h
      | some f =>
        rw [hh] at h
        simp only at h
        by_cases hn0 : 0 < n
        · exact ih _ _ _ _ h (Nat.mod_lt _ hn0)
        · omega
    · rw [if_neg hbad] at h
      injection h with h2
      have hfst : b = bb := congrArg Prod.fst h2
      rw [← hfst]
      exact hb

theorem bucketsFor_spec3 (s : ThreeAryCuckoo) (key h a b c : Nat)
    (hr : s.bucketsFor key = some (h, a, b, c)) :
    h = s.hashA key ∧
      (0 < s.buckets.length →
        a < s.buckets.length ∧ b < s.buckets.length ∧ c < s.buckets.length) := by
  unfold bucketsFor at hr
  match hh0 : s.hashers.get? 0, hh1 : s.hashers.get? 1, hh2 : s.hashers.get? 2 with
  | none, _, _ =>
    rw [hh0] at hr
    simp at hr
  | some f0, none, _ =>
    rw [hh0, hh1] at hr
    simp at hr
  | some f0, some f1, none =>
    rw [hh0, hh1, hh2] at hr
    simp at hr
  | some f0, some f1, some f2 =>
    rw [hh0, hh1, hh2] at hr
    simp only at hr
    match hxb : rehashAux s.hashers key s.buckets.length
        [f0 key % s.buckets.length] (f1 key % s.buckets.length) 3
        s.hashers.length with
    | none =>
      rw [hxb] at hr
      simp at hr
    | some (bb, idx) =>
      rw [hxb] at hr
      simp only at hr
      match hxc : rehashAux s.hashers key s.buckets.length
          [f0 key % s.buckets.length, bb] (f2 key % s.buckets.length) idx
          s.hashers.length with
      | none =>
        rw [hxc] at hr
        simp at hr
      | some (cc, idx2) =>
        rw [hxc] at hr
        simp only at hr
        injection hr with h4
        cases h4
        refine ⟨?_, fun hn => ⟨Nat.mod_lt _ hn, ?_, ?_⟩⟩
        · unfold hashA
          rw [hh0]
        · exact rehashAux_lt s.hashers key s.buckets.length _ _ _ _ _ _ hxb
            (Nat.mod_lt _ hn)
        · exact rehashAux_lt s.hashers key s.buckets.length _ _ _ _ _ _ hxc
            (Nat.mod_lt _ hn)

theorem slice_of_stored3 (s : ThreeAryCuckoo) (hs : s.Sync) (b k : Nat)
    (hb : b < s.buckets.length) (hk : s.buckets.getD b none = some k) :
    s.meta.slice b = metaFullPat s.meta.bits (s.hashA k) := by
  have := hs.2 b hb
  rw [hk] at this
  exact this

theorem slice_of_none3 (s : ThreeAryCuckoo) (hs : s.Sync) (b : Nat)
    (hb : b < s.buckets.length) (hk : s.buckets.getD b none = none) :
    s.meta.slice b = metaEmptyPat s.meta.bits := by
  have := hs.2 b hb
  rw [hk] at this
  exact this

theorem slice_bits_zero3 (s : ThreeAryCuckoo) (hs : s.Sync) (b : Nat)
    (hb : b < s.buckets.length) (h0 : s.meta.bits = 0) :
    s.meta.slice b = [] := by
  have := hs.2 b hb
  match hcase : s.buckets.getD b none with
  | none =>
    rw [hcase] at this
    simp only at this
    rw [this]
    unfold metaEmptyPat
    rw [h0]
    rfl
  | some k =>
    rw [hcase] at this
    simp only at this
    rw [this]
    unfold metaFullPat
    rw [if_pos h0]

theorem getD_none_of_hintEmpty3 (s : ThreeAryCuckoo) (hs : s.Sync) (b : Nat)
    (hb : b < s.buckets.length) (he : s.meta.hintEmpty b = true) :
    s.buckets.getD b none = none := by
  match hcase : s.buckets.getD b none with
  | none => rfl
  | some k =>
    have := hintEmpty_fullPat _ b _ (slice_of_stored3 s hs b k hb hcase)
    rw [this] at he
    cases he

theorem setBucket_sync3 (s : ThreeAryCuckoo) (hs : s.Sync) (b k : Nat)
    (hb : b < s.buckets.length) :
    (s.setBucket b k (s.hashA k)).Sync := by
  obtain ⟨hlen, hsl⟩ := hs
  have hbv : b < s.meta.vec.length := by rw [hlen]; exact hb
  have hnil : s.meta.bits = 0 → s.meta.slice b = [] :=
    fun h0 => slice_bits_zero3 s ⟨hlen, hsl⟩ b hb h0
  constructor
  · show (s.meta.setFull b (.Hash (s.hashA k))).vec.length
      = (s.buckets.set b (some k)).length
    rw [setFull_vecLen]
    simpa using hlen
  · intro b' hb'
    have hb'' : b' < s.buckets.length := by
      rw [setBucket_size3] at hb'
      exact hb'
    show (s.meta.setFull b (.Hash (s.hashA k))).slice b' = _
    by_cases heq : b' = b
    · subst heq
      rw [slice_setFull_hash_all _ _ _ hbv hnil]
      show _ = (match (s.buckets.set b' (some k)).getD b' none with
        | none => metaEmptyPat (s.meta.setFull b' (.Hash (s.hashA k))).bits
        | some kk => metaFullPat (s.meta.setFull b' (.Hash (s.hashA k))).bits
            ((s.setBucket b' k (s.hashA k)).hashA kk))
      rw [getD_set_self _ _ _ _ hb]
      simp only
      rw [setFull_bits]
      rfl
    · rw [slice_setFull_ne _ _ _ _ heq]
      have hold := hsl b' hb''
      show _ = (match (s.buckets.set b (some k)).getD b' none with
        | none => metaEmptyPat (s.meta.setFull b (.Hash (s.hashA k))).bits
        | some kk => metaFullPat (s.meta.setFull b (.Hash (s.hashA k))).bits
            ((s.setBucket b k (s.hashA k)).hashA kk))
      rw [getD_set_ne _ _ _ _ _ (fun hx => heq hx.symm)]
      rw [hold]
      match s.buckets.getD b' none with
      | none => rw [setFull_bits]
      | some kk =>
        rw [setFull_bits]
        exact rfl

theorem clearBucket_sync3 (s : ThreeAryCuckoo) (hs : s.Sync) (b : Nat)
    (hb : b < s.buckets.length) : (s.clearBucket b).Sync := by
  obtain ⟨hlen, hsl⟩ := hs
  have hbv : b < s.meta.vec.length := by rw [hlen]; exact hb
  have hnil : s.meta.bits = 0 → s.meta.slice b = [] :=
    fun h0 => slice_bits_zero3 s ⟨hlen, hsl⟩ b hb h0
  constructor
  · show (s.meta.setEmpty b).vec.length = (s.buckets.set b none).length
    rw [setEmpty_vecLen]
    simpa using hlen
  · intro b' hb'
    have hb'' : b' < s.buckets.length := by
      rw [clearBucket_size3] at hb'
      exact hb'
    show (s.meta.setEmpty b).slice b' = _
    by_cases heq : b' = b
    · subst heq
      rw [slice_setEmpty_all _ _ hbv hnil]
      show _ = (match (s.buckets.set b' none).getD b' none with
        | none => metaEmptyPat (s.meta.setEmpty b').bits
        | some kk => metaFullPat (s.meta.setEmpty b').bits
            ((s.clearBucket b').hashA kk))
      rw [getD_set_self _ _ _ _ hb]
      simp only
      rw [setEmpty_bits]
    · rw [slice_setEmpty_ne _ _ _ heq]
      have hold := hsl b' hb''
      show _ = (match (s.buckets.set b none).getD b' none with
        | none => metaEmptyPat (s.meta.setEmpty b).bits
        | some kk => metaFullPat (s.meta.setEmpty b).bits
            ((s.clearBucket b).hashA kk))
      rw [getD_set_ne _ _ _ _ _ (fun hx => heq hx.symm)]
      rw [hold]
      match s.buckets.getD b' none with
      | none => rw [setEmpty_bits]
      | some kk =>
        rw [setEmpty_bits]
        exact rfl

theorem new_sync3 (capacity metaBits : Nat) (hashers : List (Nat → Nat)) :
    (new capacity metaBits hashers).Sync := by
  constructor
  · simp [new, MetaMap.new]
  · intro b hb
    have hb' : b < capacity := by simpa [new] using hb
    show MetaMap.slice _ b = _
    unfold MetaMap.slice
    simp only [new, MetaMap.new]
    rw [getD_replicate _ _ _ _ hb', getD_replicate _ _ _ _ hb']
    rfl

/-- Writing `active` over an empty bucket of its triple keeps the meta
map synced, stores `active`, and keeps every other stored key stored. -/
theorem setBucket_stores3 (s : ThreeAryCuckoo) (active h a b c t : Nat)
    (hsync : s.Sync) (hinfo : s.bucketsFor active = some (h, a, b, c))
    (htn : t < s.buckets.length) (ht3 : t = a ∨ t = b ∨ t = c)
    (hte : s.buckets.getD t none = none) (hh : h = s.hashA active) :
    (s.setBucket t active h).Sync ∧
    (s.setBucket t active h).KeyStored active ∧
    ∀ j, s.KeyStored j → (s.setBucket t active h).KeyStored j := by
  refine ⟨?_, ?_, ?_⟩
  · rw [hh]
    exact setBucket_sync3 s hsync t active htn
  · refine ⟨h, a, b, c, ?_, ?_⟩
    · rw [bucketsFor_frame3 s (s.setBucket t active h) rfl (setBucket_size3 s t active h)]
      exact hinfo
    · show (s.buckets.set t (some active)).getD a none = some active ∨
        (s.buckets.set t (some active)).getD b none = some active ∨
        (s.buckets.set t (some active)).getD c none = some active
      rcases ht3 with h2 | h2 | h2
      · exact Or.inl (by rw [← h2]; exact getD_set_self _ _ _ _ htn)
      · exact Or.inr (Or.inl (by rw [← h2]; exact getD_set_self _ _ _ _ htn))
      · exact Or.inr (Or.inr (by rw [← h2]; exact getD_set_self _ _ _ _ htn))
  · intro j hstj
    obtain ⟨hj', aj, bj, cj, hrj, horj⟩ := hstj
    refine ⟨hj', aj, bj, cj, ?_, ?_⟩
    · rw [bucketsFor_frame3 s (s.setBucket t active h) rfl (setBucket_size3 s t active h)]
      exact hrj
    · have hpres : ∀ cc, s.buckets.getD cc none = some j →
          (s.buckets.set t (some active)).getD cc none = some j := by
        intro cc hcj
        have hct : t ≠ cc := by
          intro he
          rw [← he, hte] at hcj
          cases hcj
        rw [getD_set_ne _ _ _ _ _ hct]
        exact hcj
      rcases horj with hcj | hcj | hcj
      · exact Or.inl (hpres _ hcj)
      · exact Or.inr (Or.inl (hpres _ hcj))
      · exact Or.inr (Or.inr (hpres _ hcj))

theorem mem_maskCands (aa bb cc t : Nat) (uA uB uC : Bool)
    (ht : t ∈ (if uA = true then [aa] else []) ++ (if uB = true then [bb] else [])
      ++ (if uC = true then [cc] else [])) :
    t = aa ∨ t = bb ∨ t = cc := by
  rcases List.mem_append.1 ht with h1 | h3
  · rcases List.mem_append.1 h1 with ha | hb
    · refine Or.inl ?_
      cases uA
      · exact absurd ha (by simp)
      · simpa using ha
    · refine Or.inr (Or.inl ?_)
      cases uB
      · exact absurd hb (by simp)
      · simpa using hb
  · refine Or.inr (Or.inr ?_)
    cases uC
    · exact absurd h3 (by simp)
    · simpa using h3

/-- When the empty-bucket scan of `ThreeAryCuckoo::insert` places the
active key, the placement bucket is an empty candidate. -/
theorem tryEmpty_spec (s : ThreeAryCuckoo) (key activeKey hash : Nat)
    (hsync : s.Sync) :
    ∀ (cands : List Nat) (u : Update) (r : ThreeAryCuckoo × Update),
      (∀ t ∈ cands, t < s.buckets.length) →
      (tryEmpty s key activeKey hash cands u).1 = some r →
      ∃ t, t ∈ cands ∧ s.buckets.getD t none = none ∧
        r.1 = s.setBucket t activeKey hash := by
  intro cands
  induction cands with
  | nil =>
    intro u r _ h
    exact absurd h (by simp [tryEmpty])
  | cons t rest ih =>
    intro u r hbnd h
    unfold tryEmpty at h
    dsimp only at h
    by_cases hhe : s.meta.hintEmpty t = true
    · rw [if_pos hhe] at h
      simp only at h
      injection h with h2
      refine ⟨t, List.mem_cons_self _ _,
        getD_none_of_hintEmpty3 s hsync t (hbnd t (List.mem_cons_self _ _)) hhe, ?_⟩
      rw [← h2]
    · rw [if_neg hhe] at h
      by_cases hb0 : s.meta.bits = 0
      · rw [if_pos hb0] at h
        match hrd : s.buckets.getD t none with
        | none =>
          rw [hrd, if_pos rfl] at h
          simp only at h
          injection h with h2
          exact ⟨t, List.mem_cons_self _ _, hrd, by rw [← h2]⟩
        | some k0 =>
          rw [hrd, if_neg (by simp)] at h
          obtain ⟨t2, ht2, he2, hr2⟩ :=
            ih _ r (fun x hx => hbnd x (List.mem_cons_of_mem _ hx)) h
          exact ⟨t2, List.mem_cons_of_mem _ ht2, he2, hr2⟩
      · rw [if_neg hb0] at h
        obtain ⟨t2, ht2, he2, hr2⟩ :=
          ih _ r (fun x hx => hbnd x (List.mem_cons_of_mem _ hx)) h
        exact ⟨t2, List.mem_cons_of_mem _ ht2, he2, hr2⟩

/-- The eviction chain of `ThreeAryCuckoo::insert` preserves sync and,
on every `completed = true` return, keeps every ledger key stored. -/
theorem insertChain_stores3 (key : Nat) (L : List Nat) :
    ∀ (fuel : Nat) (rng : List Nat) (s : ThreeAryCuckoo) (active h a b c : Nat)
      (mask : Bool × Bool × Bool) (u : Update) (s' : ThreeAryCuckoo) (u' : Update),
      0 < s.buckets.length → s.Sync →
      (∀ kk, (s.bucketsFor kk).isSome = true) →
      s.bucketsFor active = some (h, a, b, c) →
      (∀ j ∈ L, j = active ∨ s.KeyStored j) →
      insertChain key fuel rng s active (h, a, b, c) mask u = some (s', u') →
      u'.completed = true →
      s'.hashers = s.hashers ∧ s'.buckets.length = s.buckets.length ∧
        s'.Sync ∧ ∀ j ∈ L, s'.KeyStored j := by
  intro fuel
  induction fuel with
  | zero =>
    intro rng s active h a b c mask u s' u' _ _ _ _ _ hch hc
    rw [show insertChain key 0 rng s active (h, a, b, c) mask u
        = some (s, { u with completed := false }) from rfl] at hch
    injection hch with hp
    have h2 : ({ u with completed := false } : Update) = u' := congrArg Prod.snd hp
    rw [← h2] at hc
    exact Bool.noConfusion hc
  | succ fuel ih =>
    intro rng s active h a b c mask u s' u' hn hsync hders hinfo hL hch hc
    obtain ⟨useA, useB, useC⟩ := mask
    obtain ⟨hh, hbnd⟩ := bucketsFor_spec3 s active h a b c hinfo
    obtain ⟨haltn, hbltn, hcltn⟩ := hbnd hn
    unfold insertChain at hch
    dsimp only at hch
    have hcand : ∀ t ∈ (if useA = true then [a] else [])
        ++ (if useB = true then [b] else []) ++ (if useC = true then [c] else []),
        t < s.buckets.length := by
      intro t ht
      rcases mem_maskCands a b c t useA useB useC ht with h2 | h2 | h2
      · rw [h2]; exact haltn
      · rw [h2]; exact hbltn
      · rw [h2]; exact hcltn
    match htre : tryEmpty s key active h ((if useA = true then [a] else [])
        ++ (if useB = true then [b] else []) ++ (if useC = true then [c] else [])) u with
    | (some r, u2) =>
      rw [htre] at hch
      simp only at hch
      injection hch with h2
      obtain ⟨t, htmem, hte, hr1⟩ := tryEmpty_spec s key active h hsync _ u r hcand
        (by rw [htre])
      have ht3 := mem_maskCands a b c t useA useB useC htmem
      have htn : t < s.buckets.length := hcand t htmem
      obtain ⟨hsy', hsta, hstp⟩ :=
        setBucket_stores3 s active h a b c t hsync hinfo htn ht3 hte hh
      have hs2 : s.setBucket t active h = s' := by
        rw [← hr1, h2]
      subst hs2
      refine ⟨rfl, setBucket_size3 s t active h, hsy', ?_⟩
      intro j hj
      rcases hL j hj with hja | hstj
      · rw [hja]
        exact hsta
      · exact hstp j hstj
    | (none, u2) =>
      rw [htre] at hch
      simp only at hch
      match hpick : pickEvict useA useB useC rng with
      | none =>
        rw [hpick] at hch
        simp at hch
      | some (i, rng2) =>
        rw [hpick] at hch
        simp only at hch
        generalize hedef : (if i = 0 then a else if i = 1 then b else c) = e at hch
        have he3 : e = a ∨ e = b ∨ e = c := by
          rw [← hedef]
          split_ifs <;> simp
        have heltn : e < s.buckets.length := by
          rcases he3 with h2 | h2 | h2
          · rw [h2]; exact haltn
          · rw [h2]; exact hbltn
          · rw [h2]; exact hcltn
        match hread : s.buckets.getD e none with
        | none =>
          rw [hread] at hch
          simp at hch
        | some swapKey =>
          rw [hread] at hch
          simp only at hch
          have hsy1 : (s.setBucket e active h).Sync := by
            rw [hh]
            exact setBucket_sync3 s hsync e active heltn
          have hn1 : 0 < (s.setBucket e active h).buckets.length := by
            rw [setBucket_size3]
            exact hn
          have hders1 : ∀ k2, ((s.setBucket e active h).bucketsFor k2).isSome
              = true := by
            intro k2
            rw [bucketsFor_frame3 s (s.setBucket e active h) rfl
              (setBucket_size3 s e active h)]
            exact hders k2
          have hL1 : ∀ j ∈ L, j = swapKey ∨ (s.setBucket e active h).KeyStored j := by
            intro j hj
            rcases hL j hj with hja | hstj
            · right
              rw [hja]
              refine ⟨h, a, b, c, ?_, ?_⟩
              · rw [bucketsFor_frame3 s (s.setBucket e active h) rfl
                  (setBucket_size3 s e active h)]
                exact hinfo
              · show (s.buckets.set e (some active)).getD a none = some active ∨
                  (s.buckets.set e (some active)).getD b none = some active ∨
                  (s.buckets.set e (some active)).getD c none = some active
                rcases he3 with h2 | h2 | h2
                · exact Or.inl (by rw [← h2]; exact getD_set_self _ _ _ _ heltn)
                · exact Or.inr (Or.inl (by
                    rw [← h2]; exact getD_set_self _ _ _ _ heltn))
                · exact Or.inr (Or.inr (by
                    rw [← h2]; exact getD_set_self _ _ _ _ heltn))
            · obtain ⟨hj', aj, bj, cj, hrj, horj⟩ := hstj
              by_cases hjkk : j = swapKey
              · exact Or.inl hjkk
              · right
                refine ⟨hj', aj, bj, cj, ?_, ?_⟩
                · rw [bucketsFor_frame3 s (s.setBucket e active h) rfl
                    (setBucket_size3 s e active h)]
                  exact hrj
                · have hpres : ∀ cc, s.buckets.getD cc none = some j →
                      (s.buckets.set e (some active)).getD cc none = some j := by
                    intro cc hcj
                    have hct : e ≠ cc := by
                      intro he
                      rw [← he, hread] at hcj
                      injection hcj with hkj
                      exact hjkk hkj.symm
                    rw [getD_set_ne _ _ _ _ _ hct]
                    exact hcj
                  rcases horj with hcj | hcj | hcj
                  · exact Or.inl (hpres _ hcj)
                  · exact Or.inr (Or.inl (hpres _ hcj))
                  · exact Or.inr (Or.inr (hpres _ hcj))
          match hinfo2 : (s.setBucket e active h).bucketsFor swapKey with
          | none =>
            have hcon := hders1 swapKey
            rw [hinfo2] at hcon
            cases hcon
          | some (h2, a2, b2, c2) =>
            rw [hinfo2] at hch
            simp only at hch
            obtain ⟨hh1, hl1, hsyr, hstr⟩ := ih rng2 (s.setBucket e active h)
              swapKey h2 a2 b2 c2 _ _ s' u' hn1 hsy1 hders1 hinfo2 hL1 hch hc
            exact ⟨hh1.trans rfl, hl1.trans (setBucket_size3 s e active h), hsyr, hstr⟩

theorem probeStep_found (s : ThreeAryCuckoo) (key h t p : Nat)
    (hnm : s.meta.hintNotMatch t h = false)
    (hk : s.buckets.getD t none = some key) :
    probeStep s key h t p = (some ⟨true, p + 1⟩, p + 1) := by
  unfold probeStep
  rw [hnm]
  simp only [Bool.not_false, if_true]
  rw [if_pos hk]

theorem probeStep_miss (s : ThreeAryCuckoo) (key h t p : Nat)
    (hk : ¬ s.buckets.getD t none = some key) :
    probeStep s key h t p
      = (none, if !(s.meta.hintNotMatch t h) then p + 1 else p) := by
  unfold probeStep
  by_cases hnm : s.meta.hintNotMatch t h = true
  · rw [hnm]
    simp only [Bool.not_true, Bool.false_eq_true, if_false]
  · rw [Bool.not_eq_true] at hnm
    rw [hnm]
    simp only [Bool.not_false, if_true]
    rw [if_neg hk]

/-- In a synced state that stores `key`, `probe` finds it in at most
three bucket probes. -/
theorem probe_finds3 (s : ThreeAryCuckoo) (key : Nat) (hn : 0 < s.buckets.length)
    (hsync : s.Sync) (hst : s.KeyStored key) :
    ∃ p, s.probe key = some ⟨true, p⟩ ∧ p ≤ 3 := by
  obtain ⟨h, a, b, c, hr, hor⟩ := hst
  obtain ⟨hh, hbnd⟩ := bucketsFor_spec3 s key h a b c hr
  obtain ⟨haltn, hbltn, hcltn⟩ := hbnd hn
  unfold probe
  rw [hr]
  dsimp only
  by_cases hka : s.buckets.getD a none = some key
  · have hnma : s.meta.hintNotMatch a h = false := by
      rw [hh]
      exact hintNotMatch_fullPat_same _ _ _ (slice_of_stored3 s hsync a key haltn hka)
    rw [probeStep_found s key h a 0 hnma hka]
    exact ⟨1, rfl, by omega⟩
  · rw [probeStep_miss s key h a 0 hka]
    dsimp only
    by_cases hkb : s.buckets.getD b none = some key
    · have hnmb : s.meta.hintNotMatch b h = false := by
        rw [hh]
        exact hintNotMatch_fullPat_same _ _ _ (slice_of_stored3 s hsync b key hbltn hkb)
      rw [probeStep_found s key h b _ hnmb hkb]
      refine ⟨(if !(s.meta.hintNotMatch a h) then 0 + 1 else 0) + 1, rfl, ?_⟩
      split_ifs <;> omega
    · rw [probeStep_miss s key h b _ hkb]
      dsimp only
      have hkc : s.buckets.getD c none = some key := by
        rcases hor with h1 | h1 | h1
        · exact absurd h1 hka
        · exact absurd h1 hkb
        · exact h1
      have hnmc : s.meta.hintNotMatch c h = false := by
        rw [hh]
        exact hintNotMatch_fullPat_same _ _ _ (slice_of_stored3 s hsync c key hcltn hkc)
      rw [probeStep_found s key h c _ hnmc hkc]
      refine ⟨(if !(s.meta.hintNotMatch b h)
          then (if !(s.meta.hintNotMatch a h) then 0 + 1 else 0) + 1
          else (if !(s.meta.hintNotMatch a h) then 0 + 1 else 0)) + 1, rfl, ?_⟩
      split_ifs <;> omega

/-- A completed `ThreeAryCuckoo::insert` preserves the invariant, the
key joining the live set. -/
theorem insert_keeps_inv3 (s : ThreeAryCuckoo) (live : List Nat) (key : Nat)
    (hinv : s.Inv live) (rng : List Nat) (s' : ThreeAryCuckoo) (u : Update)
    (hins : s.insert rng key = some (s', u)) (hc : u.completed = true) :
    s'.Inv (key :: live) ∧ s'.hashers = s.hashers ∧
      s'.buckets.length = s.buckets.length := by
  obtain ⟨⟨hn, hsync, hders⟩, hlive⟩ := hinv
  match hinfo : s.bucketsFor key with
  | none =>
    unfold insert at hins
    rw [hinfo] at hins
    cases hins
  | some (h, a, b, c) =>
    unfold insert at hins
    rw [hinfo] at hins
    dsimp only at hins
    have hfound : ∀ (t : Nat) (u0 : Update), (t = a ∨ t = b ∨ t = c) →
        s.buckets.getD t none = some key →
        some (s, u0) = some (s', u) →
        s'.Inv (key :: live) ∧ s'.hashers = s.hashers ∧
          s'.buckets.length = s.buckets.length := by
      intro t u0 ht3 htk heq
      injection heq with hp
      have hs2 : s = s' := congrArg Prod.fst hp
      subst hs2
      refine ⟨⟨⟨hn, hsync, hders⟩, ?_⟩, rfl, rfl⟩
      intro j hj
      rcases List.mem_cons.1 hj with hje | hjl
      · rw [hje]
        refine ⟨h, a, b, c, hinfo, ?_⟩
        rcases ht3 with h2 | h2 | h2
        · exact Or.inl (by rw [← h2]; exact htk)
        · exact Or.inr (Or.inl (by rw [← h2]; exact htk))
        · exact Or.inr (Or.inr (by rw [← h2]; exact htk))
      · exact hlive j hjl
    have hchain : ∀ (u0 : Update),
        insertChain key 128 rng { s with len := s.len + 1 } key (h, a, b, c)
          (true, true, true) u0 = some (s', u) →
        s'.Inv (key :: live) ∧ s'.hashers = s.hashers ∧
          s'.buckets.length = s.buckets.length := by
      intro u0 hch
      have hL : ∀ j ∈ key :: live,
          j = key ∨ ({ s with len := s.len + 1 } : ThreeAryCuckoo).KeyStored j := by
        intro j hj
        rcases List.mem_cons.1 hj with hje | hjl
        · exact Or.inl hje
        · exact Or.inr (hlive j hjl)
      obtain ⟨hh', hl', hsync', hst'⟩ := insertChain_stores3 key (key :: live) 128
        rng { s with len := s.len + 1 } key h a b c (true, true, true) u0 s' u
        hn hsync (fun kk => hders kk) hinfo hL hch hc
      refine ⟨⟨⟨?_, hsync', ?_⟩, hst'⟩, hh', hl'⟩
      · rw [hl']
        exact hn
      · intro k2
        rw [bucketsFor_frame3 s s' hh' hl']
        exact hders k2
    by_cases h1 : (!(s.meta.hintNotMatch a h)
        && decide (s.buckets.getD b none = some key)) = true
    · rw [if_pos h1] at hins
      have hkb : s.buckets.getD b none = some key := by
        rw [Bool.and_eq_true] at h1
        exact of_decide_eq_true h1.2
      exact hfound b _ (Or.inr (Or.inl rfl)) hkb hins
    · rw [if_neg h1] at hins
      by_cases h2 : (!(s.meta.hintNotMatch b h)
          && decide (s.buckets.getD b none = some key)) = true
      · rw [if_pos h2] at hins
        have hkb : s.buckets.getD b none = some key := by
          rw [Bool.and_eq_true] at h2
          exact of_decide_eq_true h2.2
        exact hfound b _ (Or.inr (Or.inl rfl)) hkb hins
      · rw [if_neg h2] at hins
        by_cases h3 : (!(s.meta.hintNotMatch c h)
            && decide (s.buckets.getD c none = some key)) = true
        · rw [if_pos h3] at hins
          have hkc : s.buckets.getD c none = some key := by
            rw [Bool.and_eq_true] at h3
            exact of_decide_eq_true h3.2
          exact hfound c _ (Or.inr (Or.inr rfl)) hkc hins
        · rw [if_neg h3] at hins
          exact hchain _ hins

/-- Clearing a bucket holding `key` keeps the invariant for the live
keys other than `key`. -/
theorem clearBucket_removes3 (s : ThreeAryCuckoo) (live : List Nat) (key cc : Nat)
    (hinv : s.Inv live) (hcn : cc < s.buckets.length)
    (hck : s.buckets.getD cc none = some key) :
    (s.clearBucket cc).Inv (live.filter (fun j => j ≠ key)) := by
  obtain ⟨⟨hn, hsync, hders⟩, hlive⟩ := hinv
  refine ⟨⟨?_, clearBucket_sync3 s hsync cc hcn, ?_⟩, ?_⟩
  · rw [clearBucket_size3]
    exact hn
  · intro k2
    rw [bucketsFor_frame3 s (s.clearBucket cc) rfl (clearBucket_size3 s cc)]
    exact hders k2
  · intro j hj
    obtain ⟨hjmem, hjne⟩ := List.mem_filter.1 hj
    have hjkey : j ≠ key := by simpa using hjne
    obtain ⟨hj', aj, bj, cj, hrj, horj⟩ := hlive j hjmem
    refine ⟨hj', aj, bj, cj, ?_, ?_⟩
    · rw [bucketsFor_frame3 s (s.clearBucket cc) rfl (clearBucket_size3 s cc)]
      exact hrj
    · have hpres : ∀ dd, s.buckets.getD dd none = some j →
          (s.buckets.set cc none).getD dd none = some j := by
        intro dd hcj
        have hcd : cc ≠ dd := by
          intro he
          rw [← he, hck] at hcj
          injection hcj with hkj
          exact hjkey hkj.symm
        rw [getD_set_ne _ _ _ _ _ hcd]
        exact hcj
      rcases horj with hcj | hcj | hcj
      · exact Or.inl (hpres _ hcj)
      · exact Or.inr (Or.inl (hpres _ hcj))
      · exact Or.inr (Or.inr (hpres _ hcj))

/-- `ThreeAryCuckoo::remove` preserves the invariant, the key leaving
the live set. -/
theorem remove_keeps_inv3 (s : ThreeAryCuckoo) (live : List Nat) (key : Nat)
    (hinv : s.Inv live) (s' : ThreeAryCuckoo) (u : Update)
    (hrem : s.remove key = some (s', u)) :
    s'.Inv (live.filter (fun j => j ≠ key)) ∧ s'.hashers = s.hashers ∧
      s'.buckets.length = s.buckets.length := by
  obtain ⟨⟨hn, hsync, hders⟩, hlive⟩ := hinv
  have hid : s.Inv (live.filter (fun j => j ≠ key)) :=
    ⟨⟨hn, hsync, hders⟩, fun j hj => hlive j (List.mem_filter.1 hj).1⟩
  match hinfo : s.bucketsFor key with
  | none =>
    unfold remove at hrem
    rw [hinfo] at hrem
    cases hrem
  | some (h, a, b, c) =>
    obtain ⟨hh, hbnd⟩ := bucketsFor_spec3 s key h a b c hinfo
    obtain ⟨haltn, hbltn, hcltn⟩ := hbnd hn
    unfold remove at hrem
    rw [hinfo] at hrem
    dsimp only at hrem
    have hclear : ∀ (t : Nat) (u0 : Update), t < s.buckets.length →
        s.buckets.getD t none = some key →
        some (s.clearBucket t, u0) = some (s', u) →
        s'.Inv (live.filter (fun j => j ≠ key)) ∧ s'.hashers = s.hashers ∧
          s'.buckets.length = s.buckets.length := by
      intro t u0 htn htk heq
      injection heq with hp
      have hs2 : s.clearBucket t = s' := congrArg Prod.fst hp
      subst hs2
      exact ⟨clearBucket_removes3 s live key t ⟨⟨hn, hsync, hders⟩, hlive⟩ htn htk,
        rfl, clearBucket_size3 s t⟩
    by_cases hna : s.meta.hintNotMatch a h = true
    · rw [hna] at hrem
      simp only [Bool.not_true, Bool.false_eq_true, if_false] at hrem
      by_cases hnb : s.meta.hintNotMatch b h = true
      · rw [hnb] at hrem
        simp only [Bool.not_true, Bool.false_eq_true, if_false] at hrem
        by_cases hnc : s.meta.hintNotMatch c h = true
        · rw [hnc] at hrem
          simp only [Bool.not_true, Bool.false_eq_true, if_false] at hrem
          injection hrem with hp
          have hs2 : s = s' := congrArg Prod.fst hp
          subst hs2
          exact ⟨hid, rfl, rfl⟩
        · rw [Bool.not_eq_true] at hnc
          rw [hnc] at hrem
          simp only [Bool.not_false, if_true] at hrem
          by_cases hkc : s.buckets.getD c none = some key
          · rw [if_pos hkc] at hrem
            simp only at hrem
            exact hclear c _ hcltn hkc hrem
          · rw [if_neg hkc] at hrem
            simp only at hrem
            injection hrem with hp
            have hs2 : s = s' := congrArg Prod.fst hp
            subst hs2
            exact ⟨hid, rfl, rfl⟩
      · rw [Bool.not_eq_true] at hnb
        rw [hnb] at hrem
        simp only [Bool.not_false, if_true] at hrem
        by_cases hkb : s.buckets.getD b none = some key
        · rw [if_pos hkb] at hrem
          simp only at hrem
          exact hclear b _ hbltn hkb hrem
        · rw [if_neg hkb] at hrem
          simp only at hrem
          by_cases hnc : s.meta.hintNotMatch c h = true
          · rw [hnc] at hrem
            simp only [Bool.not_true, Bool.false_eq_true, if_false] at hrem
            injection hrem with hp
            have hs2 : s = s' := congrArg Prod.fst hp
            subst hs2
            exact ⟨hid, rfl, rfl⟩
          · rw [Bool.not_eq_true] at hnc
            rw [hnc] at hrem
            simp only [Bool.not_false, if_true] at hrem
            by_cases hkc : s.buckets.getD c none = some key
            · rw [if_pos hkc] at hrem
              simp only at hrem
              exact hclear c _ hcltn hkc hrem
            · rw [if_neg hkc] at hrem
              simp only at hrem
              injection hrem with hp
              have hs2 : s = s' := congrArg Prod.fst hp
              subst hs2
              exact ⟨hid, rfl, rfl⟩
    · rw [Bool.not_eq_true] at hna
      rw [hna] at hrem
      simp only [Bool.not_false, if_true] at hrem
      by_cases hka : s.buckets.getD a none = some key
      · rw [if_pos hka] at hrem
        simp only at hrem
        exact hclear a _ haltn hka hrem
      · rw [if_neg hka] at hrem
        simp only at hrem
        by_cases hnb : s.meta.hintNotMatch b h = true
        · rw [hnb] at hrem
          simp only [Bool.not_true, Bool.false_eq_true, if_false] at hrem
          by_cases hnc : s.meta.hintNotMatch c h = true
          · rw [hnc] at hrem
            simp only [Bool.not_true, Bool.false_eq_true, if_false] at hrem
            injection hrem with hp
            have hs2 : s = s' := congrArg Prod.fst hp
            subst hs2
            exact ⟨hid, rfl, rfl⟩
          · rw [Bool.not_eq_true] at hnc
            rw [hnc] at hrem
            simp only [Bool.not_false, if_true] at hrem
            by_cases hkc : s.buckets.getD c none = some key
            · rw [if_pos hkc] at hrem
              simp only at hrem
              exact hclear c _ hcltn hkc hrem
            · rw [if_neg hkc] at hrem
              simp only at hrem
              injection hrem with hp
              have hs2 : s = s' := congrArg Prod.fst hp
              subst hs2
              exact ⟨hid, rfl, rfl⟩
        · rw [Bool.not_eq_true] at hnb
          rw [hnb] at hrem
          simp only [Bool.not_false, if_true] at hrem
          by_cases hkb : s.buckets.getD b none = some key
          · rw [if_pos hkb] at hrem
            simp only at hrem
            exact hclear b _ hbltn hkb hrem
          · rw [if_neg hkb] at hrem
            simp only at hrem
            by_cases hnc : s.meta.hintNotMatch c h = true
            · rw [hnc] at hrem
              simp only [Bool.not_true, Bool.false_eq_true, if_false] at hrem
              injection hrem with hp
              have hs2 : s = s' := congrArg Prod.fst hp
              subst hs2
              exact ⟨hid, rfl, rfl⟩
            · rw [Bool.not_eq_true] at hnc
              rw [hnc] at hrem
              simp only [Bool.not_false, if_true] at hrem
              by_cases hkc : s.buckets.getD c none = some key
              · rw [if_pos hkc] at hrem
                simp only at hrem
                exact hclear c _ hcltn hkc hrem
              · rw [if_neg hkc] at hrem
                simp only at hrem
                injection hrem with hp
                have hs2 : s = s' := congrArg Prod.fst hp
                subst hs2
                exact ⟨hid, rfl, rfl⟩

theorem runOp_keeps_inv3 (s : ThreeAryCuckoo) (live : List Nat) (op : TOp)
    (rng : List Nat) (hinv : s.Inv live) (s' : ThreeAryCuckoo) (c : Bool)
    (hop : s.runOp op rng = some (s', c)) (hc : c = true) :
    s'.Inv (opStep live op) ∧ s'.hashers = s.hashers ∧
      s'.buckets.length = s.buckets.length := by
  match op with
  | .prb k =>
    injection hop with hp
    have hs2 : s = s' := congrArg Prod.fst hp
    subst hs2
    exact ⟨hinv, rfl, rfl⟩
  | .ins k =>
    match hins : s.insert rng k with
    | none =>
      unfold runOp at hop
      simp only at hop
      rw [hins] at hop
      cases hop
    | some (s1, u1) =>
      unfold runOp at hop
      simp only at hop
      rw [hins] at hop
      injection hop with hp
      have hs2 : s1 = s' := congrArg Prod.fst hp
      have hc2 : u1.completed = c := congrArg Prod.snd hp
      subst hs2
      rw [hc] at hc2
      exact insert_keeps_inv3 s live k ⟨hinv.1, hinv.2⟩ rng s1 u1 hins hc2
  | .rem k =>
    match hrm : s.remove k with
    | none =>
      unfold runOp at hop
      simp only at hop
      rw [hrm] at hop
      cases hop
    | some (s1, u1) =>
      unfold runOp at hop
      simp only at hop
      rw [hrm] at hop
      injection hop with hp
      have hs2 : s1 = s' := congrArg Prod.fst hp
      subst hs2
      exact remove_keeps_inv3 s live k ⟨hinv.1, hinv.2⟩ s1 u1 hrm

theorem runOps_keeps_inv3 : ∀ (ops : List (TOp × List Nat)) (s : ThreeAryCuckoo)
    (live : List Nat) (r : ThreeAryCuckoo × Bool),
    s.Inv live → s.runOps ops = some r → r.2 = true →
    r.1.Inv ((ops.map Prod.fst).foldl opStep live) ∧ r.1.hashers = s.hashers ∧
      r.1.buckets.length = s.buckets.length := by
  intro ops
  induction ops with
  | nil =>
    intro s live r hinv hrun hflag
    injection hrun with hp
    rw [← hp]
    exact ⟨hinv, rfl, rfl⟩
  | cons oprng rest ih =>
    intro s live r hinv hrun hflag
    obtain ⟨op, rng⟩ := oprng
    unfold runOps at hrun
    match hop : s.runOp op rng with
    | none =>
      rw [hop] at hrun
      cases hrun
    | some (s1, c1) =>
      rw [hop] at hrun
      simp only at hrun
      match hrest : s1.runOps rest with
      | none =>
        rw [hrest] at hrun
        cases hrun
      | some r2 =>
        rw [hrest] at hrun
        injection hrun with hp
        dsimp only at hp
        have hflag2 : (c1 && r2.2) = true := by
          have hsnd : (c1 && r2.2) = r.2 := congrArg Prod.snd hp
          exact hsnd.trans hflag
        rw [Bool.and_eq_true] at hflag2
        obtain ⟨hinv1, hh1, hl1⟩ := runOp_keeps_inv3 s live op rng hinv s1 c1
          hop hflag2.1
        obtain ⟨hinv2, hh2, hl2⟩ := ih s1 (opStep live op) r2 hinv1 hrest hflag2.2
        have hr1 : r2.1 = r.1 := by
          rw [← hp]
        rw [show ((op, rng) :: rest).map Prod.fst = op :: rest.map Prod.fst
          from rfl]
        refine ⟨?_, ?_, ?_⟩
        · rw [← hr1]
          exact hinv2
        · rw [← hr1]
          exact hh2.trans hh1
        · rw [← hr1]
          exact hl2.trans hl1

theorem new_inv3 (capacity metaBits : Nat) (hashers : List (Nat → Nat))
    (hcap : 0 < capacity)
    (hders : ∀ k, ((new capacity metaBits hashers).bucketsFor k).isSome = true) :
    (new capacity metaBits hashers).Inv [] := by
  refine ⟨⟨?_, new_sync3 capacity metaBits hashers, hders⟩,
    fun k hk => absurd hk (by simp)⟩
  show 0 < (List.replicate capacity (none : Option Nat)).length
  simpa using hcap

/-- C1 (amended), ThreeAryCuckoo part: after any fully-completed driver
run, every live key is found by `probe` with `contained = true` and at
most three probes. -/
theorem run_probe_finds3 (cap metaBits : Nat) (hashers : List (Nat → Nat))
    (ops : List (TOp × List Nat)) (r : ThreeAryCuckoo × Bool) (hcap : 0 < cap)
    (hders : ∀ k, ((new cap metaBits hashers).bucketsFor k).isSome = true)
    (hrun : (new cap metaBits hashers).runOps ops = some r) (hflag : r.2 = true) :
    ∀ k ∈ opsLive (ops.map Prod.fst),
      ∃ p, r.1.probe k = some ⟨true, p⟩ ∧ p ≤ 3 := by
  intro k hk
  obtain ⟨hinv, hh, hl⟩ := runOps_keeps_inv3 ops (new cap metaBits hashers) [] r
    (new_inv3 cap metaBits hashers hcap hders) hrun hflag
  have hn : 0 < r.1.buckets.length := by
    rw [hl]
    show 0 < (List.replicate cap (none : Option Nat)).length
    simpa using hcap
  exact probe_finds3 r.1 k hn hinv.1.2.1 (hinv.2 k hk)

end ThreeAryCuckoo

end ThreeAryInvariants

section C1Claims

/-- C1 (corrected): after a driver run in which every operation reported
`completed = true`, every key inserted and not subsequently removed is
found by `probe` with `contained = true` for the triangular engine and
all three cuckoo engines, and the probe count is at most 2 for
`Cuckoo`, at most 3 for `ThreeAryCuckoo` and at most 2 for
`BlockedCuckoo` (all well under `MAX_CHAIN = 128`); for `TriaProb` the
bound is only the table capacity, which can exceed 128 (first
counterexample part).  For `RobinHood` the claim fails outright: a
completed run can leave a live key that `probe` reports as absent
(second counterexample part), a consequence of the missing clear in
the backward shift of `remove` — the stale duplicate it leaves both
lets a full-table `insert` terminate and lets that insert bury a live
key under a psl-1 entry. -/
theorem C1_probe_finds_amended :
    (∀ (cap metaBits : Nat) (hash : Nat → Nat) (ops : List TOp),
      0 < cap →
      ((TriaProb.new cap metaBits hash).runOps ops).2 = true →
      ∀ k ∈ opsLive ops,
        (((TriaProb.new cap metaBits hash).runOps ops).1.probe k).contained = true ∧
        (((TriaProb.new cap metaBits hash).runOps ops).1.probe k).probes ≤ cap) ∧
    (∀ (cap metaBits : Nat) (hashers : List (Nat → Nat)) (ops : List TOp)
      (r : Cuckoo × Bool),
      0 < cap →
      (∀ k, ((Cuckoo.new cap metaBits hashers).bucketsFor k).isSome = true) →
      (Cuckoo.new cap metaBits hashers).runOps ops = some r → r.2 = true →
      ∀ k ∈ opsLive ops, ∃ p, r.1.probe k = some ⟨true, p⟩ ∧ p ≤ 2 ∧ p ≤ 128) ∧
    (∀ (cap metaBits : Nat) (hashers : List (Nat → Nat))
      (ops : List (TOp × List Nat)) (r : ThreeAryCuckoo × Bool),
      0 < cap →
      (∀ k, ((ThreeAryCuckoo.new cap metaBits hashers).bucketsFor k).isSome = true) →
      (ThreeAryCuckoo.new cap metaBits hashers).runOps ops = some r → r.2 = true →
      ∀ k ∈ opsLive (ops.map Prod.fst),
        ∃ p, r.1.probe k = some ⟨true, p⟩ ∧ p ≤ 3 ∧ p ≤ 128) ∧
    (∀ (cap : Nat) (hashers : List (Nat → Nat))
      (ops : List (TOp × List Nat)) (r : BlockedCuckoo × Bool),
      0 < (BlockedCuckoo.new cap hashers).blocks.length →
      (∀ k, ((BlockedCuckoo.new cap hashers).blocksFor k).isSome = true) →
      (BlockedCuckoo.new cap hashers).runOps ops = some r → r.2 = true →
      ∀ k ∈ opsLive (ops.map Prod.fst),
        ∃ p, r.1.probe k = some ⟨true, p⟩ ∧ p ≤ 2 ∧ p ≤ 128) := by
  refine ⟨?_, ?_, ?_, ?_⟩
  · intro cap metaBits hash ops hcap hrun k hk
    exact TriaProb.run_finds cap metaBits hash ops hcap hrun k hk
  · intro cap metaBits hashers ops r hcap hders hrun hflag k hk
    obtain ⟨p, hp, hp2⟩ :=
      Cuckoo.run_probe_finds cap metaBits hashers ops r hcap hders hrun hflag k hk
    exact ⟨p, hp, hp2, by omega⟩
  · intro cap metaBits hashers ops r hcap hders hrun hflag k hk
    obtain ⟨p, hp, hp2⟩ := ThreeAryCuckoo.run_probe_finds3 cap metaBits hashers
      ops r hcap hders hrun hflag k hk
    exact ⟨p, hp, hp2, by omega⟩
  · intro cap hashers ops r hn hders hrun hflag k hk
    obtain ⟨p, hp, hp2⟩ := BlockedCuckoo.run_probe_finds_blocked cap hashers
      ops r hn hders hrun hflag k hk
    exact ⟨p, hp, hp2, by omega⟩

/-- C1 witness: a one-insert run on each engine, with every hypothesis
discharged concretely. -/
theorem C1_witness :
    ((((TriaProb.new 4 2 constHash).runOps [TOp.ins 5]).1.probe 5).contained = true ∧
      (((TriaProb.new 4 2 constHash).runOps [TOp.ins 5]).1.probe 5).probes ≤ 4) ∧
    (∃ p, (((Cuckoo.new 4 2 blockedHashers).runOps [TOp.ins 5]).getD
        (Cuckoo.new 0 0 [], false)).1.probe 5 = some ⟨true, p⟩ ∧ p ≤ 2 ∧ p ≤ 128) ∧
    (∃ p, (((ThreeAryCuckoo.new 4 2 threeHashers).runOps [(TOp.ins 5, [])]).getD
        (ThreeAryCuckoo.new 0 0 [], false)).1.probe 5
        = some ⟨true, p⟩ ∧ p ≤ 3 ∧ p ≤ 128) ∧
    (∃ p, (((BlockedCuckoo.new 214 blockedHashers).runOps [(TOp.ins 5, [])]).getD
        (BlockedCuckoo.new 0 [], false)).1.probe 5
        = some ⟨true, p⟩ ∧ p ≤ 2 ∧ p ≤ 128) :=
  ⟨C1_probe_finds_amended.1 4 2 constHash [TOp.ins 5] (by decide) (by decide) 5 (by decide),
   C1_probe_finds_amended.2.1 4 2 blockedHashers [TOp.ins 5]
     (((Cuckoo.new 4 2 blockedHashers).runOps [TOp.ins 5]).getD (Cuckoo.new 0 0 [], false))
     (by decide) (fun k => rfl) rfl rfl 5 (by decide),
   C1_probe_finds_amended.2.2.1 4 2 threeHashers [(TOp.ins 5, [])]
     (((ThreeAryCuckoo.new 4 2 threeHashers).runOps [(TOp.ins 5, [])]).getD
       (ThreeAryCuckoo.new 0 0 [], false))
     (by decide) (fun k => rfl) rfl rfl 5 (by decide),
   C1_probe_finds_amended.2.2.2 214 blockedHashers [(TOp.ins 5, [])]
     (((BlockedCuckoo.new 214 blockedHashers).runOps [(TOp.ins 5, [])]).getD
       (BlockedCuckoo.new 0 [], false))
     (by decide) (fun k => rfl) rfl rfl 5 (by decide)⟩

set_option maxHeartbeats 4000000 in
/-- C1 counterexample.  Part (i): a fully-completed TriaProb run
(capacity 256, meta bits 0, hasher `triaHash`, 130 inserts) leaves the
live key 129 findable only after 130 probes — more than
`MAX_CHAIN = 128`.  Part (ii): the fully-completed RobinHood run
`rhC1Ops` (capacity 4, hasher `rhC1Hash`; five inserts and one remove,
each returning well within the driver fuel) leaves key 4 live yet
`probe 4` reports `contained = false` at any sufficient fuel: the
backward shift of `remove 2` left a stale duplicate of key 3 without
clearing it, `insert 5` then wrapped around the full table, overwrote
bucket 0 with key 5 at psl 1 — cutting off the probe path of the live
key 4 — and terminated on the stale duplicate. -/
theorem C1_counterexample :
    (triaC1Run.2 = true ∧ (129 : Nat) ∈ opsLive ((List.range 130).map TOp.ins) ∧
      triaC1Run.1.probe 129 = ⟨true, 130⟩ ∧ ¬ (130 ≤ 128)) ∧
    (∃ s2, rhC1Run = some s2 ∧ (4 : Nat) ∈ opsLive rhC1Ops ∧
      ∀ fuel, 2 ≤ fuel → s2.probe fuel 4 = some ⟨false, 2⟩) := by
  refine ⟨⟨?_, by decide, ?_, by decide⟩, ?_⟩
  · rfl
  · rfl
  · refine ⟨⟨rhC1Hash, [some 5, some 3, some 4, some 1],
      ⟨1, [[true], [true], [true], [true]]⟩, 4⟩, by rfl, by decide, ?_⟩
    intro fuel hf
    match fuel with
    | 0 => exact absurd hf (by decide)
    | 1 => exact absurd hf (by decide)
    | (f + 2) => rfl

end C1Claims

end HashPls

